import Mathlib

/-!
# packwiz `list` command

A shallow embedding of `cmd/list.go` (the `Run` closure of `listCmd`) and the
properties of its filter / sort / render pipeline.

Conventions of the embedding:

* Go strings are modelled by Lean `String` (a sequence of code points).  The
  records handled here come out of TOML documents, which are valid UTF-8, and
  on valid UTF-8 the byte-wise operations used by the command (`<`, `==`,
  searching for the ASCII texts `/` and `.pw.toml`) agree with the same
  operations on code points.
* A slice is a `List`; the in-place loops of the source are written as loops
  over an explicit list state (`List.set`, `List.take`).
* Functions of the Go standard library whose result is not fixed by the
  repository (`strings.ToLower`, the `%q` verb, `sort.Slice`, the iteration
  order of a map) are parameters, gathered in `GoLib`.
* `os.Exit(1)` ends the run with status `1`; a normal return is status `0`.
  Everything printed with `fmt.Print*` is accumulated in `stdout`.
-/

namespace Packwiz

/-! ## Data model -/

namespace core

/-- Modelled from the spec: the constant `core.UniversalSide`, declared in package `core`
(not part of this file); the spec gives the side value `both` (universal). -/
def UniversalSide : String := "both"

/-- Modelled from the spec: the constant `core.ServerSide`, declared in package `core`;
the spec gives the side value `server`. -/
def ServerSide : String := "server"

/-- Modelled from the spec: the constant `core.ClientSide`, declared in package `core`;
the spec gives the side value `client`. -/
def ClientSide : String := "client"

/-- Modelled from the spec: the constant `core.EmptySide`, declared in package `core`;
the spec gives the side value empty (unspecified). -/
def EmptySide : String := ""

/-- The `Download` part of a mod record; only `URL` is read by the command. -/
structure ModDownload where
  URL : String
deriving DecidableEq, Repr

/-- Modelled from the spec: the type `core.Mod`, declared in package `core`; the fields are
those the spec lists for a ModRecord.  `Update` holds the keys of the update
mapping (a Go map, so the keys are pairwise distinct and carry no order of
their own); `FilePath` is what `GetFilePath()` returns. -/
structure Mod where
  Name : String
  FileName : String
  Side : String
  Update : List String
  Download : ModDownload
  FilePath : String
deriving DecidableEq, Repr

/-- The accessor `mod.GetFilePath()`. -/
def Mod.GetFilePath (m : Mod) : String := m.FilePath

end core

open core

/-- The part of the viper registry the command reads: `list.side` (with
`viper.IsSet` true exactly when it is `some`), `list.json`, `list.version`. -/
structure Viper where
  side : Option String
  json : Bool
  version : Bool
deriving DecidableEq, Repr

/-- Standard-library behaviour the command depends on but does not fix. -/
structure GoLib where
  /-- The function `strings.ToLower`. -/
  ToLower : String → String
  /-- The text produced by the `%q` verb of `fmt.Printf`. -/
  Quote : String → String
  /-- The function `sort.Slice`, as a function of the comparison and the slice contents. -/
  Slice : (Mod → Mod → Bool) → List Mod → List Mod
  /-- The order in which the `n`-th `for k := range mod.Update` loop of one run
  yields the keys of the map. -/
  rangeKeys : Nat → List String → List String

/-- Go's `<` on strings: lexicographic comparison (by code point, which on
valid UTF-8 is the order of the encoded bytes). -/
def ltChars : List Char → List Char → Bool
  | _, [] => false
  | [], _ :: _ => true
  | a :: as, b :: bs => decide (a.toNat < b.toNat) || (a == b && ltChars as bs)

/-- Go's `s < t` on strings. -/
def strLt (s t : String) : Bool := ltChars s.data t.data

/-! ## The side filter (`list.go` lines 45-60) -/

/-- The condition of the `if` inside the filter loop (line 54). -/
def sideKeeps (side : String) (mod : Mod) : Bool :=
  mod.Side == side || mod.Side == EmptySide || mod.Side == UniversalSide
    || side == UniversalSide

/-- The loop of lines 52-58: `k` is the position `range` has reached, `i` the
write index, `mods` the current contents of the backing array; `n` bounds the
remaining iterations.  Returns the array and the final `i`. -/
def filterLoop (side : String) : Nat → Nat → Nat → List Mod → List Mod × Nat
  | 0, _, i, mods => (mods, i)
  | n + 1, k, i, mods =>
    match mods[k]? with
    | none => (mods, i)
    | some mod =>
      if sideKeeps side mod then
        filterLoop side n (k + 1) (i + 1) (mods.set i mod)
      else
        filterLoop side n (k + 1) i mods

/-- The text printed for a side value that is not recognised (line 48). -/
def invalidSideMessage (L : GoLib) (side : String) : String :=
  "Invalid side " ++ L.Quote side ++ ", must be one of client, server, or both (default)\n"

/-- Lines 45-60: `Except.error out` is the exit through `os.Exit(1)` after
printing `out`; `Except.ok mods` is the slice the run continues with. -/
def filterBySide (L : GoLib) (v : Viper) (mods : List Mod) : Except String (List Mod) :=
  match v.side with
  | none => .ok mods
  | some side =>
    if side != UniversalSide && side != ServerSide && side != ClientSide then
      .error (invalidSideMessage L side)
    else
      let r := filterLoop side mods.length 0 0 mods
      .ok (r.1.take r.2)

/-! ## The sort (`list.go` lines 62-64) -/

/-- The closure handed to `sort.Slice` (line 63), as a comparison of two
elements of the slice. -/
def nameLess (L : GoLib) (a b : Mod) : Bool :=
  strLt (L.ToLower a.Name) (L.ToLower b.Name)

/-- Lines 45-64: the slice after the side filter and the sort, which is what
the render branches iterate over; `Except.error out` is the exit through
`os.Exit(1)` after printing `out`. -/
def listedMods (L : GoLib) (v : Viper) (mods : List Mod) : Except String (List Mod) :=
  match filterBySide L v mods with
  | .error out => .error out
  | .ok mods => .ok (L.Slice (nameLess L) mods)

/-! ## Standard-library string functions used for the slug -/

/-- The function `strings.HasPrefix`. -/
def hasPrefixChars : List Char → List Char → Bool
  | _, [] => true
  | [], _ :: _ => false
  | a :: s, b :: p => a == b && hasPrefixChars s p

/-- The function `strings.LastIndexByte`: the position of the last `c` in `s`, or `-1`. -/
def LastIndexByte : List Char → Char → Int
  | [], _ => -1
  | x :: xs, c =>
    let r := LastIndexByte xs c
    if 0 ≤ r then r + 1 else if x == c then 0 else -1

/-- The function `path.Split`: `i := LastIndex(path, "/")`, then
`path[:i+1], path[i+1:]`. -/
def pathSplit (p : String) : String × String :=
  let i := LastIndexByte p.data (Char.ofNat 47)
  (⟨p.data.take (i + 1).toNat⟩, ⟨p.data.drop (i + 1).toNat⟩)

/-- The function `strings.Index`: the position of the first instance of `sub` in `s`,
or `-1`. -/
def Index : List Char → List Char → Int
  | [], sub => if sub.length == 0 then 0 else -1
  | c :: cs, sub =>
    if hasPrefixChars (c :: cs) sub then 0
    else
      let r := Index cs sub
      if 0 ≤ r then r + 1 else -1

/-- The loop of `strings.Count` for a `substr` of two or more bytes: `n` counts
the instances found so far, `s` is the text still to search. -/
def countLoop (substr : List Char) : Nat → List Char → Nat → Nat
  | 0, _, n => n
  | f + 1, s, n =>
    let i := Index s substr
    if i == -1 then n
    else countLoop substr f (s.drop (i.toNat + substr.length)) (n + 1)

/-- The function `strings.Count`: the number of non-overlapping instances of `substr`. -/
def Count (s substr : List Char) : Nat :=
  match substr with
  | [] => s.length + 1
  | [c] => s.count c
  | _ => countLoop substr (s.length + 1) s 0

/-- The loop of `strings.Replace`: `r` iterations remain, `i` is the loop
counter, `start` the read position in `s`, `b` the builder. -/
def replaceLoop (s old new : List Char) : Nat → Nat → Nat → List Char → List Char
  | 0, _, start, b => b ++ s.drop start
  | r + 1, i, start, b =>
    let j : Nat :=
      if old.length == 0 then (if 0 < i then start + 1 else start)
      else start + (Index (s.drop start) old).toNat
    replaceLoop s old new r (i + 1) (j + old.length)
      (b ++ (s.drop start).take (j - start) ++ new)

/-- The function `strings.Replace(s, old, new, n)`; a negative `n` means no limit. -/
def Replace (s old new : List Char) (n : Int) : List Char :=
  if old = new ∨ n = 0 then s
  else
    let m := Count s old
    if m = 0 then s
    else
      let n : Nat := if n < 0 ∨ (m : Int) < n then m else n.toNat
      replaceLoop s old new n 0 0 []

/-- The function `strings.ReplaceAll`. -/
def ReplaceAll (s old new : String) : String :=
  ⟨Replace s.data old.data new.data (-1)⟩

/-- The function `strings.Join`. -/
def Join : List String → String → String
  | [], _ => ""
  | [a], _ => a
  | a :: b :: rest, sep => a ++ sep ++ Join (b :: rest) sep

/-- The slug of a record (lines 83 and 95): the file part of the metadata
path with `.pw.toml` replaced by nothing. -/
def slugOf (mod : Mod) : String :=
  ReplaceAll (pathSplit mod.GetFilePath).2 ".pw.toml" ""

/-! ## The JSON renderer (`list.go` lines 71-109) -/

/-- The local type `modInfo` (lines 71-77). -/
structure modInfo where
  Name : String
  FileName : String
  Source : String
  Slug : String
  DownloadUrl : String
deriving DecidableEq, Repr

/-- The body of the loop of lines 82-101 for the `n`-th record. -/
def modInfoOf (L : GoLib) (n : Nat) (mod : Mod) : modInfo :=
  let updateKeys := L.rangeKeys n mod.Update
  let source := Join updateKeys ", "
  { Name := mod.Name
    FileName := mod.FileName
    Slug := slugOf mod
    Source := source
    DownloadUrl := mod.Download.URL }

/-- The loop of lines 82-101: the list `modInfos` built by `append`, `n` being
the number of records already handled. -/
def buildInfos (L : GoLib) : Nat → List Mod → List modInfo
  | _, [] => []
  | n, mod :: rest => modInfoOf L n mod :: buildInfos L (n + 1) rest

/-- The table `hex` of package `encoding/json`: the digit for `n < 16`. -/
def hexDigit (n : Nat) : Char := "0123456789abcdef".data.getD n (Char.ofNat 48)

/-- The table `htmlSafeSet` of package `encoding/json`, for a character below
`utf8.RuneSelf`: true for the characters from space up except the double
quote, the backslash, `<`, `>` and `&`. -/
def htmlSafe (c : Char) : Bool :=
  decide (32 ≤ c.toNat) && c.toNat != 34 && c.toNat != 92 && c.toNat != 60
    && c.toNat != 62 && c.toNat != 38

/-- What `appendString` of `encoding/json` (with `escapeHTML` true, the
setting of `Marshal`) writes for one character of a string. -/
def escapeChar (c : Char) : List Char :=
  if c.toNat < 128 then
    if htmlSafe c then [c]
    else if c.toNat == 92 || c.toNat == 34 then [Char.ofNat 92, c]
    else if c.toNat == 8 then [Char.ofNat 92, Char.ofNat 98]
    else if c.toNat == 12 then [Char.ofNat 92, Char.ofNat 102]
    else if c.toNat == 10 then [Char.ofNat 92, Char.ofNat 110]
    else if c.toNat == 13 then [Char.ofNat 92, Char.ofNat 114]
    else if c.toNat == 9 then [Char.ofNat 92, Char.ofNat 116]
    else [Char.ofNat 92, Char.ofNat 117, Char.ofNat 48, Char.ofNat 48,
          hexDigit (c.toNat / 16), hexDigit (c.toNat % 16)]
  else if c.toNat == 8232 || c.toNat == 8233 then
    [Char.ofNat 92, Char.ofNat 117, Char.ofNat 50, Char.ofNat 48, Char.ofNat 50,
     hexDigit (c.toNat % 16)]
  else [c]

/-- A string as `encoding/json` writes it: quoted and escaped. -/
def encodeString (s : String) : List Char :=
  Char.ofNat 34 :: (s.data.flatMap escapeChar ++ [Char.ofNat 34])

/-- The line break `Indent` writes at nesting depth `depth`: a newline, the
line prefix, and `depth` copies of the indent. -/
def newlineAt (pfx indent : List Char) (depth : Nat) : List Char :=
  Char.ofNat 10 :: (pfx ++ (List.replicate depth indent).flatten)

/-- One member of an object: the quoted key, a colon, a space, the value. -/
def encodeMember (key : String) (val : String) : List Char :=
  encodeString key ++ [Char.ofNat 58, Char.ofNat 32] ++ encodeString val

/-- A `modInfo` as an indented object at depth 1; the keys are the `json` tags
of the struct, in field order. -/
def encodeInfo (pfx indent : List Char) (m : modInfo) : List Char :=
  [Char.ofNat 123] ++ newlineAt pfx indent 2 ++ encodeMember "name" m.Name
    ++ [Char.ofNat 44] ++ newlineAt pfx indent 2 ++ encodeMember "fileName" m.FileName
    ++ [Char.ofNat 44] ++ newlineAt pfx indent 2 ++ encodeMember "source" m.Source
    ++ [Char.ofNat 44] ++ newlineAt pfx indent 2 ++ encodeMember "slug" m.Slug
    ++ [Char.ofNat 44] ++ newlineAt pfx indent 2 ++ encodeMember "downloadUrl" m.DownloadUrl
    ++ newlineAt pfx indent 1 ++ [Char.ofNat 125]

/-- The objects of a non-empty array, separated by a comma and a line break. -/
def encodeInfos (pfx indent : List Char) : List modInfo → List Char
  | [] => []
  | [m] => encodeInfo pfx indent m
  | m :: m2 :: rest =>
    encodeInfo pfx indent m ++ [Char.ofNat 44] ++ newlineAt pfx indent 1
      ++ encodeInfos pfx indent (m2 :: rest)

/-- The function `json.MarshalIndent` on a `[]modInfo` that is not nil: `[]` for the empty
slice, otherwise one object per element.  Encoding strings cannot fail, so
the result is always `Except.ok`. -/
def MarshalIndent (v : List modInfo) (pfx indent : String) : Except String String :=
  match v with
  | [] => .ok "[]"
  | _ =>
    .ok ⟨[Char.ofNat 91] ++ newlineAt pfx.data indent.data 1 ++ encodeInfos pfx.data indent.data v
      ++ newlineAt pfx.data indent.data 0 ++ [Char.ofNat 93]⟩

/-- The function `strings.Repeat`. -/
def Repeat (s : String) (count : Nat) : String :=
  ⟨(List.replicate count s.data).flatten⟩

/-! ## The render branches and the whole command -/

/-- The three render branches of lines 69-119. -/
inductive Renderer where
  | json
  | versioned
  | plain
deriving DecidableEq, Repr

/-- What one run of the command does: the text written to standard output, the
exit status of the process, and the render branches that were entered. -/
structure Outcome where
  stdout : String
  status : Nat
  ran : List Renderer
deriving DecidableEq, Repr

/-- The function `fmt.Println` of one string operand. -/
def Println (s : String) : String := s ++ "\n"

/-- Lines 69-119: the output of the render branch chosen by the flags. -/
def printMods (L : GoLib) (v : Viper) (mods : List Mod) : Outcome :=
  if v.json then
    let modInfos := buildInfos L 0 mods
    match MarshalIndent modInfos "" (Repeat " " 4) with
    | .error _ => ⟨Println "Error outputting json", 0, [.json]⟩
    | .ok output => ⟨Println output, 0, [.json]⟩
  else if v.version then
    ⟨mods.foldl (fun out mod => out ++ (mod.Name ++ " (" ++ mod.FileName ++ ")\n")) "",
      0, [.versioned]⟩
  else
    ⟨mods.foldl (fun out mod => out ++ Println mod.Name) "", 0, [.plain]⟩

/-- The three loaders of package `core` the command calls; an error is
represented by the text `fmt.Println(err)` prints for it. -/
structure Loaders (Pack Index : Type) where
  LoadPack : Except String Pack
  LoadIndex : Pack → Except String Index
  LoadAllMods : Index → Except String (List Mod)

/-- The `Run` closure of `listCmd` (lines 21-120). -/
def Run {Pack Index : Type} (L : GoLib) (ld : Loaders Pack Index) (v : Viper) : Outcome :=
  match ld.LoadPack with
  | .error err => ⟨Println err, 1, []⟩
  | .ok pack =>
    match ld.LoadIndex pack with
    | .error err => ⟨Println err, 1, []⟩
    | .ok index =>
      match ld.LoadAllMods index with
      | .error err => ⟨Println err, 1, []⟩
      | .ok mods =>
        match listedMods L v mods with
        | .error out => ⟨out, 1, []⟩
        | .ok mods => printMods L v mods

/-! ## The implementation of `sort.Slice`

The Go standard library (package `sort`, from Go 1.19 on) implements
`sort.Slice` by pattern-defeating quicksort.  The definitions below follow
`zsortfunc.go` function by function; the slice is a list state, `Less` and
`Swap` are the two operations of `lessSwap`, and every `for` loop is a
function with a bound on its iterations. -/

namespace GoSort

variable {α : Type}

/-- The comparison `data.Less(i, j)`: the `less` closure on the current contents. -/
def Less (less : α → α → Bool) (d : List α) (i j : Nat) : Bool :=
  match d[i]?, d[j]? with
  | some x, some y => less x y
  | _, _ => false

/-- The exchange `data.Swap(i, j)`. -/
def Swap (d : List α) (i j : Nat) : List α :=
  match d[i]?, d[j]? with
  | some x, some y => (d.set i y).set j x
  | _, _ => d

/-- The inner loop of `insertionSort_func`:
`for j := i; j > a && data.Less(j, j-1); j-- { data.Swap(j, j-1) }`. -/
def insertionInner (less : α → α → Bool) (a : Nat) : Nat → List α → List α
  | 0, d => d
  | j + 1, d =>
    if a < j + 1 && Less less d (j + 1) j then
      insertionInner less a j (Swap d (j + 1) j)
    else d

/-- The outer loop of `insertionSort_func`: `for i := a + 1; i < b; i++`. -/
def insertionOuter (less : α → α → Bool) (a b : Nat) : Nat → Nat → List α → List α
  | 0, _, d => d
  | f + 1, i, d =>
    if i < b then insertionOuter less a b f (i + 1) (insertionInner less a i d) else d

/-- The function `insertionSort_func(data, a, b)`. -/
def insertionSort_func (less : α → α → Bool) (d : List α) (a b : Nat) : List α :=
  insertionOuter less a b (b - a) (a + 1) d

/-- The function `siftDown_func(data, lo, hi, first)`; `root` starts at `lo`. -/
def siftDown_func (less : α → α → Bool) (hi first : Nat) : Nat → Nat → List α → List α
  | 0, _, d => d
  | f + 1, root, d =>
    let child := 2 * root + 1
    if hi ≤ child then d
    else
      let child :=
        if child + 1 < hi && Less less d (first + child) (first + child + 1) then child + 1
        else child
      if !Less less d (first + root) (first + child) then d
      else siftDown_func less hi first f child (Swap d (first + root) (first + child))

/-- The first loop of `heapSort_func`: `for i := (hi - 1) / 2; i >= 0; i--`. -/
def heapBuild (less : α → α → Bool) (hi first : Nat) : Nat → List α → List α
  | 0, d => siftDown_func less hi first hi 0 d
  | i + 1, d => heapBuild less hi first i (siftDown_func less hi first hi (i + 1) d)

/-- The second loop of `heapSort_func`: `for i := hi - 1; i >= 0; i--`, with
`n = i + 1` iterations left. -/
def heapPop (less : α → α → Bool) (first : Nat) : Nat → List α → List α
  | 0, d => d
  | i + 1, d => heapPop less first i (siftDown_func less i first i 0 (Swap d first (first + i)))

/-- The function `heapSort_func(data, a, b)`. -/
def heapSort_func (less : α → α → Bool) (d : List α) (a b : Nat) : List α :=
  let hi := b - a
  heapPop less a hi (heapBuild less hi a ((hi - 1) / 2) d)

/-- The function `bits.Len`: the number of bits needed to write `n`. -/
def bitsLen : Nat → Nat → Nat
  | 0, _ => 0
  | f + 1, n => if n = 0 then 0 else 1 + bitsLen f (n / 2)

/-- The method `Next` of `xorshift`, on 64-bit unsigned values. -/
def xorshiftNext (r : Nat) : Nat :=
  let r := Nat.xor r ((r * 2 ^ 13) % 2 ^ 64)
  let r := Nat.xor r (r / 2 ^ 7)
  Nat.xor r ((r * 2 ^ 17) % 2 ^ 64)

/-- The loop of `breakPatterns_func`: three swaps around `idx`. -/
def breakLoop (a length modulus idx : Nat) : Nat → Nat → Nat → List α → List α
  | 0, _, _, d => d
  | f + 1, i, random, d =>
    let random := xorshiftNext random
    let other := random % modulus
    let other := if length ≤ other then other - length else other
    breakLoop a length modulus idx f (i + 1) random (Swap d (idx - 1 + i) (a + other))

/-- The function `breakPatterns_func(data, a, b)`. -/
def breakPatterns_func (d : List α) (a b : Nat) : List α :=
  let length := b - a
  if 8 ≤ length then
    breakLoop a length (2 ^ bitsLen length length) (a + (length / 4) * 2 - 1) 3 0 length d
  else d

/-- The hints of `choosePivot_func`. -/
inductive sortedHint where
  | unknownHint
  | increasingHint
  | decreasingHint
deriving DecidableEq, Repr

/-- The function `order2_func(data, a, b, swaps)`; the counter `swaps` is threaded through. -/
def order2_func (less : α → α → Bool) (d : List α) (a b swaps : Nat) : Nat × Nat × Nat :=
  if Less less d b a then (b, a, swaps + 1) else (a, b, swaps)

/-- The function `median_func(data, a, b, c, swaps)`. -/
def median_func (less : α → α → Bool) (d : List α) (a b c swaps : Nat) : Nat × Nat :=
  let (a, b, swaps) := order2_func less d a b swaps
  let (b, _, swaps) := order2_func less d b c swaps
  let (_, b, swaps) := order2_func less d a b swaps
  (b, swaps)

/-- The function `medianAdjacent_func(data, a, swaps)`. -/
def medianAdjacent_func (less : α → α → Bool) (d : List α) (a swaps : Nat) : Nat × Nat :=
  median_func less d (a - 1) a (a + 1) swaps

/-- The function `choosePivot_func(data, a, b)`. -/
def choosePivot_func (less : α → α → Bool) (d : List α) (a b : Nat) : Nat × sortedHint :=
  let l := b - a
  let i := a + l / 4 * 1
  let j := a + l / 4 * 2
  let k := a + l / 4 * 3
  let (j, swaps) :=
    if 8 ≤ l then
      let (i, j, k, swaps) :=
        if 50 ≤ l then
          let (i, swaps) := medianAdjacent_func less d i 0
          let (j, swaps) := medianAdjacent_func less d j swaps
          let (k, swaps) := medianAdjacent_func less d k swaps
          (i, j, k, swaps)
        else (i, j, k, 0)
      median_func less d i j k swaps
    else (j, 0)
  if swaps = 0 then (j, .increasingHint)
  else if swaps = 4 * 3 then (j, .decreasingHint)
  else (j, .unknownHint)

/-- The loop of `reverseRange_func`: `for i < j { Swap(i, j); i++; j-- }`. -/
def reverseLoop : Nat → Nat → Nat → List α → List α
  | 0, _, _, d => d
  | f + 1, i, j, d => if i < j then reverseLoop f (i + 1) (j - 1) (Swap d i j) else d

/-- The function `reverseRange_func(data, a, b)`. -/
def reverseRange_func (d : List α) (a b : Nat) : List α :=
  reverseLoop (b - a) a (b - 1) d

/-- The loop `for i <= j && data.Less(i, a) { i++ }` of `partition_func`. -/
def scanUp (less : α → α → Bool) (d : List α) (a j : Nat) : Nat → Nat → Nat
  | 0, i => i
  | f + 1, i => if i ≤ j && Less less d i a then scanUp less d a j f (i + 1) else i

/-- The loop `for i <= j && !data.Less(j, a) { j-- }` of `partition_func`. -/
def scanDown (less : α → α → Bool) (d : List α) (a i : Nat) : Nat → Nat → Nat
  | 0, j => j
  | f + 1, j => if i ≤ j && !Less less d j a then scanDown less d a i f (j - 1) else j

/-- The main `for` loop of `partition_func`; returns the data and the final `j`. -/
def partitionLoop (less : α → α → Bool) (a : Nat) : Nat → Nat → Nat → List α → List α × Nat
  | 0, _, j, d => (d, j)
  | f + 1, i, j, d =>
    let i := scanUp less d a j (j + 1 - i) i
    let j := scanDown less d a i (j + 1 - i) j
    if j < i then (d, j)
    else partitionLoop less a f (i + 1) (j - 1) (Swap d i j)

/-- The function `partition_func(data, a, b, pivot)`: the data, the new position of the
pivot, and whether the range was already partitioned. -/
def partition_func (less : α → α → Bool) (d : List α) (a b pivot : Nat) :
    List α × Nat × Bool :=
  let d := Swap d a pivot
  let i := a + 1
  let j := b - 1
  let i := scanUp less d a j (j + 1 - i) i
  let j := scanDown less d a i (j + 1 - i) j
  if j < i then (Swap d j a, j, true)
  else
    let d := Swap d i j
    let r := partitionLoop less a (b - a) (i + 1) (j - 1) d
    (Swap r.1 r.2 a, r.2, false)

/-- The loop `for i <= j && !data.Less(a, i) { i++ }` of `partitionEqual_func`. -/
def scanUpEq (less : α → α → Bool) (d : List α) (a j : Nat) : Nat → Nat → Nat
  | 0, i => i
  | f + 1, i => if i ≤ j && !Less less d a i then scanUpEq less d a j f (i + 1) else i

/-- The loop `for i <= j && data.Less(a, j) { j-- }` of `partitionEqual_func`. -/
def scanDownEq (less : α → α → Bool) (d : List α) (a i : Nat) : Nat → Nat → Nat
  | 0, j => j
  | f + 1, j => if i ≤ j && Less less d a j then scanDownEq less d a i f (j - 1) else j

/-- The `for` loop of `partitionEqual_func`; returns the data and the final `i`. -/
def partitionEqualLoop (less : α → α → Bool) (a : Nat) :
    Nat → Nat → Nat → List α → List α × Nat
  | 0, i, _, d => (d, i)
  | f + 1, i, j, d =>
    let i := scanUpEq less d a j (j + 1 - i) i
    let j := scanDownEq less d a i (j + 1 - i) j
    if j < i then (d, i)
    else partitionEqualLoop less a f (i + 1) (j - 1) (Swap d i j)

/-- The function `partitionEqual_func(data, a, b, pivot)`. -/
def partitionEqual_func (less : α → α → Bool) (d : List α) (a b pivot : Nat) : List α × Nat :=
  partitionEqualLoop less a (b - a + 1) (a + 1) (b - 1) (Swap d a pivot)

/-- The loop `for i < b && !data.Less(i, i-1) { i++ }` of `partialInsertionSort_func`. -/
def skipSorted (less : α → α → Bool) (d : List α) (b : Nat) : Nat → Nat → Nat
  | 0, i => i
  | f + 1, i => if i < b && !Less less d i (i - 1) then skipSorted less d b f (i + 1) else i

/-- The loop `for j := i - 1; j >= 1; j--` of `partialInsertionSort_func`
(shift the smaller one to the left). -/
def shiftLeftLoop (less : α → α → Bool) : Nat → List α → List α
  | 0, d => d
  | j + 1, d =>
    if !Less less d (j + 1) j then d else shiftLeftLoop less j (Swap d (j + 1) j)

/-- The loop `for j := i + 1; j < b; j++` of `partialInsertionSort_func`
(shift the greater one to the right). -/
def shiftRightLoop (less : α → α → Bool) (b : Nat) : Nat → Nat → List α → List α
  | 0, _, d => d
  | f + 1, j, d =>
    if j < b then
      if !Less less d j (j - 1) then d else shiftRightLoop less b f (j + 1) (Swap d j (j - 1))
    else d

/-- The outer loop of `partialInsertionSort_func`, `for j := 0; j < maxSteps; j++`. -/
def partialInsertionLoop (less : α → α → Bool) (a b : Nat) :
    Nat → Nat → List α → List α × Bool
  | 0, _, d => (d, false)
  | steps + 1, i, d =>
    let i := skipSorted less d b (b - i) i
    if i = b then (d, true)
    else if b - a < 50 then (d, false)
    else
      let d := Swap d i (i - 1)
      let d := if 2 ≤ i - a then shiftLeftLoop less (i - 1) d else d
      let d := if 2 ≤ b - i then shiftRightLoop less b (b - i) (i + 1) d else d
      partialInsertionLoop less a b steps i d

/-- The function `partialInsertionSort_func(data, a, b)`. -/
def partialInsertionSort_func (less : α → α → Bool) (d : List α) (a b : Nat) : List α × Bool :=
  partialInsertionLoop less a b 5 (a + 1) d

/-- The function `pdqsort_func(data, a, b, limit)`.  The two flags are the
local variables `wasBalanced` and `wasPartitioned`, both true on entry; the
first argument bounds the number of loop iterations and nested calls (each
one narrows the range `[a, b)`). -/
def pdqsort_func (less : α → α → Bool) :
    Nat → List α → Nat → Nat → Nat → Bool → Bool → List α
  | 0, d, _, _, _, _, _ => d
  | f + 1, d, a, b, limit, wasBalanced, wasPartitioned =>
    let length := b - a
    if length ≤ 12 then insertionSort_func less d a b
    else if limit = 0 then heapSort_func less d a b
    else
      let d := if !wasBalanced then breakPatterns_func d a b else d
      let limit := if !wasBalanced then limit - 1 else limit
      let ph := choosePivot_func less d a b
      let d := if ph.2 = .decreasingHint then reverseRange_func d a b else d
      let pivot := if ph.2 = .decreasingHint then (b - 1) - (ph.1 - a) else ph.1
      let hint := if ph.2 = .decreasingHint then sortedHint.increasingHint else ph.2
      let pi :=
        if wasBalanced && wasPartitioned && hint = .increasingHint then
          partialInsertionSort_func less d a b
        else (d, false)
      if pi.2 then pi.1
      else
        let d := pi.1
        if 0 < a && !Less less d (a - 1) pivot then
          let r := partitionEqual_func less d a b pivot
          pdqsort_func less f r.1 r.2 b limit wasBalanced wasPartitioned
        else
          let r := partition_func less d a b pivot
          let d := r.1
          let mid := r.2.1
          let wasPartitioned := r.2.2
          let leftLen := mid - a
          let rightLen := b - mid
          let balanceThreshold := length / 8
          if leftLen < rightLen then
            let wasBalanced := decide (balanceThreshold ≤ leftLen)
            let d := pdqsort_func less f d a mid limit true true
            pdqsort_func less f d (mid + 1) b limit wasBalanced wasPartitioned
          else
            let wasBalanced := decide (balanceThreshold ≤ rightLen)
            let d := pdqsort_func less f d (mid + 1) b limit true true
            pdqsort_func less f d a mid limit wasBalanced wasPartitioned

/-- The function `sort.Slice(x, less)`: `pdqsort_func` on the whole slice with
`limit = bits.Len(length)`. -/
def Slice (less : α → α → Bool) (x : List α) : List α :=
  pdqsort_func less (x.length + 1) x 0 x.length (bitsLen x.length x.length) true true

end GoSort

/-- The function `strings.ToLower` on ASCII text: the letters `A`-`Z` become `a`-`z`. -/
def asciiToLower (s : String) : String :=
  ⟨s.data.map fun c => if 65 ≤ c.toNat ∧ c.toNat ≤ 90 then Char.ofNat (c.toNat + 32) else c⟩

/-! ## Reading JSON

A reader for JSON documents (RFC 8259), used to state what the text written by
the JSON renderer means. -/

/-- A JSON value; a number is kept as its text. -/
inductive JSON where
  | null
  | bool (b : Bool)
  | number (text : String)
  | string (s : String)
  | array (elems : List JSON)
  | object (members : List (String × JSON))

namespace JSON

/-- JSON white space: space, line feed, carriage return, tab. -/
def isWs (c : Char) : Bool :=
  c.toNat == 32 || c.toNat == 10 || c.toNat == 13 || c.toNat == 9

/-- Drop leading white space. -/
def skipWs : List Char → List Char
  | [] => []
  | c :: cs => if isWs c then skipWs cs else c :: cs

/-- The value of a hexadecimal digit. -/
def hexVal (c : Char) : Option Nat :=
  let n := c.toNat
  if 48 ≤ n ∧ n ≤ 57 then some (n - 48)
  else if 97 ≤ n ∧ n ≤ 102 then some (n - 87)
  else if 65 ≤ n ∧ n ≤ 70 then some (n - 55)
  else none

/-- The number written by four hexadecimal digits. -/
def hex4 (a b c d : Char) : Option Nat :=
  match hexVal a, hexVal b, hexVal c, hexVal d with
  | some a, some b, some c, some d => some (((a * 16 + b) * 16 + c) * 16 + d)
  | _, _, _, _ => none

/-- The character for the UTF-16 unit `n` of a `\u` escape, `rest` being the
text after it: a high surrogate takes the low surrogate escape that follows
it; a surrogate on its own reads as U+FFFD. -/
def unescapeUnit (n : Nat) (rest : List Char) : Char × List Char :=
  if 55296 ≤ n ∧ n < 56320 then
    match rest with
    | b :: u :: h1 :: h2 :: h3 :: h4 :: rest2 =>
      if b.toNat == 92 && u.toNat == 117 then
        match hex4 h1 h2 h3 h4 with
        | some m =>
          if 56320 ≤ m ∧ m < 57344 then
            (Char.ofNat (65536 + (n - 55296) * 1024 + (m - 56320)), rest2)
          else (Char.ofNat 65533, rest)
        | none => (Char.ofNat 65533, rest)
      else (Char.ofNat 65533, rest)
    | _ => (Char.ofNat 65533, rest)
  else if 56320 ≤ n ∧ n < 57344 then (Char.ofNat 65533, rest)
  else (Char.ofNat n, rest)

/-- The character written by the escape whose text after the backslash is `s`. -/
def unescape : List Char → Option (Char × List Char)
  | [] => none
  | e :: rest =>
    if e.toNat == 34 || e.toNat == 92 || e.toNat == 47 then some (e, rest)
    else if e.toNat == 98 then some (Char.ofNat 8, rest)
    else if e.toNat == 102 then some (Char.ofNat 12, rest)
    else if e.toNat == 110 then some (Char.ofNat 10, rest)
    else if e.toNat == 114 then some (Char.ofNat 13, rest)
    else if e.toNat == 116 then some (Char.ofNat 9, rest)
    else if e.toNat == 117 then
      match rest with
      | h1 :: h2 :: h3 :: h4 :: rest2 =>
        match hex4 h1 h2 h3 h4 with
        | some n => some (unescapeUnit n rest2)
        | none => none
      | _ => none
    else none

/-- The characters of a string, read from just after its opening quote up to
the closing quote, and the text after that quote. -/
def readStringBody : Nat → List Char → Option (List Char × List Char)
  | 0, _ => none
  | _ + 1, [] => none
  | f + 1, c :: cs =>
    if c.toNat == 34 then some ([], cs)
    else if c.toNat == 92 then
      match unescape cs with
      | none => none
      | some (x, rest) =>
        match readStringBody f rest with
        | none => none
        | some (xs, rest2) => some (x :: xs, rest2)
    else if c.toNat < 32 then none
    else
      match readStringBody f cs with
      | none => none
      | some (xs, rest2) => some (c :: xs, rest2)

/-- A string: the opening quote and then the body. -/
def readString : List Char → Option (String × List Char)
  | [] => none
  | c :: cs =>
    if c.toNat == 34 then
      match readStringBody (cs.length + 1) cs with
      | none => none
      | some (xs, rest) => some (⟨xs⟩, rest)
    else none

/-- The digits at the start of the text, and the text after them. -/
def readDigits : List Char → List Char × List Char
  | [] => ([], [])
  | c :: cs =>
    if 48 ≤ c.toNat ∧ c.toNat ≤ 57 then
      let r := readDigits cs
      (c :: r.1, r.2)
    else ([], c :: cs)

/-- A number: an optional minus sign, the integer part (a single `0` or digits
not starting with `0`), an optional fraction, an optional exponent. -/
def readNumber (s : List Char) : Option (List Char × List Char) :=
  let sign : List Char × List Char :=
    match s with
    | c :: cs => if c.toNat == 45 then ([c], cs) else ([], s)
    | [] => ([], s)
  let int := readDigits sign.2
  if int.1 = [] ∨ (int.1.head? = some (Char.ofNat 48) ∧ int.1.length ≠ 1) then none
  else
    let frac : Option (List Char × List Char) :=
      match int.2 with
      | c :: cs =>
        if c.toNat == 46 then
          let r := readDigits cs
          if r.1 = [] then none else some (c :: r.1, r.2)
        else some ([], int.2)
      | [] => some ([], int.2)
    match frac with
    | none => none
    | some fr =>
      let exp : Option (List Char × List Char) :=
        match fr.2 with
        | c :: cs =>
          if c.toNat == 101 || c.toNat == 69 then
            let sg : List Char × List Char :=
              match cs with
              | d :: ds => if d.toNat == 43 || d.toNat == 45 then ([d], ds) else ([], cs)
              | [] => ([], cs)
            let r := readDigits sg.2
            if r.1 = [] then none else some (c :: (sg.1 ++ r.1), r.2)
          else some ([], fr.2)
        | [] => some ([], fr.2)
      match exp with
      | none => none
      | some ex => some (sign.1 ++ int.1 ++ fr.1 ++ ex.1, ex.2)

/-- Whether `s` starts with the text `lit`; the rest of `s` when it does. -/
def readLiteral (lit : List Char) (s : List Char) : Option (List Char) :=
  if hasPrefixChars s lit then some (s.drop lit.length) else none

mutual

/-- A value at the start of the text (no leading white space), and the text
after it.  The first argument bounds the number of nested and successive
values read. -/
def readValue : Nat → List Char → Option (JSON × List Char)
  | 0, _ => none
  | _ + 1, [] => none
  | f + 1, c :: cs =>
    if c.toNat == 34 then
      match readString (c :: cs) with
      | none => none
      | some (t, rest) => some (.string t, rest)
    else if c.toNat == 91 then
      match skipWs cs with
      | [] => none
      | d :: ds =>
        if d.toNat == 93 then some (.array [], ds)
        else
          match readElems f (d :: ds) with
          | none => none
          | some (xs, rest) => some (.array xs, rest)
    else if c.toNat == 123 then
      match skipWs cs with
      | [] => none
      | d :: ds =>
        if d.toNat == 125 then some (.object [], ds)
        else
          match readMembers f (d :: ds) with
          | none => none
          | some (kvs, rest) => some (.object kvs, rest)
    else if c.toNat == 116 then
      match readLiteral "true".data (c :: cs) with
      | none => none
      | some rest => some (.bool true, rest)
    else if c.toNat == 102 then
      match readLiteral "false".data (c :: cs) with
      | none => none
      | some rest => some (.bool false, rest)
    else if c.toNat == 110 then
      match readLiteral "null".data (c :: cs) with
      | none => none
      | some rest => some (.null, rest)
    else
      match readNumber (c :: cs) with
      | none => none
      | some (t, rest) => some (.number ⟨t⟩, rest)

/-- The elements of an array from its first element (no leading white space)
up to the closing bracket, and the text after the bracket. -/
def readElems : Nat → List Char → Option (List JSON × List Char)
  | 0, _ => none
  | f + 1, s =>
    match readValue f s with
    | none => none
    | some (x, rest) =>
      match skipWs rest with
      | [] => none
      | d :: ds =>
        if d.toNat == 93 then some ([x], ds)
        else if d.toNat == 44 then
          match readElems f (skipWs ds) with
          | none => none
          | some (xs, rest2) => some (x :: xs, rest2)
        else none

/-- The members of an object from its first key (no leading white space) up
to the closing brace, and the text after the brace. -/
def readMembers : Nat → List Char → Option (List (String × JSON) × List Char)
  | 0, _ => none
  | f + 1, s =>
    match readString s with
    | none => none
    | some (k, rest) =>
      match skipWs rest with
      | [] => none
      | d :: ds =>
        if d.toNat == 58 then
          match readValue f (skipWs ds) with
          | none => none
          | some (x, rest2) =>
            match skipWs rest2 with
            | [] => none
            | e :: es =>
              if e.toNat == 125 then some ([(k, x)], es)
              else if e.toNat == 44 then
                match readMembers f (skipWs es) with
                | none => none
                | some (kvs, rest3) => some ((k, x) :: kvs, rest3)
              else none
        else none

end

/-- A whole document: white space, one value, white space, end of text. -/
def parse (s : String) : Option JSON :=
  match readValue (s.length + 1) (skipWs s.data) with
  | none => none
  | some (x, rest) => if skipWs rest = [] then some x else none

/-- The elements of a value that is an array. -/
def elems? : JSON → Option (List JSON)
  | .array xs => some xs
  | _ => none

/-- The value of the first member named `key` of an object, when it is a string. -/
def field? (j : JSON) (key : String) : Option String :=
  match j with
  | .object kvs =>
    match kvs.find? (fun kv => kv.1 == key) with
    | some (_, .string t) => some t
    | _ => none
  | _ => none

end JSON

/-! ## The contract of `sort.Slice` and reference definitions -/

/-- The requirement the documentation of package `sort` puts on a `less`
function: it is irreflexive and describes a transitive ordering (if
`less a b` and `less b c` then `less a c`; if neither `less a b` nor
`less b c` then not `less a c`). -/
def StrictWeak {α : Type} (less : α → α → Bool) : Prop :=
  (∀ a, less a a = false) ∧
  (∀ a b c, less a b = true → less b c = true → less a c = true) ∧
  (∀ a b c, less a b = false → less b c = false → less a c = false)

/-- What the documentation of `sort.Slice` promises for such a `less`: the
slice is rearranged (nothing added, dropped or changed) and ends up sorted, no
element being less than its predecessor.  The documentation adds that the sort
is not guaranteed to be stable, so nothing is promised about the order of
elements that compare equal. -/
structure SliceContract (Slice : (Mod → Mod → Bool) → List Mod → List Mod) : Prop where
  perm : ∀ less xs, StrictWeak less → (Slice less xs).Perm xs
  sorted : ∀ less xs, StrictWeak less → (Slice less xs).Chain' (fun a b => less b a = false)

/-- The records with a given lower-cased name keep their relative order from
`inp` to `out`. -/
def KeepsTieOrder (L : GoLib) (inp out : List Mod) : Prop :=
  ∀ key : String,
    out.filter (fun m => L.ToLower m.Name == key) = inp.filter (fun m => L.ToLower m.Name == key)

/-- The part of a path after its last `/`; the whole path when it has none. -/
def afterLastSlash : List Char → List Char
  | [] => []
  | c :: cs =>
    if Char.ofNat 47 ∈ cs then afterLastSlash cs
    else if c = Char.ofNat 47 then cs
    else c :: cs

/-- Scan `s` from the left: where an occurrence of `old` starts, drop it and go
on after it; otherwise keep the character and go on with the next one.  The
first argument bounds the number of steps. -/
def removeScan (old : List Char) : Nat → List Char → List Char
  | 0, s => s
  | _ + 1, [] => []
  | f + 1, c :: cs =>
    if old <+: c :: cs then removeScan old f ((c :: cs).drop old.length)
    else c :: removeScan old f cs

/-- The text `s` with every non-overlapping occurrence of `old`, scanned left
to right, removed. -/
def removeOccurrences (old s : List Char) : List Char :=
  removeScan old s.length s

/-- A library instance: `strings.ToLower` and `%q` as they act on plain ASCII
text (no quote, backslash or control character), `sort.Slice` as the
implementation of the Go standard library, map iteration in listing order. -/
def goLib : GoLib where
  ToLower := asciiToLower
  Quote := fun s => "\"" ++ s ++ "\""
  Slice := GoSort.Slice
  rangeKeys := fun _ ks => ks

/-- A library instance that sorts by insertion (which is what `pdqsort_func`
does on a range of at most twelve elements). -/
def insertionLib : GoLib where
  ToLower := asciiToLower
  Quote := fun s => "\"" ++ s ++ "\""
  Slice := fun less xs => xs.insertionSort (fun a b => less b a = false)
  rangeKeys := fun _ ks => ks

/-- Loaders that succeed and deliver `mods`. -/
def loaded (mods : List Mod) : Loaders Unit Unit where
  LoadPack := .ok ()
  LoadIndex := fun _ => .ok ()
  LoadAllMods := fun _ => .ok mods

/-- A record with the given name and side; the other fields are empty. -/
def modNamed (name side : String) : Mod :=
  { Name := name, FileName := "", Side := side, Update := [], Download := ⟨""⟩, FilePath := "" }

/-- A record with the given metadata path; the other fields are empty. -/
def modAt (filePath : String) : Mod :=
  { Name := "", FileName := "", Side := "", Update := [], Download := ⟨""⟩, FilePath := filePath }

/-- Thirteen records: `B`, `b`, and eleven records named `a`. -/
def tieInput : List Mod :=
  modNamed "B" "" :: modNamed "b" "" :: List.replicate 11 (modNamed "a" "")

/-- The JSON object with the five members of a `modInfo`, in field order. -/
def infoJSON (m : modInfo) : JSON :=
  .object [("name", .string m.Name), ("fileName", .string m.FileName),
    ("source", .string m.Source), ("slug", .string m.Slug),
    ("downloadUrl", .string m.DownloadUrl)]

/-- Two records; the second has a quote and a backslash in its names, the
first the characters `&`, `<` and `>` in its download location. -/
def sampleMods : List Mod :=
  [⟨"alpha", "alpha.jar", "", ["modrinth"], ⟨"https://example.org/a.jar?x=1&y=<2>"⟩,
      "mods/example.pw.toml"⟩,
   ⟨"Zeta \"Z\"", "zeta\\z.jar", "client", [], ⟨""⟩, "mods/zeta.pw.toml"⟩]

/-- The side filter is unset or holds one of the three recognised values. -/
def sideAccepted (v : Viper) : Prop :=
  v.side = none ∨ v.side = some ClientSide ∨ v.side = some ServerSide
    ∨ v.side = some UniversalSide

/-- The records of `mods` that pass the side filter of `v`, in their original
order: all of them when the filter is unset. -/
def keptBySide (v : Viper) (mods : List Mod) : List Mod :=
  match v.side with
  | none => mods
  | some s => mods.filter (sideKeeps s)

/-- What the Go language promises for `for k := range m` over a map: every
key is yielded exactly once, in an order that is not specified. -/
def RangeContract (rangeKeys : Nat → List String → List String) : Prop :=
  ∀ (n : Nat) (keys : List String), (rangeKeys n keys).Perm keys

/-- The filter loop of lines 52-58 with a record of its iterations: for each
iteration the position read, the write index at that moment, and the record
read there.  The state is that of `filterLoop`. -/
def filterLoopTrace (side : String) : Nat → Nat → Nat → List Mod → List (Nat × Nat × Mod)
  | 0, _, _, _ => []
  | n + 1, k, i, mods =>
    match mods[k]? with
    | none => []
    | some mod =>
      if sideKeeps side mod then
        (k, i, mod) :: filterLoopTrace side n (k + 1) (i + 1) (mods.set i mod)
      else
        (k, i, mod) :: filterLoopTrace side n (k + 1) i mods

/-- Lines 69-119 with the serializer as a parameter: `marshal` stands for
`json.MarshalIndent`, so that the branch taken when it returns an error can be
spoken of. -/
def printModsWith (marshal : List modInfo → String → String → Except String String)
    (L : GoLib) (v : Viper) (mods : List Mod) : Outcome :=
  if v.json then
    let modInfos := buildInfos L 0 mods
    match marshal modInfos "" (Repeat " " 4) with
    | .error _ => ⟨Println "Error outputting json", 0, [.json]⟩
    | .ok output => ⟨Println output, 0, [.json]⟩
  else if v.version then
    ⟨mods.foldl (fun out mod => out ++ (mod.Name ++ " (" ++ mod.FileName ++ ")\n")) "",
      0, [.versioned]⟩
  else
    ⟨mods.foldl (fun out mod => out ++ Println mod.Name) "", 0, [.plain]⟩

/-- The `Run` closure of `listCmd` (lines 21-120) with the serializer as a
parameter. -/
def RunWith {Pack Index : Type}
    (marshal : List modInfo → String → String → Except String String)
    (L : GoLib) (ld : Loaders Pack Index) (v : Viper) : Outcome :=
  match ld.LoadPack with
  | .error err => ⟨Println err, 1, []⟩
  | .ok pack =>
    match ld.LoadIndex pack with
    | .error err => ⟨Println err, 1, []⟩
    | .ok index =>
      match ld.LoadAllMods index with
      | .error err => ⟨Println err, 1, []⟩
      | .ok mods =>
        match listedMods L v mods with
        | .error out => ⟨out, 1, []⟩
        | .ok mods => printModsWith marshal L v mods

/-- A serializer that always fails. -/
def failingMarshal (_ : List modInfo) (_ _ : String) : Except String String :=
  .error "json: error"

/-- Two records for the source field: the first has the two update keys
`modrinth` and `curseforge`, the second has none. -/
def sampleKeyed : List Mod :=
  [⟨"alpha", "alpha.jar", "", ["modrinth", "curseforge"], ⟨""⟩, "mods/alpha.pw.toml"⟩,
   ⟨"beta", "beta.jar", "", [], ⟨""⟩, "mods/beta.pw.toml"⟩]

/-- A map iteration that yields the keys in the reverse of their listing order. -/
def reverseLib : GoLib where
  ToLower := asciiToLower
  Quote := fun s => "\"" ++ s ++ "\""
  Slice := GoSort.Slice
  rangeKeys := fun _ ks => ks.reverse

/-- The pieces of `s` between the occurrences of `old` that a left-to-right
scan finds (what `strings.Split` returns); the first argument bounds the
number of occurrences. -/
def splitScan (old : List Char) : Nat → List Char → List (List Char)
  | 0, s => [s]
  | f + 1, s =>
    if Index s old = -1 then [s]
    else s.take (Index s old).toNat :: splitScan old f (s.drop ((Index s old).toNat + old.length))

/-! ## Reference predicates for the sort -/

namespace GoSort

variable {α : Type}

/-- The slice `d'` comes from `d` by rearranging elements at positions
`a ≤ k < b`: it has the same elements, and every other position holds what
it held. -/
def Within (a b : Nat) (d d' : List α) : Prop :=
  d'.Perm d ∧ ∀ k, (k < a ∨ b ≤ k) → d'[k]? = d[k]?

/-- The positions `a ≤ i < j < b` of `d` are in order: the element at `j` is
not less than the element at `i`. -/
def SortedOn (less : α → α → Bool) (d : List α) (a b : Nat) : Prop :=
  ∀ i j x y, a ≤ i → i < j → j < b → d[i]? = some x → d[j]? = some y → less y x = false

/-- When there is a position before `a`, no element at a position
`a ≤ k < b` is less than the element at `a - 1`. -/
def LowerBound (less : α → α → Bool) (d : List α) (a b : Nat) : Prop :=
  ∀ p k x, 0 < a → d[a - 1]? = some p → a ≤ k → k < b → d[k]? = some x → less x p = false

/-- Heap order on the positions `first + r` for `lo ≤ r < hi`, leaving out the
node `skip`: no node is less than one of its two children `2r+1`, `2r+2`. -/
def HeapOn (less : α → α → Bool) (d : List α) (first lo hi : Nat) (skip : Option Nat) : Prop :=
  ∀ r c x y, lo ≤ r → some r ≠ skip → (c = 2 * r + 1 ∨ c = 2 * r + 2) → c < hi →
    d[first + r]? = some x → d[first + c]? = some y → less x y = false

/-- The position `mid` of the range `a ≤ k < b` holds `p`, no element before
it in the range is greater than `p`, and no element after it is less. -/
def PivotAt (less : α → α → Bool) (d : List α) (a b mid : Nat) (p : α) : Prop :=
  d[mid]? = some p ∧
    (∀ k x, a ≤ k → k < mid → d[k]? = some x → less p x = false) ∧
    (∀ k x, mid < k → k < b → d[k]? = some x → less x p = false)

end GoSort

/-! ## Properties -/

/-! ### The side filter -/

/-- The loop invariant of the filter loop: the first `i` elements are the
records kept so far, and the loop adds the kept ones among those from `k` on. -/
theorem filterLoop_take (side : String) :
    ∀ (n k i : Nat) (mods : List Mod), i ≤ k → k + n = mods.length →
      (filterLoop side n k i mods).1.take (filterLoop side n k i mods).2
        = mods.take i ++ (mods.drop k).filter (sideKeeps side) := by
  intro n
  induction n with
  | zero =>
    intro k i mods _ hk
    have hnil : mods.drop k = [] := List.drop_eq_nil_of_le (by omega)
    simp [filterLoop, hnil]
  | succ n ih =>
    intro k i mods hik hk
    have hlt : k < mods.length := by omega
    have hget : mods[k]? = some mods[k] := List.getElem?_eq_getElem hlt
    have hdrop : mods.drop k = mods[k] :: mods.drop (k + 1) := List.drop_eq_getElem_cons hlt
    rw [filterLoop, hget]
    simp only
    split
    · rename_i hp
      rw [ih (k + 1) (i + 1) (mods.set i mods[k]) (by omega) (by simp; omega)]
      rw [hdrop, List.filter_cons_of_pos hp]
      have h1 : (mods.set i mods[k]).take (i + 1) = mods.take i ++ [mods[k]] := by
        rw [List.take_succ, List.set_take, List.set_eq_of_length_le (by simp)]
        simp [List.getElem?_set, show i < mods.length by omega]
      have h2 : (mods.set i mods[k]).drop (k + 1) = mods.drop (k + 1) := by
        rw [List.drop_set_of_lt]; omega
      rw [h1, h2]; simp
    · rename_i hp
      rw [ih (k + 1) i mods (by omega) (by omega)]
      rw [hdrop, List.filter_cons_of_neg hp]

/-- With a recognised side the filter step keeps exactly the records that
satisfy the loop condition, in their original order. -/
theorem filterBySide_some (L : GoLib) (v : Viper) (s : String) (mods : List Mod)
    (hv : v.side = some s)
    (hs : s = ClientSide ∨ s = ServerSide ∨ s = UniversalSide) :
    filterBySide L v mods = .ok (mods.filter (sideKeeps s)) := by
  have hcond : (s != UniversalSide && s != ServerSide && s != ClientSide) = false := by
    rcases hs with h | h | h <;> subst h <;> decide
  have hloop := filterLoop_take s mods.length 0 0 mods (le_refl 0) (by simp)
  simp only [List.take_zero, List.drop_zero, List.nil_append] at hloop
  simp [filterBySide, hv, hcond, hloop]

/-- With an unrecognised side the filter step exits after printing the message. -/
theorem filterBySide_invalid (L : GoLib) (v : Viper) (s : String) (mods : List Mod)
    (hv : v.side = some s)
    (hs : ¬ (s = ClientSide ∨ s = ServerSide ∨ s = UniversalSide)) :
    filterBySide L v mods = .error (invalidSideMessage L s) := by
  have hcond : (s != UniversalSide && s != ServerSide && s != ClientSide) = true := by
    simp only [not_or] at hs
    simp [hs.1, hs.2.1, hs.2.2]
  simp [filterBySide, hv, hcond]

/-- The loop condition, as a proposition. -/
theorem sideKeeps_iff (s : String) (r : Mod) :
    sideKeeps s r = true ↔
      (r.Side = s ∨ r.Side = EmptySide ∨ r.Side = UniversalSide ∨ s = UniversalSide) := by
  simp [sideKeeps, or_assoc]

/-- C1. Side filter inclusion: for a requested side `s` among client, server
and both, the filter step succeeds, and a record of the input is kept if and
only if its side equals `s`, or its side is empty, or its side is `both`, or
`s` is `both`.  In particular a record with empty or universal side is kept
under every such filter, and a record whose side is client or server is kept
if and only if its side equals `s` or `s` is `both`. -/
theorem side_filter_inclusion (L : GoLib) (v : Viper) (s : String) (mods : List Mod)
    (hv : v.side = some s)
    (hs : s = ClientSide ∨ s = ServerSide ∨ s = UniversalSide) :
    ∃ kept, filterBySide L v mods = .ok kept ∧
      (∀ r, r ∈ kept ↔ r ∈ mods ∧
        (r.Side = s ∨ r.Side = EmptySide ∨ r.Side = UniversalSide ∨ s = UniversalSide)) ∧
      (∀ r, r ∈ mods → (r.Side = EmptySide ∨ r.Side = UniversalSide) → r ∈ kept) ∧
      (∀ r, r ∈ mods → (r.Side = ClientSide ∨ r.Side = ServerSide) →
        (r ∈ kept ↔ (r.Side = s ∨ s = UniversalSide))) := by
  refine ⟨mods.filter (sideKeeps s), filterBySide_some L v s mods hv hs, ?_, ?_, ?_⟩
  · intro r
    rw [List.mem_filter, sideKeeps_iff]
  · intro r hr hside
    rw [List.mem_filter, sideKeeps_iff]
    exact ⟨hr, by tauto⟩
  · intro r hr hside
    rw [List.mem_filter, sideKeeps_iff]
    constructor
    · rintro ⟨-, h | h | h | h⟩
      · exact Or.inl h
      · rcases hside with h2 | h2 <;> rw [h2] at h <;> exact absurd h (by decide)
      · rcases hside with h2 | h2 <;> rw [h2] at h <;> exact absurd h (by decide)
      · exact Or.inr h
    · rintro (h | h)
      · exact ⟨hr, Or.inl h⟩
      · exact ⟨hr, Or.inr (Or.inr (Or.inr h))⟩

/-- C1 at a concrete input: under the filter `server`, of a client record, a
record without side, a universal record and a server record, all but the
first are kept. -/
theorem side_filter_inclusion_witness :
    ∃ kept, filterBySide goLib ⟨some "server", false, false⟩
        [modNamed "c" "client", modNamed "e" "", modNamed "u" "both", modNamed "s" "server"]
          = .ok kept ∧
      (∀ r, r ∈ kept ↔
        r ∈ [modNamed "c" "client", modNamed "e" "", modNamed "u" "both", modNamed "s" "server"] ∧
        (r.Side = "server" ∨ r.Side = EmptySide ∨ r.Side = UniversalSide
          ∨ "server" = UniversalSide)) ∧
      (∀ r, r ∈ [modNamed "c" "client", modNamed "e" "", modNamed "u" "both",
          modNamed "s" "server"] →
        (r.Side = EmptySide ∨ r.Side = UniversalSide) → r ∈ kept) ∧
      (∀ r, r ∈ [modNamed "c" "client", modNamed "e" "", modNamed "u" "both",
          modNamed "s" "server"] →
        (r.Side = ClientSide ∨ r.Side = ServerSide) →
        (r ∈ kept ↔ (r.Side = "server" ∨ "server" = UniversalSide))) :=
  side_filter_inclusion goLib ⟨some "server", false, false⟩ "server" _ rfl (by decide)

/-- With an accepted side filter the filter step yields the passing records. -/
theorem filterBySide_accepted (L : GoLib) (v : Viper) (mods : List Mod)
    (hv : sideAccepted v) : filterBySide L v mods = .ok (keptBySide v mods) := by
  rcases hv with h | h | h | h
  · simp [filterBySide, keptBySide, h]
  · rw [filterBySide_some L v _ mods h (Or.inl rfl)]; simp [keptBySide, h]
  · rw [filterBySide_some L v _ mods h (Or.inr (Or.inl rfl))]; simp [keptBySide, h]
  · rw [filterBySide_some L v _ mods h (Or.inr (Or.inr rfl))]; simp [keptBySide, h]

/-- With an accepted side filter the render branches get the sorted passing records. -/
theorem listedMods_accepted (L : GoLib) (v : Viper) (mods : List Mod)
    (hv : sideAccepted v) :
    listedMods L v mods = .ok (L.Slice (nameLess L) (keptBySide v mods)) := by
  simp [listedMods, filterBySide_accepted L v mods hv]

/-- When the three loaders succeed the run is the filter, the sort and the
render branch. -/
theorem Run_of_loaded {Pack Index : Type} (L : GoLib) (ld : Loaders Pack Index) (v : Viper)
    (pack : Pack) (index : Index) (mods : List Mod)
    (h1 : ld.LoadPack = .ok pack) (h2 : ld.LoadIndex pack = .ok index)
    (h3 : ld.LoadAllMods index = .ok mods) :
    Run L ld v =
      match listedMods L v mods with
      | .error out => ⟨out, 1, []⟩
      | .ok ms => printMods L v ms := by
  simp [Run, h1, h2, h3]

/-- A render branch returns normally. -/
theorem printMods_status (L : GoLib) (v : Viper) (ms : List Mod) :
    (printMods L v ms).status = 0 := by
  unfold printMods
  split
  · simp only []
    split <;> rfl
  · split <;> rfl

/-- One render branch is entered: the JSON one when `json` is set, otherwise
the versioned one when `version` is set, otherwise the plain one. -/
theorem printMods_ran (L : GoLib) (v : Viper) (ms : List Mod) :
    (printMods L v ms).ran
      = [if v.json then Renderer.json else if v.version then Renderer.versioned
          else Renderer.plain] := by
  unfold printMods
  split
  · simp only []
    split <;> rfl
  · split <;> rfl

/-- C2. Invalid filter rejection: when the loaders succeed and the side filter
is set to `s`, the run ends with exit status 1 having printed only the
invalid-side message and entered no render branch, if and only if `s` is not
one of `client`, `server`, `both` (compared exactly); for `s` among the three
the run returns normally with status 0 after one render branch. -/
theorem invalid_side_rejected {Pack Index : Type} (L : GoLib) (ld : Loaders Pack Index)
    (v : Viper) (s : String) (pack : Pack) (index : Index) (mods : List Mod)
    (h1 : ld.LoadPack = .ok pack) (h2 : ld.LoadIndex pack = .ok index)
    (h3 : ld.LoadAllMods index = .ok mods) (hv : v.side = some s) :
    (Run L ld v = ⟨invalidSideMessage L s, 1, []⟩
        ↔ ¬ (s = "client" ∨ s = "server" ∨ s = "both")) ∧
      ((s = "client" ∨ s = "server" ∨ s = "both") →
        (Run L ld v).status = 0 ∧ (Run L ld v).ran.length = 1) := by
  rw [Run_of_loaded L ld v pack index mods h1 h2 h3]
  by_cases hs : s = "client" ∨ s = "server" ∨ s = "both"
  · have hacc : sideAccepted v := by
      rcases hs with h | h | h <;> subst h
      · exact Or.inr (Or.inl hv)
      · exact Or.inr (Or.inr (Or.inl hv))
      · exact Or.inr (Or.inr (Or.inr hv))
    rw [listedMods_accepted L v mods hacc]
    simp only []
    have hst := printMods_status L v (L.Slice (nameLess L) (keptBySide v mods))
    have hran := printMods_ran L v (L.Slice (nameLess L) (keptBySide v mods))
    refine ⟨⟨fun h => ?_, fun h => absurd hs h⟩, fun _ => ⟨hst, by rw [hran]; rfl⟩⟩
    rw [h] at hst
    simp at hst
  · have hinv : filterBySide L v mods = .error (invalidSideMessage L s) :=
      filterBySide_invalid L v s mods hv hs
    have hlist : listedMods L v mods = .error (invalidSideMessage L s) := by
      simp only [listedMods, hinv]
    rw [hlist]
    exact ⟨⟨fun _ => hs, fun _ => rfl⟩, fun h => absurd h hs⟩

/-- C2 at a concrete input: the side value `Client` (capital C) is rejected. -/
theorem invalid_side_rejected_witness :
    (Run goLib (loaded [modNamed "alpha" ""]) ⟨some "Client", false, false⟩
        = ⟨invalidSideMessage goLib "Client", 1, []⟩
        ↔ ¬ ("Client" = "client" ∨ "Client" = "server" ∨ "Client" = "both")) ∧
      (("Client" = "client" ∨ "Client" = "server" ∨ "Client" = "both") →
        (Run goLib (loaded [modNamed "alpha" ""]) ⟨some "Client", false, false⟩).status = 0 ∧
        (Run goLib (loaded [modNamed "alpha" ""]) ⟨some "Client", false, false⟩).ran.length
          = 1) :=
  invalid_side_rejected goLib (loaded [modNamed "alpha" ""]) ⟨some "Client", false, false⟩
    "Client" () () [modNamed "alpha" ""] rfl rfl rfl rfl

/-! ### The sort -/

/-- No string is less than itself. -/
theorem ltChars_irrefl : ∀ a : List Char, ltChars a a = false
  | [] => rfl
  | _ :: as => by simp [ltChars, ltChars_irrefl as]

/-- The order on strings is transitive. -/
theorem ltChars_trans : ∀ a b c : List Char,
    ltChars a b = true → ltChars b c = true → ltChars a c = true
  | _, [], _ => by simp [ltChars]
  | _, _ :: _, [] => by simp [ltChars]
  | [], _ :: _, _ :: _ => by simp [ltChars]
  | a :: as, b :: bs, c :: cs => by
    simp only [ltChars, Bool.or_eq_true, decide_eq_true_eq, Bool.and_eq_true, beq_iff_eq]
    rintro (h1 | ⟨h1, h1'⟩) (h2 | ⟨h2, h2'⟩)
    · left; omega
    · subst h2; left; exact h1
    · subst h1; left; exact h2
    · subst h1; subst h2; right; exact ⟨rfl, ltChars_trans as bs cs h1' h2'⟩

/-- Two strings are equal or one is less than the other. -/
theorem ltChars_total : ∀ a b : List Char, ltChars a b = false → a = b ∨ ltChars b a = true
  | [], [] => by simp
  | [], _ :: _ => by simp [ltChars]
  | _ :: _, [] => by simp [ltChars]
  | a :: as, b :: bs => by
    simp only [ltChars, Bool.or_eq_false_iff, decide_eq_false_iff_not, Bool.and_eq_false_imp,
      beq_iff_eq, Bool.or_eq_true, decide_eq_true_eq, Bool.and_eq_true, List.cons.injEq]
    rintro ⟨h1, h2⟩
    by_cases hab : a = b
    · subst hab
      rcases ltChars_total as bs (h2 rfl) with h | h
      · left; exact ⟨rfl, h⟩
      · right; right; exact ⟨rfl, h⟩
    · right; left
      have : a.toNat ≠ b.toNat := fun h => hab (by rw [← Char.ofNat_toNat a, ← Char.ofNat_toNat b, h])
      omega

/-- Not being less is transitive. -/
theorem ltChars_negtrans (a b c : List Char)
    (h1 : ltChars a b = false) (h2 : ltChars b c = false) : ltChars a c = false := by
  by_contra h
  have hac : ltChars a c = true := by simpa using h
  rcases ltChars_total a b h1 with e | hba
  · subst e; rw [hac] at h2; exact absurd h2 (by decide)
  · rcases ltChars_total b c h2 with e | hcb
    · subst e; rw [hac] at h1; exact absurd h1 (by decide)
    · have := ltChars_trans _ _ _ (ltChars_trans _ _ _ hcb hba) hac
      rw [ltChars_irrefl] at this; exact absurd this (by decide)

/-- The closure handed to `sort.Slice` meets the requirement on `less`. -/
theorem nameLess_strictWeak (L : GoLib) : StrictWeak (nameLess L) :=
  ⟨fun _ => ltChars_irrefl _,
   fun _ _ _ h1 h2 => ltChars_trans _ _ _ h1 h2,
   fun _ _ _ h1 h2 => ltChars_negtrans _ _ _ h1 h2⟩

/-- For a `less` meeting the requirement, a list without descent between
neighbours has no descent between any two positions. -/
theorem pairwise_of_chain {α : Type} (less : α → α → Bool) (h : StrictWeak less)
    (l : List α) (hc : l.Chain' (fun a b => less b a = false)) :
    l.Pairwise (fun a b => less b a = false) := by
  haveI : IsTrans α (fun a b => less b a = false) :=
    ⟨fun a b c hab hbc => h.2.2 c b a hbc hab⟩
  exact List.chain'_iff_pairwise.mp hc

/-- Sorting by insertion meets the contract of `sort.Slice`. -/
theorem insertionLib_contract : SliceContract insertionLib.Slice := by
  constructor
  · intro less xs _
    exact List.perm_insertionSort _ xs
  · intro less xs h
    haveI : IsTrans Mod (fun a b => less b a = false) :=
      ⟨fun a b c hab hbc => h.2.2 c b a hbc hab⟩
    haveI : IsTotal Mod (fun a b => less b a = false) :=
      ⟨fun a b => by
        by_contra hcon
        simp only [not_or, Bool.not_eq_false] at hcon
        have := h.2.1 a b a hcon.2 hcon.1
        rw [h.1 a] at this
        exact absurd this (by decide)⟩
    exact (List.sorted_insertionSort (fun a b => less b a = false) xs).chain'

/-! ### The implementation of `sort.Slice` sorts -/

namespace GoSort

variable {α : Type}

/-- Two elements are kept and two positions exchanged: replacing the element
at a position and adding the old one back amounts to adding the new one. -/
theorem cons_set_perm (d : List α) (i : Nat) (x y : α) (h : d[i]? = some x) :
    (x :: d.set i y).Perm (y :: d) := by
  induction d generalizing i with
  | nil => simp at h
  | cons c cs ih =>
    cases i with
    | zero =>
      simp only [List.getElem?_cons_zero, Option.some.injEq] at h
      subst h
      exact List.Perm.swap _ _ _
    | succ i =>
      simp only [List.getElem?_cons_succ] at h
      simp only [List.set_cons_succ]
      exact (List.Perm.swap _ _ _).trans (((ih i h).cons c).trans (List.Perm.swap _ _ _))

/-- The exchange keeps the length. -/
theorem length_Swap (d : List α) (i j : Nat) : (Swap d i j).length = d.length := by
  unfold Swap
  split <;> simp

/-- The exchange rearranges the slice. -/
theorem Swap_perm (d : List α) (i j : Nat) : (Swap d i j).Perm d := by
  unfold Swap
  split
  · rename_i x y hx hy
    have h1 := cons_set_perm d i x y hx
    have hy1 : (d.set i y)[j]? = some y := by
      rw [List.getElem?_set]
      split
      · rename_i hij
        have : i < d.length := by
          rcases Nat.lt_or_ge i d.length with h | h
          · exact h
          · rw [List.getElem?_eq_none h] at hx; cases hx
        simp [this]
      · exact hy
    have h2 := cons_set_perm (d.set i y) j y x hy1
    exact (List.perm_cons y).mp (h2.trans h1)
  · exact List.Perm.refl _

/-- The elements after an exchange. -/
theorem getElem?_Swap (d : List α) (i j k : Nat) (hi : i < d.length) (hj : j < d.length) :
    (Swap d i j)[k]? = if k = j then d[i]? else if k = i then d[j]? else d[k]? := by
  unfold Swap
  rw [List.getElem?_eq_getElem hi, List.getElem?_eq_getElem hj]
  simp only
  rw [List.getElem?_set, List.getElem?_set]
  simp only [List.length_set]
  by_cases hkj : k = j
  · subst hkj; simp [hj]
  · rw [if_neg (fun h => hkj h.symm), if_neg hkj]
    by_cases hki : k = i
    · subst hki; simp [hi]
    · rw [if_neg (fun h => hki h.symm), if_neg hki]


/-! #### The order -/

/-- If `x` is less than `y` then `y` is not less than `x`. -/
theorem sw_asymm {less : α → α → Bool} (h : StrictWeak less) {x y : α}
    (hxy : less x y = true) : less y x = false := by
  cases hyx : less y x with
  | false => rfl
  | true =>
    have := h.2.1 x y x hxy hyx
    rw [h.1 x] at this
    exact absurd this (by decide)

/-- Not being less is transitive: `x ≤ y` and `y ≤ z` give `x ≤ z`. -/
theorem sw_le_trans {less : α → α → Bool} (h : StrictWeak less) {x y z : α}
    (hxy : less y x = false) (hyz : less z y = false) : less z x = false :=
  h.2.2 z y x hyz hxy

/-- From `x < y` and `y ≤ z` follows `x < z`. -/
theorem sw_lt_of_lt_of_le {less : α → α → Bool} (h : StrictWeak less) {x y z : α}
    (hxy : less x y = true) (hyz : less z y = false) : less x z = true := by
  cases hxz : less x z with
  | true => rfl
  | false =>
    have := h.2.2 x z y hxz hyz
    rw [hxy] at this
    exact absurd this (by decide)

/-- From `x ≤ y` and `y < z` follows `x < z`. -/
theorem sw_lt_of_le_of_lt {less : α → α → Bool} (h : StrictWeak less) {x y z : α}
    (hxy : less y x = false) (hyz : less y z = true) : less x z = true := by
  cases hxz : less x z with
  | true => rfl
  | false =>
    have := h.2.2 y x z hxy hxz
    rw [hyz] at this
    exact absurd this (by decide)

/-! #### Rearrangements inside a range -/

/-- Nothing changed is a rearrangement. -/
theorem Within.refl (a b : Nat) (d : List α) : Within a b d d :=
  ⟨List.Perm.refl _, fun _ _ => rfl⟩

/-- Rearrangements compose. -/
theorem Within.trans {a b : Nat} {d d1 d2 : List α} (h1 : Within a b d d1)
    (h2 : Within a b d1 d2) : Within a b d d2 :=
  ⟨h2.1.trans h1.1, fun k hk => (h2.2 k hk).trans (h1.2 k hk)⟩

/-- A rearrangement inside a range is one inside every larger range. -/
theorem Within.mono {a b a2 b2 : Nat} {d d1 : List α} (h : Within a b d d1)
    (ha : a2 ≤ a) (hb : b ≤ b2) : Within a2 b2 d d1 :=
  ⟨h.1, fun k hk => h.2 k (by omega)⟩

/-- A rearrangement keeps the length. -/
theorem Within.length_eq {a b : Nat} {d d1 : List α} (h : Within a b d d1) :
    d1.length = d.length := h.1.length_eq

/-- An exchange of two positions of the range is a rearrangement inside it. -/
theorem Within_Swap (a b : Nat) (d : List α) (i j : Nat)
    (hi : a ≤ i ∧ i < b) (hj : a ≤ j ∧ j < b) : Within a b d (Swap d i j) := by
  refine ⟨Swap_perm d i j, fun k hk => ?_⟩
  by_cases hil : i < d.length
  · by_cases hjl : j < d.length
    · rw [getElem?_Swap d i j k hil hjl, if_neg (by omega), if_neg (by omega)]
    · unfold Swap
      rw [List.getElem?_eq_none (Nat.le_of_not_lt hjl)]
      split <;> simp_all
  · unfold Swap
    rw [List.getElem?_eq_none (Nat.le_of_not_lt hil)]

/-- The part of a slice between two positions. -/
theorem getElem?_take_drop (d : List α) (a b k : Nat) :
    ((d.drop a).take (b - a))[k]? = if k < b - a then d[a + k]? else none := by
  rw [List.getElem?_take]
  split
  · rw [List.getElem?_drop]
  · rfl

/-- A slice is its part before `a`, its part from `a` to `b`, and its part from `b` on. -/
theorem split_three (d : List α) (a b : Nat) (hab : a ≤ b) :
    d = d.take a ++ ((d.drop a).take (b - a) ++ d.drop b) := by
  have h1 : d.drop b = (d.drop a).drop (b - a) := by
    rw [List.drop_drop]; congr 1; omega
  rw [h1, List.take_append_drop, List.take_append_drop]

/-- A rearrangement inside a range rearranges the part of the slice in the range. -/
theorem Within.slice_perm {a b : Nat} {d d1 : List α} (h : Within a b d d1) (hab : a ≤ b) :
    ((d1.drop a).take (b - a)).Perm ((d.drop a).take (b - a)) := by
  have htake : d1.take a = d.take a := by
    apply List.ext_getElem?
    intro k
    rw [List.getElem?_take, List.getElem?_take]
    split
    · exact h.2 k (Or.inl ‹_›)
    · rfl
  have hdrop : d1.drop b = d.drop b := by
    apply List.ext_getElem?
    intro k
    rw [List.getElem?_drop, List.getElem?_drop]
    exact h.2 (b + k) (Or.inr (by omega))
  have hp := h.1
  rw [split_three d a b hab, split_three d1 a b hab, htake, hdrop] at hp
  exact (List.perm_append_right_iff _).mp ((List.perm_append_left_iff _).mp hp)

/-- After a rearrangement inside a range, every element found in the range was
in the range before. -/
theorem Within.range {a b : Nat} {d d1 : List α} (h : Within a b d d1) (hab : a ≤ b)
    {k : Nat} {x : α} (hk : a ≤ k ∧ k < b) (hx : d1[k]? = some x) :
    ∃ k2, (a ≤ k2 ∧ k2 < b) ∧ d[k2]? = some x := by
  have hmem : x ∈ (d1.drop a).take (b - a) := by
    rw [List.mem_iff_getElem?]
    refine ⟨k - a, ?_⟩
    rw [getElem?_take_drop, if_pos (by omega), ← hx]
    congr 1
    omega
  have hmem2 := (h.slice_perm hab).subset hmem
  rw [List.mem_iff_getElem?] at hmem2
  obtain ⟨n, hn⟩ := hmem2
  rw [getElem?_take_drop] at hn
  split at hn
  · exact ⟨a + n, ⟨by omega, by omega⟩, hn⟩
  · cases hn

/-- A rearrangement inside the range keeps the lower bound of the range. -/
theorem LowerBound.within {less : α → α → Bool} {a b : Nat} {d d1 : List α}
    (hlb : LowerBound less d a b) (h : Within a b d d1) (hab : a ≤ b) :
    LowerBound less d1 a b := by
  intro p k x ha hp hak hkb hx
  obtain ⟨k2, hk2, hx2⟩ := h.range hab ⟨hak, hkb⟩ hx
  rw [h.2 (a - 1) (Or.inl (by omega))] at hp
  exact hlb p k2 x ha hp hk2.1 hk2.2 hx2

/-- A lower bound of a range is one of every part of it that starts at the same position. -/
theorem LowerBound.upto {less : α → α → Bool} {a b b2 : Nat} {d : List α}
    (hlb : LowerBound less d a b) (hb : b2 ≤ b) : LowerBound less d a b2 :=
  fun p k x ha hp hak hkb hx => hlb p k x ha hp hak (by omega) hx

/-- The comparison of two positions that hold elements. -/
theorem Less_eq (less : α → α → Bool) (d : List α) {i j : Nat} {x y : α}
    (hx : d[i]? = some x) (hy : d[j]? = some y) : Less less d i j = less x y := by
  simp [Less, hx, hy]

/-- A position inside the slice holds an element. -/
theorem exists_getElem? (d : List α) {i : Nat} (h : i < d.length) : ∃ x, d[i]? = some x :=
  ⟨d[i], List.getElem?_eq_getElem h⟩

/-! #### Insertion sort -/

/-- The inner loop of the insertion sort: when the positions `a .. i` are in
order except for the element at `p`, which is less than all elements after it
up to `i`, the loop leaves the positions `a .. i` in order. -/
theorem insertionInner_spec {less : α → α → Bool} (h : StrictWeak less) (a i : Nat) :
    ∀ (p : Nat) (d : List α), a ≤ p → p ≤ i → i < d.length →
      (∀ u v x y, a ≤ u → u < v → v ≤ i → u ≠ p → v ≠ p →
        d[u]? = some x → d[v]? = some y → less y x = false) →
      (∀ v x y, p < v → v ≤ i → d[p]? = some x → d[v]? = some y → less x y = true) →
      SortedOn less (insertionInner less a p d) a (i + 1) ∧
        Within a (i + 1) d (insertionInner less a p d) := by
  intro p
  induction p with
  | zero =>
    intro d ha _ _ h1 h2
    refine ⟨?_, Within.refl _ _ _⟩
    intro u v x y hau huv hvi hx hy
    by_cases hu : u = 0
    · subst hu
      exact sw_asymm h (h2 v x y huv (by omega) hx hy)
    · exact h1 u v x y hau huv (by omega) hu (by omega) hx hy
  | succ p ih =>
    intro d ha hpi hil h1 h2
    obtain ⟨xp1, hxp1⟩ := exists_getElem? d (show p + 1 < d.length by omega)
    obtain ⟨xp, hxp⟩ := exists_getElem? d (show p < d.length by omega)
    rw [insertionInner]
    by_cases hc : (decide (a < p + 1) && Less less d (p + 1) p) = true
    · rw [if_pos hc]
      simp only [Bool.and_eq_true, decide_eq_true_eq] at hc
      obtain ⟨hap, hless⟩ := hc
      rw [Less_eq less d hxp1 hxp] at hless
      have hsw : ∀ k, (Swap d (p + 1) p)[k]?
          = if k = p then d[p + 1]? else if k = p + 1 then d[p]? else d[k]? :=
        fun k => getElem?_Swap d (p + 1) p k (by omega) (by omega)
      have hw : Within a (i + 1) d (Swap d (p + 1) p) :=
        Within_Swap a (i + 1) d (p + 1) p ⟨by omega, by omega⟩ ⟨by omega, by omega⟩
      obtain ⟨hs, hwi⟩ := ih (Swap d (p + 1) p) (by omega) (by omega)
        (by rw [length_Swap]; exact hil)
        (by
          intro u v x y hau huv hvi hup hvp hx hy
          rw [hsw, if_neg hup] at hx
          rw [hsw, if_neg hvp] at hy
          by_cases hv1 : v = p + 1
          · rw [if_pos hv1] at hy
            rw [if_neg (by omega)] at hx
            exact h1 u p x y hau (by omega) (by omega) (by omega) (by omega) hx hy
          · rw [if_neg hv1] at hy
            by_cases hu1 : u = p + 1
            · rw [if_pos hu1] at hx
              exact h1 p v x y (by omega) (by omega) hvi (by omega) hv1 hx hy
            · rw [if_neg hu1] at hx
              exact h1 u v x y hau huv hvi hu1 hv1 hx hy)
        (by
          intro v x y hpv hvi hx hy
          rw [hsw, if_pos rfl] at hx
          rw [hsw, if_neg (by omega)] at hy
          by_cases hv1 : v = p + 1
          · rw [if_pos hv1] at hy
            rw [hxp1] at hx
            rw [hxp] at hy
            cases hx; cases hy
            exact hless
          · rw [if_neg hv1] at hy
            exact h2 v x y (by omega) hvi hx hy)
      exact ⟨hs, hw.trans hwi⟩
    · rw [if_neg hc]
      refine ⟨?_, Within.refl _ _ _⟩
      intro u v x y hau huv hvi hx hy
      by_cases hu : u = p + 1
      · subst hu
        exact sw_asymm h (h2 v x y huv (by omega) hx hy)
      · by_cases hv : v = p + 1
        · subst hv
          have hless : less xp1 xp = false := by
            have hap : a < p + 1 := by omega
            simp only [Bool.and_eq_true, decide_eq_true_eq, not_and, Bool.not_eq_true] at hc
            have := hc hap
            rwa [Less_eq less d hxp1 hxp] at this
          rw [hxp1] at hy
          cases hy
          by_cases hup : u = p
          · subst hup
            rw [hxp] at hx
            cases hx
            exact hless
          · have hle : less xp x = false :=
              h1 u p x xp hau (by omega) (by omega) hu (by omega) hx hxp
            exact sw_le_trans h hle hless
        · exact h1 u v x y hau huv (by omega) hu hv hx hy

/-- The outer loop of the insertion sort leaves the positions `a .. b - 1` in order. -/
theorem insertionOuter_spec {less : α → α → Bool} (h : StrictWeak less) (a b : Nat) :
    ∀ (f i : Nat) (d : List α), a < i → b ≤ d.length → b - i ≤ f →
      SortedOn less d a i →
      SortedOn less (insertionOuter less a b f i d) a b ∧
        Within a b d (insertionOuter less a b f i d) := by
  intro f
  induction f with
  | zero =>
    intro i d _ _ hf hs
    refine ⟨?_, Within.refl _ _ _⟩
    intro u v x y hau huv hvb hx hy
    exact hs u v x y hau huv (by omega) hx hy
  | succ f ih =>
    intro i d hai hbl hf hs
    rw [insertionOuter]
    by_cases hib : i < b
    · rw [if_pos hib]
      obtain ⟨hs1, hw1⟩ := insertionInner_spec h a i i d (by omega) (le_refl _) (by omega)
        (fun u v x y hau huv hvi _ hvp hx hy => hs u v x y hau huv (by omega) hx hy)
        (fun v x y hpv hvi _ _ => by omega)
      obtain ⟨hs2, hw2⟩ := ih (i + 1) (insertionInner less a i d) (by omega)
        (by rw [hw1.length_eq]; exact hbl) (by omega) hs1
      exact ⟨hs2, (hw1.mono (le_refl _) (by omega)).trans hw2⟩
    · rw [if_neg hib]
      refine ⟨?_, Within.refl _ _ _⟩
      intro u v x y hau huv hvb hx hy
      exact hs u v x y hau huv (by omega) hx hy

/-- The function `insertionSort_func` sorts the positions `a .. b - 1`. -/
theorem insertionSort_spec {less : α → α → Bool} (h : StrictWeak less) (d : List α)
    (a b : Nat) (hbl : b ≤ d.length) :
    SortedOn less (insertionSort_func less d a b) a b ∧
      Within a b d (insertionSort_func less d a b) := by
  unfold insertionSort_func
  exact insertionOuter_spec h a b (b - a) (a + 1) d (by omega) hbl (by omega)
    (fun u v x y hau huv hvb _ _ => by omega)

/-! #### Partition -/

/-- The upward scan of `partition_func` stops at the first position, not
beyond `j + 1`, whose element is not less than the pivot. -/
theorem scanUp_spec (less : α → α → Bool) (d : List α) (a j : Nat) (p : α)
    (hp : d[a]? = some p) (hj : j < d.length) :
    ∀ (f i : Nat), j + 1 - i ≤ f →
      i ≤ scanUp less d a j f i ∧
      (i ≤ j + 1 → scanUp less d a j f i ≤ j + 1) ∧
      (∀ k x, i ≤ k → k < scanUp less d a j f i → d[k]? = some x → less x p = true) ∧
      (scanUp less d a j f i ≤ j → ∀ x, d[scanUp less d a j f i]? = some x →
        less x p = false) := by
  intro f
  induction f with
  | zero =>
    intro i hf
    simp only [scanUp]
    exact ⟨le_refl _, fun h => h, fun k x h1 h2 => by omega, fun h => by omega⟩
  | succ f ih =>
    intro i hf
    rw [scanUp]
    by_cases hc : (decide (i ≤ j) && Less less d i a) = true
    · rw [if_pos hc]
      simp only [Bool.and_eq_true, decide_eq_true_eq] at hc
      obtain ⟨hij, hless⟩ := hc
      obtain ⟨xi, hxi⟩ := exists_getElem? d (show i < d.length by omega)
      rw [Less_eq less d hxi hp] at hless
      obtain ⟨h1, h2, h3, h4⟩ := ih (i + 1) (by omega)
      refine ⟨by omega, fun _ => h2 (by omega), ?_, h4⟩
      intro k x hik hk hx
      by_cases hki : k = i
      · subst hki
        rw [hxi] at hx
        cases hx
        exact hless
      · exact h3 k x (by omega) hk hx
    · rw [if_neg hc]
      refine ⟨le_refl _, fun h => h, fun k x h1 h2 => by omega, ?_⟩
      intro hij x hx
      simp only [Bool.and_eq_true, decide_eq_true_eq, not_and, Bool.not_eq_true] at hc
      have := hc hij
      rwa [Less_eq less d hx hp] at this

/-- The downward scan of `partition_func` stops at the last position, not
below `i - 1`, whose element is less than the pivot. -/
theorem scanDown_spec (less : α → α → Bool) (d : List α) (a i : Nat) (p : α)
    (hp : d[a]? = some p) (hi : 0 < i) :
    ∀ (f j : Nat), j < d.length → j + 1 - i ≤ f →
      scanDown less d a i f j ≤ j ∧
      (i ≤ j + 1 → i ≤ scanDown less d a i f j + 1) ∧
      (∀ k x, scanDown less d a i f j < k → k ≤ j → d[k]? = some x → less x p = false) ∧
      (i ≤ scanDown less d a i f j → ∀ x, d[scanDown less d a i f j]? = some x →
        less x p = true) := by
  intro f
  induction f with
  | zero =>
    intro j _ hf
    simp only [scanDown]
    exact ⟨le_refl _, fun h => h, fun k x h1 h2 => by omega, fun h => by omega⟩
  | succ f ih =>
    intro j hjl hf
    rw [scanDown]
    by_cases hc : (decide (i ≤ j) && !Less less d j a) = true
    · rw [if_pos hc]
      simp only [Bool.and_eq_true, decide_eq_true_eq, Bool.not_eq_true'] at hc
      obtain ⟨hij, hless⟩ := hc
      obtain ⟨xj, hxj⟩ := exists_getElem? d hjl
      rw [Less_eq less d hxj hp] at hless
      obtain ⟨h1, h2, h3, h4⟩ := ih (j - 1) (by omega) (by omega)
      refine ⟨by omega, fun _ => h2 (by omega), ?_, h4⟩
      intro k x hk hkj hx
      by_cases hkj2 : k = j
      · subst hkj2
        rw [hxj] at hx
        cases hx
        exact hless
      · exact h3 k x hk (by omega) hx
    · rw [if_neg hc]
      refine ⟨le_refl _, fun h => h, fun k x h1 h2 => by omega, ?_⟩
      intro hij x hx
      simp only [Bool.and_eq_true, decide_eq_true_eq, Bool.not_eq_true', not_and,
        Bool.not_eq_false] at hc
      have := hc hij
      rwa [Less_eq less d hx hp] at this

/-- The main loop of `partition_func`: from a state where the positions after
`a` and before `i` hold elements less than the pivot and the positions after
`j` hold elements not less than it, the loop ends with a position `j2` that
separates the two kinds. -/
theorem partitionLoop_spec (less : α → α → Bool) (a b : Nat) (p : α) :
    ∀ (f i j : Nat) (d : List α), d[a]? = some p → a < i → j < b → b ≤ d.length →
      i ≤ j + 1 → j + 1 - i ≤ f →
      (∀ k x, a < k → k < i → d[k]? = some x → less x p = true) →
      (∀ k x, j < k → k < b → d[k]? = some x → less x p = false) →
      Within (a + 1) b d (partitionLoop less a f i j d).1 ∧
        a ≤ (partitionLoop less a f i j d).2 ∧ (partitionLoop less a f i j d).2 < b ∧
        (∀ k x, a < k → k ≤ (partitionLoop less a f i j d).2 →
          (partitionLoop less a f i j d).1[k]? = some x → less x p = true) ∧
        (∀ k x, (partitionLoop less a f i j d).2 < k → k < b →
          (partitionLoop less a f i j d).1[k]? = some x → less x p = false) := by
  intro f
  induction f with
  | zero =>
    intro i j d _ hai hjb _ hij hf hL hR
    simp only [partitionLoop]
    exact ⟨Within.refl _ _ _, by omega, hjb, fun k x h1 h2 hx => hL k x h1 (by omega) hx, hR⟩
  | succ f ih =>
    intro i j d hp hai hjb hbl hij hf hL hR
    rw [partitionLoop]
    obtain ⟨u1, u2, u3, u4⟩ := scanUp_spec less d a j p hp (by omega) (j + 1 - i) i (le_refl _)
    generalize scanUp less d a j (j + 1 - i) i = i1 at u1 u2 u3 u4 ⊢
    have hi1 := u2 hij
    obtain ⟨v1, v2, v3, v4⟩ := scanDown_spec less d a i1 p hp (by omega) (j + 1 - i1) j
      (by omega) (le_refl _)
    generalize scanDown less d a i1 (j + 1 - i1) j = j1 at v1 v2 v3 v4 ⊢
    have hj1 := v2 hi1
    by_cases hlt : j1 < i1
    · rw [if_pos hlt]
      refine ⟨Within.refl _ _ _, by omega, by omega, ?_, ?_⟩
      · intro k x hak hk hx
        by_cases hki : k < i
        · exact hL k x hak hki hx
        · exact u3 k x (by omega) (by omega) hx
      · intro k x hk hkb hx
        by_cases hkj : j < k
        · exact hR k x hkj hkb hx
        · exact v3 k x hk (by omega) hx
    · rw [if_neg hlt]
      have hle : i1 ≤ j1 := by omega
      obtain ⟨xi, hxi⟩ := exists_getElem? d (show i1 < d.length by omega)
      obtain ⟨xj, hxj⟩ := exists_getElem? d (show j1 < d.length by omega)
      have hxi_ge := u4 (by omega) xi hxi
      have hxj_lt := v4 hle xj hxj
      have hne : i1 ≠ j1 := by
        intro he
        subst he
        rw [hxi] at hxj
        cases hxj
        rw [hxi_ge] at hxj_lt
        exact absurd hxj_lt (by decide)
      have hsw : ∀ k, (Swap d i1 j1)[k]?
          = if k = j1 then d[i1]? else if k = i1 then d[j1]? else d[k]? :=
        fun k => getElem?_Swap d i1 j1 k (by omega) (by omega)
      have hw : Within (a + 1) b d (Swap d i1 j1) :=
        Within_Swap (a + 1) b d i1 j1 ⟨by omega, by omega⟩ ⟨by omega, by omega⟩
      obtain ⟨r1, r2, r3, r4, r5⟩ := ih (i1 + 1) (j1 - 1) (Swap d i1 j1)
        (by rw [hsw, if_neg (by omega), if_neg (by omega)]; exact hp)
        (by omega) (by omega) (by rw [length_Swap]; exact hbl) (by omega) (by omega)
        (by
          intro k x hak hk hx
          rw [hsw, if_neg (by omega)] at hx
          by_cases hki : k = i1
          · rw [if_pos hki, hxj] at hx
            cases hx
            exact hxj_lt
          · rw [if_neg hki] at hx
            by_cases hki2 : k < i
            · exact hL k x hak hki2 hx
            · exact u3 k x (by omega) (by omega) hx)
        (by
          intro k x hk hkb hx
          rw [hsw] at hx
          by_cases hkj : k = j1
          · rw [if_pos hkj, hxi] at hx
            cases hx
            exact hxi_ge
          · rw [if_neg hkj, if_neg (by omega)] at hx
            by_cases hkj2 : j < k
            · exact hR k x hkj2 hkb hx
            · exact v3 k x (by omega) (by omega) hx)
      exact ⟨hw.trans r1, r2, by omega, r4, fun k x hk hkb hx => r5 k x hk hkb hx⟩


/-- The function `partition_func`: with the pivot inside the range, it
rearranges the range, returns a position `mid` of the range that holds the
pivot element, with the elements less than the pivot before it and the others
after it. -/
theorem partition_spec (less : α → α → Bool) (d : List α) (a b pivot : Nat) (p : α)
    (hap : a ≤ pivot) (hpb : pivot < b) (hbl : b ≤ d.length) (hp : d[pivot]? = some p) :
    Within a b d (partition_func less d a b pivot).1 ∧
      a ≤ (partition_func less d a b pivot).2.1 ∧
      (partition_func less d a b pivot).2.1 < b ∧
      (partition_func less d a b pivot).1[(partition_func less d a b pivot).2.1]? = some p ∧
      (∀ k x, a ≤ k → k < (partition_func less d a b pivot).2.1 →
        (partition_func less d a b pivot).1[k]? = some x → less x p = true) ∧
      (∀ k x, (partition_func less d a b pivot).2.1 < k → k < b →
        (partition_func less d a b pivot).1[k]? = some x → less x p = false) := by
  have hw0 : Within a b d (Swap d a pivot) :=
    Within_Swap a b d a pivot ⟨le_refl _, by omega⟩ ⟨hap, hpb⟩
  have hp0 : (Swap d a pivot)[a]? = some p := by
    rw [getElem?_Swap d a pivot a (by omega) (by omega)]
    by_cases he : a = pivot
    · rw [if_pos he, he]; exact hp
    · rw [if_neg he, if_pos rfl]; exact hp
  have hl0 : b ≤ (Swap d a pivot).length := by rw [length_Swap]; exact hbl
  unfold partition_func
  simp only
  generalize Swap d a pivot = d0 at hw0 hp0 hl0 ⊢
  obtain ⟨u1, u2, u3, u4⟩ := scanUp_spec less d0 a (b - 1) p hp0 (by omega)
    (b - 1 + 1 - (a + 1)) (a + 1) (le_refl _)
  generalize scanUp less d0 a (b - 1) (b - 1 + 1 - (a + 1)) (a + 1) = i1 at u1 u2 u3 u4 ⊢
  have hi1 := u2 (by omega)
  obtain ⟨v1, v2, v3, v4⟩ := scanDown_spec less d0 a i1 p hp0 (by omega) (b - 1 + 1 - i1) (b - 1)
    (by omega) (le_refl _)
  generalize scanDown less d0 a i1 (b - 1 + 1 - i1) (b - 1) = j1 at v1 v2 v3 v4 ⊢
  have hj1 := v2 hi1
  -- the final exchange of the pivot with the separating position
  have final : ∀ (d2 : List α) (j2 : Nat), Within (a + 1) b d0 d2 → a ≤ j2 → j2 < b →
      (∀ k x, a < k → k ≤ j2 → d2[k]? = some x → less x p = true) →
      (∀ k x, j2 < k → k < b → d2[k]? = some x → less x p = false) →
      Within a b d (Swap d2 j2 a) ∧ (Swap d2 j2 a)[j2]? = some p ∧
        (∀ k x, a ≤ k → k < j2 → (Swap d2 j2 a)[k]? = some x → less x p = true) ∧
        (∀ k x, j2 < k → k < b → (Swap d2 j2 a)[k]? = some x → less x p = false) := by
    intro d2 j2 hw2 haj hjb hL hR
    have hl2 : b ≤ d2.length := by rw [hw2.length_eq]; exact hl0
    have hp2 : d2[a]? = some p := by rw [hw2.2 a (Or.inl (by omega))]; exact hp0
    have hsw : ∀ k, (Swap d2 j2 a)[k]?
        = if k = a then d2[j2]? else if k = j2 then d2[a]? else d2[k]? :=
      fun k => getElem?_Swap d2 j2 a k (by omega) (by omega)
    refine ⟨hw0.trans ((hw2.mono (by omega) (le_refl _)).trans
      (Within_Swap a b d2 j2 a ⟨haj, hjb⟩ ⟨le_refl _, by omega⟩)), ?_, ?_, ?_⟩
    · rw [hsw]
      by_cases he : j2 = a
      · rw [if_pos he, he]; exact hp2
      · rw [if_neg he, if_pos rfl]; exact hp2
    · intro k x hak hk hx
      rw [hsw] at hx
      by_cases hka : k = a
      · rw [if_pos hka] at hx
        exact hL j2 x (by omega) (le_refl _) hx
      · rw [if_neg hka, if_neg (by omega)] at hx
        exact hL k x (by omega) (by omega) hx
    · intro k x hk hkb hx
      rw [hsw, if_neg (by omega), if_neg (by omega)] at hx
      exact hR k x hk hkb hx
  by_cases hlt : j1 < i1
  · rw [if_pos hlt]
    simp only
    obtain ⟨f1, f2, f3, f4⟩ := final d0 j1 (Within.refl _ _ _) (by omega) (by omega)
      (fun k x hak hk hx => u3 k x (by omega) (by omega) hx)
      (fun k x hk hkb hx => v3 k x hk (by omega) hx)
    exact ⟨f1, by omega, by omega, f2, f3, f4⟩
  · rw [if_neg hlt]
    simp only
    have hle : i1 ≤ j1 := by omega
    obtain ⟨xi, hxi⟩ := exists_getElem? d0 (show i1 < d0.length by omega)
    obtain ⟨xj, hxj⟩ := exists_getElem? d0 (show j1 < d0.length by omega)
    have hxi_ge := u4 (by omega) xi hxi
    have hxj_lt := v4 hle xj hxj
    have hne : i1 ≠ j1 := by
      intro he
      subst he
      rw [hxi] at hxj
      cases hxj
      rw [hxi_ge] at hxj_lt
      exact absurd hxj_lt (by decide)
    have hsw : ∀ k, (Swap d0 i1 j1)[k]?
        = if k = j1 then d0[i1]? else if k = i1 then d0[j1]? else d0[k]? :=
      fun k => getElem?_Swap d0 i1 j1 k (by omega) (by omega)
    have hw1 : Within (a + 1) b d0 (Swap d0 i1 j1) :=
      Within_Swap (a + 1) b d0 i1 j1 ⟨by omega, by omega⟩ ⟨by omega, by omega⟩
    obtain ⟨r1, r2, r3, r4, r5⟩ := partitionLoop_spec less a b p (b - a) (i1 + 1) (j1 - 1)
      (Swap d0 i1 j1)
      (by rw [hsw, if_neg (by omega), if_neg (by omega)]; exact hp0)
      (by omega) (by omega) (by rw [length_Swap]; exact hl0) (by omega) (by omega)
      (by
        intro k x hak hk hx
        rw [hsw, if_neg (by omega)] at hx
        by_cases hki : k = i1
        · rw [if_pos hki, hxj] at hx
          cases hx
          exact hxj_lt
        · rw [if_neg hki] at hx
          exact u3 k x (by omega) (by omega) hx)
      (by
        intro k x hk hkb hx
        rw [hsw] at hx
        by_cases hkj : k = j1
        · rw [if_pos hkj, hxi] at hx
          cases hx
          exact hxi_ge
        · rw [if_neg hkj, if_neg (by omega)] at hx
          exact v3 k x (by omega) (by omega) hx)
    obtain ⟨f1, f2, f3, f4⟩ := final _ _ (hw1.trans r1) r2 r3 r4 r5
    exact ⟨f1, r2, r3, f2, f3, f4⟩

/-! #### Partition around equal elements -/

/-- The upward scan of `partitionEqual_func` stops at the first position, not
beyond `j + 1`, whose element is greater than the pivot. -/
theorem scanUpEq_spec (less : α → α → Bool) (d : List α) (a j : Nat) (p : α)
    (hp : d[a]? = some p) (hj : j < d.length) :
    ∀ (f i : Nat), j + 1 - i ≤ f →
      i ≤ scanUpEq less d a j f i ∧
      (i ≤ j + 1 → scanUpEq less d a j f i ≤ j + 1) ∧
      (∀ k x, i ≤ k → k < scanUpEq less d a j f i → d[k]? = some x → less p x = false) ∧
      (scanUpEq less d a j f i ≤ j → ∀ x, d[scanUpEq less d a j f i]? = some x →
        less p x = true) := by
  intro f
  induction f with
  | zero =>
    intro i hf
    simp only [scanUpEq]
    exact ⟨le_refl _, fun h => h, fun k x h1 h2 => by omega, fun h => by omega⟩
  | succ f ih =>
    intro i hf
    rw [scanUpEq]
    by_cases hc : (decide (i ≤ j) && !Less less d a i) = true
    · rw [if_pos hc]
      simp only [Bool.and_eq_true, decide_eq_true_eq, Bool.not_eq_true'] at hc
      obtain ⟨hij, hless⟩ := hc
      obtain ⟨xi, hxi⟩ := exists_getElem? d (show i < d.length by omega)
      rw [Less_eq less d hp hxi] at hless
      obtain ⟨h1, h2, h3, h4⟩ := ih (i + 1) (by omega)
      refine ⟨by omega, fun _ => h2 (by omega), ?_, h4⟩
      intro k x hik hk hx
      by_cases hki : k = i
      · subst hki
        rw [hxi] at hx
        cases hx
        exact hless
      · exact h3 k x (by omega) hk hx
    · rw [if_neg hc]
      refine ⟨le_refl _, fun h => h, fun k x h1 h2 => by omega, ?_⟩
      intro hij x hx
      simp only [Bool.and_eq_true, decide_eq_true_eq, Bool.not_eq_true', not_and,
        Bool.not_eq_false] at hc
      have := hc hij
      rwa [Less_eq less d hp hx] at this

/-- The downward scan of `partitionEqual_func` stops at the last position, not
below `i - 1`, whose element is not greater than the pivot. -/
theorem scanDownEq_spec (less : α → α → Bool) (d : List α) (a i : Nat) (p : α)
    (hp : d[a]? = some p) (hi : 0 < i) :
    ∀ (f j : Nat), j < d.length → j + 1 - i ≤ f →
      scanDownEq less d a i f j ≤ j ∧
      (i ≤ j + 1 → i ≤ scanDownEq less d a i f j + 1) ∧
      (∀ k x, scanDownEq less d a i f j < k → k ≤ j → d[k]? = some x → less p x = true) ∧
      (i ≤ scanDownEq less d a i f j → ∀ x, d[scanDownEq less d a i f j]? = some x →
        less p x = false) := by
  intro f
  induction f with
  | zero =>
    intro j _ hf
    simp only [scanDownEq]
    exact ⟨le_refl _, fun h => h, fun k x h1 h2 => by omega, fun h => by omega⟩
  | succ f ih =>
    intro j hjl hf
    rw [scanDownEq]
    by_cases hc : (decide (i ≤ j) && Less less d a j) = true
    · rw [if_pos hc]
      simp only [Bool.and_eq_true, decide_eq_true_eq] at hc
      obtain ⟨hij, hless⟩ := hc
      obtain ⟨xj, hxj⟩ := exists_getElem? d hjl
      rw [Less_eq less d hp hxj] at hless
      obtain ⟨h1, h2, h3, h4⟩ := ih (j - 1) (by omega) (by omega)
      refine ⟨by omega, fun _ => h2 (by omega), ?_, h4⟩
      intro k x hk hkj hx
      by_cases hkj2 : k = j
      · subst hkj2
        rw [hxj] at hx
        cases hx
        exact hless
      · exact h3 k x hk (by omega) hx
    · rw [if_neg hc]
      refine ⟨le_refl _, fun h => h, fun k x h1 h2 => by omega, ?_⟩
      intro hij x hx
      simp only [Bool.and_eq_true, decide_eq_true_eq, not_and, Bool.not_eq_true] at hc
      have := hc hij
      rwa [Less_eq less d hp hx] at this

/-- The loop of `partitionEqual_func`: it ends with a position `i2` such that
the positions after `a` and before `i2` hold elements not greater than the
pivot and the positions from `i2` on hold elements greater than it. -/
theorem partitionEqualLoop_spec (less : α → α → Bool) (a b : Nat) (p : α) :
    ∀ (f i j : Nat) (d : List α), d[a]? = some p → a < i → j < b → b ≤ d.length →
      i ≤ j + 1 → j + 1 - i ≤ f →
      (∀ k x, a < k → k < i → d[k]? = some x → less p x = false) →
      (∀ k x, j < k → k < b → d[k]? = some x → less p x = true) →
      Within (a + 1) b d (partitionEqualLoop less a f i j d).1 ∧
        a < (partitionEqualLoop less a f i j d).2 ∧ (partitionEqualLoop less a f i j d).2 ≤ b ∧
        (∀ k x, a < k → k < (partitionEqualLoop less a f i j d).2 →
          (partitionEqualLoop less a f i j d).1[k]? = some x → less p x = false) ∧
        (∀ k x, (partitionEqualLoop less a f i j d).2 ≤ k → k < b →
          (partitionEqualLoop less a f i j d).1[k]? = some x → less p x = true) := by
  intro f
  induction f with
  | zero =>
    intro i j d _ hai hjb _ hij hf hL hR
    simp only [partitionEqualLoop]
    exact ⟨Within.refl _ _ _, hai, by omega, hL, fun k x h1 h2 hx => hR k x (by omega) h2 hx⟩
  | succ f ih =>
    intro i j d hp hai hjb hbl hij hf hL hR
    rw [partitionEqualLoop]
    obtain ⟨u1, u2, u3, u4⟩ := scanUpEq_spec less d a j p hp (by omega) (j + 1 - i) i (le_refl _)
    generalize scanUpEq less d a j (j + 1 - i) i = i1 at u1 u2 u3 u4 ⊢
    have hi1 := u2 hij
    obtain ⟨v1, v2, v3, v4⟩ := scanDownEq_spec less d a i1 p hp (by omega) (j + 1 - i1) j
      (by omega) (le_refl _)
    generalize scanDownEq less d a i1 (j + 1 - i1) j = j1 at v1 v2 v3 v4 ⊢
    have hj1 := v2 hi1
    by_cases hlt : j1 < i1
    · rw [if_pos hlt]
      refine ⟨Within.refl _ _ _, by omega, by omega, ?_, ?_⟩
      · intro k x hak hk hx
        by_cases hki : k < i
        · exact hL k x hak hki hx
        · exact u3 k x (by omega) (by omega) hx
      · intro k x hk hkb hx
        by_cases hkj : j < k
        · exact hR k x hkj hkb hx
        · exact v3 k x (by omega) (by omega) hx
    · rw [if_neg hlt]
      have hle : i1 ≤ j1 := by omega
      obtain ⟨xi, hxi⟩ := exists_getElem? d (show i1 < d.length by omega)
      obtain ⟨xj, hxj⟩ := exists_getElem? d (show j1 < d.length by omega)
      have hxi_gt := u4 (by omega) xi hxi
      have hxj_le := v4 hle xj hxj
      have hne : i1 ≠ j1 := by
        intro he
        subst he
        rw [hxi] at hxj
        cases hxj
        rw [hxi_gt] at hxj_le
        exact absurd hxj_le (by decide)
      have hsw : ∀ k, (Swap d i1 j1)[k]?
          = if k = j1 then d[i1]? else if k = i1 then d[j1]? else d[k]? :=
        fun k => getElem?_Swap d i1 j1 k (by omega) (by omega)
      have hw : Within (a + 1) b d (Swap d i1 j1) :=
        Within_Swap (a + 1) b d i1 j1 ⟨by omega, by omega⟩ ⟨by omega, by omega⟩
      obtain ⟨r1, r2, r3, r4, r5⟩ := ih (i1 + 1) (j1 - 1) (Swap d i1 j1)
        (by rw [hsw, if_neg (by omega), if_neg (by omega)]; exact hp)
        (by omega) (by omega) (by rw [length_Swap]; exact hbl) (by omega) (by omega)
        (by
          intro k x hak hk hx
          rw [hsw, if_neg (by omega)] at hx
          by_cases hki : k = i1
          · rw [if_pos hki, hxj] at hx
            cases hx
            exact hxj_le
          · rw [if_neg hki] at hx
            by_cases hki2 : k < i
            · exact hL k x hak hki2 hx
            · exact u3 k x (by omega) (by omega) hx)
        (by
          intro k x hk hkb hx
          rw [hsw] at hx
          by_cases hkj : k = j1
          · rw [if_pos hkj, hxi] at hx
            cases hx
            exact hxi_gt
          · rw [if_neg hkj, if_neg (by omega)] at hx
            by_cases hkj2 : j < k
            · exact hR k x hkj2 hkb hx
            · exact v3 k x (by omega) (by omega) hx)
      exact ⟨hw.trans r1, r2, r3, r4, r5⟩

/-- The function `partitionEqual_func`: with the pivot inside the range, it
rearranges the range and returns a position `mid` after `a` such that the
positions from `a` to before `mid` hold elements not greater than the pivot
element and the positions from `mid` on hold elements greater than it. -/
theorem partitionEqual_spec {less : α → α → Bool} (h : StrictWeak less) (d : List α)
    (a b pivot : Nat) (p : α)
    (hap : a ≤ pivot) (hpb : pivot < b) (hbl : b ≤ d.length) (hp : d[pivot]? = some p) :
    Within a b d (partitionEqual_func less d a b pivot).1 ∧
      a < (partitionEqual_func less d a b pivot).2 ∧
      (partitionEqual_func less d a b pivot).2 ≤ b ∧
      (∀ k x, a ≤ k → k < (partitionEqual_func less d a b pivot).2 →
        (partitionEqual_func less d a b pivot).1[k]? = some x → less p x = false) ∧
      (∀ k x, (partitionEqual_func less d a b pivot).2 ≤ k → k < b →
        (partitionEqual_func less d a b pivot).1[k]? = some x → less p x = true) := by
  have hw0 : Within a b d (Swap d a pivot) :=
    Within_Swap a b d a pivot ⟨le_refl _, by omega⟩ ⟨hap, hpb⟩
  have hp0 : (Swap d a pivot)[a]? = some p := by
    rw [getElem?_Swap d a pivot a (by omega) (by omega)]
    by_cases he : a = pivot
    · rw [if_pos he, he]; exact hp
    · rw [if_neg he, if_pos rfl]; exact hp
  have hl0 : b ≤ (Swap d a pivot).length := by rw [length_Swap]; exact hbl
  unfold partitionEqual_func
  obtain ⟨r1, r2, r3, r4, r5⟩ := partitionEqualLoop_spec less a b p (b - a + 1) (a + 1) (b - 1)
    (Swap d a pivot) hp0 (by omega) (by omega) hl0 (by omega) (by omega)
    (fun k x hak hk _ => by omega) (fun k x hk hkb _ => by omega)
  refine ⟨hw0.trans (r1.mono (by omega) (le_refl _)), r2, r3, ?_, r5⟩
  intro k x hak hk hx
  by_cases hka : k = a
  · subst hka
    rw [r1.2 k (Or.inl (by omega)), hp0] at hx
    cases hx
    exact h.1 _
  · exact r4 k x (by omega) hk hx

/-! #### Pattern breaking, reversal and the choice of the pivot -/

/-- Two to the number of bits of `n` is at most twice `n`. -/
theorem two_pow_bitsLen : ∀ (f n : Nat), 0 < n → 2 ^ bitsLen f n ≤ 2 * n := by
  intro f
  induction f with
  | zero => intro n hn; simp only [bitsLen, pow_zero]; omega
  | succ f ih =>
    intro n hn
    rw [bitsLen, if_neg (by omega), pow_add, pow_one]
    by_cases h2 : n / 2 = 0
    · rw [h2]
      have : bitsLen f 0 = 0 := by cases f <;> simp [bitsLen]
      rw [this]
      simp only [pow_zero]
      omega
    · have := ih (n / 2) (by omega)
      omega

/-- The loop of `breakPatterns_func` exchanges positions of the range only. -/
theorem breakLoop_within (a b length modulus idx : Nat) (hmod : 0 < modulus)
    (hmod2 : modulus ≤ 2 * length) (hlen : a + length ≤ b) :
    ∀ (f i random : Nat) (d : List α), a ≤ idx - 1 + i → idx - 1 + i + f ≤ b →
      Within a b d (breakLoop a length modulus idx f i random d) := by
  intro f
  induction f with
  | zero => intro i random d _ _; exact Within.refl _ _ _
  | succ f ih =>
    intro i random d h1 h2
    rw [breakLoop]
    have hlt : xorshiftNext random % modulus < modulus := Nat.mod_lt _ hmod
    have hother : (if length ≤ xorshiftNext random % modulus
        then xorshiftNext random % modulus - length
        else xorshiftNext random % modulus) < length := by
      split <;> omega
    exact (Within_Swap a b d _ _ ⟨h1, by omega⟩ ⟨by omega, by omega⟩).trans
      (ih (i + 1) _ _ (by omega) (by omega))

/-- The function `breakPatterns_func` rearranges the range. -/
theorem breakPatterns_within (d : List α) (a b : Nat) :
    Within a b d (breakPatterns_func d a b) := by
  unfold breakPatterns_func
  simp only
  split
  · rename_i h8
    exact breakLoop_within a b (b - a) _ _ (Nat.pos_pow_of_pos _ (by decide))
      (two_pow_bitsLen _ _ (by omega)) (by omega) 3 0 (b - a) d
      (by omega) (by omega)
  · exact Within.refl _ _ _

/-- The loop of `reverseRange_func` exchanges positions of the range only. -/
theorem reverseLoop_within (a b : Nat) :
    ∀ (f i j : Nat) (d : List α), a ≤ i → j < b → Within a b d (reverseLoop f i j d) := by
  intro f
  induction f with
  | zero => intro i j d _ _; exact Within.refl _ _ _
  | succ f ih =>
    intro i j d hi hj
    rw [reverseLoop]
    split
    · exact (Within_Swap a b d i j ⟨hi, by omega⟩ ⟨by omega, hj⟩).trans
        (ih (i + 1) (j - 1) _ (by omega) (by omega))
    · exact Within.refl _ _ _

/-- The function `reverseRange_func` rearranges the range. -/
theorem reverseRange_within (d : List α) (a b : Nat) (hab : a < b) :
    Within a b d (reverseRange_func d a b) :=
  reverseLoop_within a b (b - a) a (b - 1) d (le_refl _) (by omega)

/-- The function `order2_func` returns its two positions in one of the two orders. -/
theorem order2_cases (less : α → α → Bool) (d : List α) (a b s : Nat) :
    ((order2_func less d a b s).1 = a ∧ (order2_func less d a b s).2.1 = b) ∨
      ((order2_func less d a b s).1 = b ∧ (order2_func less d a b s).2.1 = a) := by
  unfold order2_func
  split
  · right; exact ⟨rfl, rfl⟩
  · left; exact ⟨rfl, rfl⟩

/-- The function `median_func` returns one of its three positions. -/
theorem median_cases (less : α → α → Bool) (d : List α) (a b c s : Nat) :
    (median_func less d a b c s).1 = a ∨ (median_func less d a b c s).1 = b ∨
      (median_func less d a b c s).1 = c := by
  unfold median_func
  have c1 := order2_cases less d a b s
  generalize order2_func less d a b s = r1 at c1 ⊢
  obtain ⟨a1, b1, s1⟩ := r1
  simp only at c1 ⊢
  have c2 := order2_cases less d b1 c s1
  generalize order2_func less d b1 c s1 = r2 at c2 ⊢
  obtain ⟨b2, c2v, s2⟩ := r2
  simp only at c2 ⊢
  have c3 := order2_cases less d a1 b2 s2
  generalize order2_func less d a1 b2 s2 = r3 at c3 ⊢
  obtain ⟨a3, b3, s3⟩ := r3
  simp only at c3 ⊢
  omega

/-- The function `medianAdjacent_func` returns the position or one of its neighbours. -/
theorem medianAdjacent_cases (less : α → α → Bool) (d : List α) (a s : Nat) :
    (medianAdjacent_func less d a s).1 = a - 1 ∨ (medianAdjacent_func less d a s).1 = a ∨
      (medianAdjacent_func less d a s).1 = a + 1 :=
  median_cases less d (a - 1) a (a + 1) s

/-- The first component of the hint selection is the chosen position. -/
theorem pair_hint_fst (r : Nat × Nat) :
    (match r with
      | (j, swaps) =>
        if swaps = 0 then (j, sortedHint.increasingHint)
        else if swaps = 4 * 3 then (j, sortedHint.decreasingHint)
        else (j, sortedHint.unknownHint)).1 = r.1 := by
  obtain ⟨j, s⟩ := r
  show (if s = 0 then (j, sortedHint.increasingHint)
        else if s = 4 * 3 then (j, sortedHint.decreasingHint)
        else (j, sortedHint.unknownHint)).1 = j
  split
  · rfl
  · split <;> rfl

/-- The position chosen by `choosePivot_func`, without the hint. -/
theorem choosePivot_fst (less : α → α → Bool) (d : List α) (a b : Nat) :
    (choosePivot_func less d a b).1 =
      (if 8 ≤ b - a then
            match
              if 50 ≤ b - a then
                match medianAdjacent_func less d (a + (b - a) / 4 * 1) 0 with
                | (i, swaps) =>
                  match medianAdjacent_func less d (a + (b - a) / 4 * 2) swaps with
                  | (j, swaps) =>
                    match medianAdjacent_func less d (a + (b - a) / 4 * 3) swaps with
                    | (k, swaps) => (i, j, k, swaps)
              else (a + (b - a) / 4 * 1, a + (b - a) / 4 * 2, a + (b - a) / 4 * 3, 0) with
            | (i, j, k, swaps) => median_func less d i j k swaps
          else (a + (b - a) / 4 * 2, 0)).1 := by
  rw [choosePivot_func]
  exact pair_hint_fst _

/-- The function `choosePivot_func` returns a position of the range. -/
theorem choosePivot_bounds (less : α → α → Bool) (d : List α) (a b : Nat) (h8 : 8 ≤ b - a) :
    a ≤ (choosePivot_func less d a b).1 ∧ (choosePivot_func less d a b).1 < b := by
  rw [choosePivot_fst, if_pos h8]
  by_cases h50 : 50 ≤ b - a
  · rw [if_pos h50]
    have m1 := medianAdjacent_cases less d (a + (b - a) / 4 * 1) 0
    generalize medianAdjacent_func less d (a + (b - a) / 4 * 1) 0 = r1 at m1 ⊢
    obtain ⟨i1, s1⟩ := r1
    simp only at m1 ⊢
    have m2 := medianAdjacent_cases less d (a + (b - a) / 4 * 2) s1
    generalize medianAdjacent_func less d (a + (b - a) / 4 * 2) s1 = r2 at m2 ⊢
    obtain ⟨j1, s2⟩ := r2
    simp only at m2 ⊢
    have m3 := medianAdjacent_cases less d (a + (b - a) / 4 * 3) s2
    generalize medianAdjacent_func less d (a + (b - a) / 4 * 3) s2 = r3 at m3 ⊢
    obtain ⟨k1, s3⟩ := r3
    simp only at m3 ⊢
    have m4 := median_cases less d i1 j1 k1 s3
    generalize median_func less d i1 j1 k1 s3 = r4 at m4 ⊢
    constructor <;> omega
  · rw [if_neg h50]
    simp only
    have m4 := median_cases less d (a + (b - a) / 4 * 1) (a + (b - a) / 4 * 2)
      (a + (b - a) / 4 * 3) 0
    generalize median_func less d (a + (b - a) / 4 * 1) (a + (b - a) / 4 * 2)
      (a + (b - a) / 4 * 3) 0 = r4 at m4 ⊢
    constructor <;> omega

/-! #### The partial insertion sort -/

/-- Order on a range depends only on what the range holds. -/
theorem SortedOn.frame {less : α → α → Bool} {d d1 : List α} {a b : Nat}
    (h : SortedOn less d a b) (hf : ∀ k, a ≤ k → k < b → d1[k]? = d[k]?) :
    SortedOn less d1 a b := by
  intro i j x y hai hij hjb hx hy
  rw [hf i hai (by omega)] at hx
  rw [hf j (by omega) hjb] at hy
  exact h i j x y hai hij hjb hx hy

/-- A range in order stays in order when one more element, not less than the
last one, follows it. -/
theorem SortedOn.snoc {less : α → α → Bool} (h : StrictWeak less) {d : List α} {a i : Nat}
    {x y : α} (hs : SortedOn less d a i) (hx : d[i - 1]? = some x)
    (hy : d[i]? = some y) (hxy : less y x = false) : SortedOn less d a (i + 1) := by
  intro u v p q hau huv hvi hp hq
  by_cases hv : v = i
  · subst hv
    rw [hy] at hq
    cases hq
    by_cases hu : u = v - 1
    · subst hu
      rw [hx] at hp
      cases hp
      exact hxy
    · have h1 := hs u (v - 1) p x hau (by omega) (by omega) hp hx
      exact sw_le_trans h h1 hxy
  · exact hs u v p q hau huv (by omega) hp hq

/-- The scan over the part already in order stops inside the range, at the end of
a part in order, and before the end only at an element less than the one before. -/
theorem skipSorted_spec {less : α → α → Bool} (h : StrictWeak less) (d : List α)
    (a b : Nat) (hbl : b ≤ d.length) :
    ∀ (f i : Nat), a < i → i ≤ b → b - i ≤ f → SortedOn less d a i →
      i ≤ skipSorted less d b f i ∧ skipSorted less d b f i ≤ b ∧
      SortedOn less d a (skipSorted less d b f i) ∧
      (skipSorted less d b f i < b →
        Less less d (skipSorted less d b f i) (skipSorted less d b f i - 1) = true) := by
  intro f
  induction f with
  | zero =>
    intro i _ hib hf hs
    have : i = b := by omega
    subst this
    exact ⟨le_refl _, le_refl _, hs, fun hlt => absurd hlt (lt_irrefl _)⟩
  | succ f ih =>
    intro i hai hib hf hs
    rw [skipSorted]
    by_cases hc : (decide (i < b) && !Less less d i (i - 1)) = true
    · rw [if_pos hc]
      simp only [Bool.and_eq_true, decide_eq_true_eq, Bool.not_eq_true'] at hc
      obtain ⟨hlt, hl⟩ := hc
      obtain ⟨x, hx⟩ := exists_getElem? d (show i - 1 < d.length by omega)
      obtain ⟨y, hy⟩ := exists_getElem? d (show i < d.length by omega)
      rw [Less_eq less d hy hx] at hl
      obtain ⟨h1, h2, h3, h4⟩ := ih (i + 1) (by omega) (by omega) (by omega)
        (SortedOn.snoc h hs hx hy hl)
      exact ⟨by omega, h2, h3, h4⟩
    · rw [if_neg hc]
      refine ⟨le_refl _, hib, hs, fun hlt => ?_⟩
      cases hl : Less less d i (i - 1) with
      | true => rfl
      | false =>
        exfalso
        apply hc
        simp [hlt, hl]

/-- Below a lower bound the shift to the left never passes the start of the
range: it is the inner loop of the insertion sort. -/
theorem shiftLeftLoop_eq {less : α → α → Bool} (a b : Nat) :
    ∀ (j : Nat) (d : List α), a ≤ j → j < b → b ≤ d.length → LowerBound less d a b →
      shiftLeftLoop less j d = insertionInner less a j d := by
  intro j
  induction j with
  | zero => intro d _ _ _ _; rfl
  | succ j ih =>
    intro d haj hjb hbl hlb
    rw [shiftLeftLoop, insertionInner]
    by_cases ha : a < j + 1
    · cases hl : Less less d (j + 1) j with
      | true =>
        simp only [ha, decide_True, Bool.and_self, Bool.not_true, if_true, Bool.false_eq_true,
          if_false]
        have hw : Within a b d (Swap d (j + 1) j) :=
          Within_Swap a b d (j + 1) j ⟨by omega, hjb⟩ ⟨by omega, by omega⟩
        exact ih (Swap d (j + 1) j) (by omega) (by omega) (by rw [length_Swap]; exact hbl)
          (hlb.within hw (by omega))
      | false =>
        simp
    · have hl : Less less d (j + 1) j = false := by
        obtain ⟨x, hx⟩ := exists_getElem? d (show j + 1 < d.length by omega)
        obtain ⟨p, hp⟩ := exists_getElem? d (show j < d.length by omega)
        rw [Less_eq less d hx hp]
        have haeq : a = j + 1 := by omega
        exact hlb p (j + 1) x (by omega) (by rw [haeq]; exact hp) (by omega) hjb hx
      simp [hl, ha]

/-- The shift to the right rearranges only positions from `i` on. -/
theorem shiftRightLoop_within (less : α → α → Bool) (i b : Nat) :
    ∀ (f j : Nat) (d : List α), i < j → Within i b d (shiftRightLoop less b f j d) := by
  intro f
  induction f with
  | zero => intro j d _; exact Within.refl _ _ _
  | succ f ih =>
    intro j d hij
    rw [shiftRightLoop]
    split
    · split
      · exact Within.refl _ _ _
      · exact (Within_Swap i b d j (j - 1) ⟨by omega, by assumption⟩
          ⟨by omega, by omega⟩).trans (ih (j + 1) _ (by omega))
    · exact Within.refl _ _ _

/-- The partial insertion sort rearranges the range, and when it reports success
the range is in order. -/
theorem partialInsertionLoop_spec {less : α → α → Bool} (h : StrictWeak less) (a b : Nat) :
    ∀ (steps i : Nat) (d : List α), a < i → i ≤ b → b ≤ d.length →
      LowerBound less d a b → SortedOn less d a i →
      Within a b d (partialInsertionLoop less a b steps i d).1 ∧
        ((partialInsertionLoop less a b steps i d).2 = true →
          SortedOn less (partialInsertionLoop less a b steps i d).1 a b) := by
  intro steps
  induction steps with
  | zero =>
    intro i d _ _ _ _ _
    exact ⟨Within.refl _ _ _, fun h => by simp [partialInsertionLoop] at h⟩
  | succ steps ih =>
    intro i d hai hib hbl hlb hs
    rw [partialInsertionLoop]
    obtain ⟨h1, h2, h3, h4⟩ := skipSorted_spec h d a b hbl (b - i) i hai hib (le_refl _) hs
    simp only
    generalize skipSorted less d b (b - i) i = i1 at h1 h2 h3 h4 ⊢
    by_cases he : i1 = b
    · rw [if_pos he]
      subst he
      exact ⟨Within.refl _ _ _, fun _ => h3⟩
    · rw [if_neg he]
      by_cases h50 : b - a < 50
      · rw [if_pos h50]
        exact ⟨Within.refl _ _ _, fun h => by simp at h⟩
      · rw [if_neg h50]
        have hi1b : i1 < b := by omega
        have hw1 : Within a b d (Swap d i1 (i1 - 1)) :=
          Within_Swap a b d i1 (i1 - 1) ⟨by omega, hi1b⟩ ⟨by omega, by omega⟩
        have hlb1 := hlb.within hw1 (by omega)
        have hfr : ∀ k, k < i1 - 1 → (Swap d i1 (i1 - 1))[k]? = d[k]? := by
          intro k hk
          rw [getElem?_Swap d i1 (i1 - 1) k (by omega) (by omega), if_neg (by omega),
            if_neg (by omega)]
        generalize Swap d i1 (i1 - 1) = d1 at hw1 hlb1 hfr ⊢
        have hl1 : d1.length = d.length := hw1.length_eq
        have h2 : Within a i1
            d1 (if 2 ≤ i1 - a then shiftLeftLoop less (i1 - 1) d1 else d1) ∧
            SortedOn less (if 2 ≤ i1 - a then shiftLeftLoop less (i1 - 1) d1 else d1) a i1 := by
          by_cases h2a : 2 ≤ i1 - a
          · rw [if_pos h2a, shiftLeftLoop_eq a b (i1 - 1) d1 (by omega) (by omega)
              (by omega) hlb1]
            have key := insertionInner_spec h a (i1 - 1) (i1 - 1) d1 (by omega) (le_refl _)
              (by omega)
              (fun u v x y hau huv hvi hu hv hx hy => by
                rw [hfr u (by omega)] at hx
                rw [hfr v (by omega)] at hy
                exact h3 u v x y hau huv (by omega) hx hy)
              (fun v x y hv1 hv2 _ _ => by omega)
            have e : i1 - 1 + 1 = i1 := by omega
            rw [e] at key
            exact ⟨key.2, key.1⟩
          · rw [if_neg h2a]
            exact ⟨Within.refl _ _ _, fun u v x y hau huv hvi _ _ => by omega⟩
        generalize (if 2 ≤ i1 - a then shiftLeftLoop less (i1 - 1) d1 else d1) = d2 at h2 ⊢
        have hw3 : Within i1 b d2
            (if 2 ≤ b - i1 then shiftRightLoop less b (b - i1) (i1 + 1) d2 else d2) := by
          split
          · exact shiftRightLoop_within less i1 b (b - i1) (i1 + 1) d2 (by omega)
          · exact Within.refl _ _ _
        generalize (if 2 ≤ b - i1 then shiftRightLoop less b (b - i1) (i1 + 1) d2 else d2) = d3
          at hw3 ⊢
        have hw : Within a b d d3 :=
          hw1.trans ((h2.1.mono (le_refl _) (by omega)).trans (hw3.mono (by omega) (le_refl _)))
        have hs3 : SortedOn less d3 a i1 :=
          h2.2.frame (fun k _ hk => hw3.2 k (Or.inl hk))
        obtain ⟨r1, r2⟩ := ih i1 d3 (by omega) (by omega) (by rw [hw.length_eq]; exact hbl)
          (hlb.within hw (by omega)) hs3
        exact ⟨hw.trans r1, r2⟩

/-- The function `partialInsertionSort_func` rearranges the range, and when it
reports success the range is in order. -/
theorem partialInsertionSort_spec {less : α → α → Bool} (h : StrictWeak less) (d : List α)
    (a b : Nat) (hab : a < b) (hbl : b ≤ d.length) (hlb : LowerBound less d a b) :
    Within a b d (partialInsertionSort_func less d a b).1 ∧
      ((partialInsertionSort_func less d a b).2 = true →
        SortedOn less (partialInsertionSort_func less d a b).1 a b) :=
  partialInsertionLoop_spec h a b 5 (a + 1) d (by omega) (by omega) hbl hlb
    (fun u v x y hau huv hvi _ _ => by omega)

/-! #### The heap sort -/

/-- The child that `siftDown_func` compares with the root is a child of the
root inside the heap, and no child of the root inside the heap is greater. -/
theorem siftDown_child {less : α → α → Bool} (h : StrictWeak less) (d : List α)
    (hi first root : Nat) (hc : 2 * root + 1 < hi) (cs : Nat)
    (hcs : cs = if (decide (2 * root + 1 + 1 < hi) &&
        Less less d (first + (2 * root + 1)) (first + (2 * root + 1) + 1)) = true
      then 2 * root + 1 + 1 else 2 * root + 1) :
    (cs = 2 * root + 1 ∨ cs = 2 * root + 2) ∧ cs < hi ∧
      ∀ c x y, (c = 2 * root + 1 ∨ c = 2 * root + 2) → c < hi →
        d[first + cs]? = some x → d[first + c]? = some y → less x y = false := by
  by_cases hcond : (decide (2 * root + 1 + 1 < hi) &&
      Less less d (first + (2 * root + 1)) (first + (2 * root + 1) + 1)) = true
  · rw [if_pos hcond] at hcs
    simp only [Bool.and_eq_true, decide_eq_true_eq] at hcond
    obtain ⟨hlt, hl⟩ := hcond
    subst hcs
    refine ⟨Or.inr rfl, hlt, ?_⟩
    intro c x y hcc hchi hx hy
    rcases hcc with hcc | hcc
    · subst hcc
      have hx2 : d[first + (2 * root + 1) + 1]? = some x := hx
      rw [Less_eq less d hy hx2] at hl
      exact sw_asymm h hl
    · subst hcc
      have hx2 : d[first + (2 * root + 2)]? = some x := hx
      rw [hy] at hx2
      cases hx2
      exact h.1 _
  · rw [if_neg hcond] at hcs
    subst hcs
    refine ⟨Or.inl rfl, hc, ?_⟩
    intro c x y hcc hchi hx hy
    rcases hcc with hcc | hcc
    · subst hcc
      rw [hy] at hx
      cases hx
      exact h.1 _
    · subst hcc
      have hy2 : d[first + (2 * root + 1) + 1]? = some y := hy
      have hl : Less less d (first + (2 * root + 1)) (first + (2 * root + 1) + 1) = false := by
        cases hl : Less less d (first + (2 * root + 1)) (first + (2 * root + 1) + 1) with
        | false => rfl
        | true =>
          exfalso
          apply hcond
          simp only [Bool.and_eq_true, decide_eq_true_eq]
          exact ⟨hchi, hl⟩
      rw [Less_eq less d hx hy2] at hl
      exact hl

/-- Sifting the root down restores heap order: when every node from `lo` on
except `root` is in heap order, and the parent of `root` is not less than the
children of `root`, then after `siftDown_func` every node from `lo` on is in
heap order. -/
theorem siftDown_spec {less : α → α → Bool} (h : StrictWeak less) (hi first lo : Nat) :
    ∀ (f root : Nat) (d : List α), lo ≤ root → hi ≤ root + f → first + hi ≤ d.length →
      HeapOn less d first lo hi (some root) →
      (∀ r c x y, lo ≤ r → (root = 2 * r + 1 ∨ root = 2 * r + 2) →
        (c = 2 * root + 1 ∨ c = 2 * root + 2) → c < hi →
        d[first + r]? = some x → d[first + c]? = some y → less x y = false) →
      HeapOn less (siftDown_func less hi first f root d) first lo hi none ∧
        Within first (first + hi) d (siftDown_func less hi first f root d) := by
  intro f
  induction f with
  | zero =>
    intro root d _ hf _ hh _
    refine ⟨?_, Within.refl _ _ _⟩
    intro r c x y hlo _ hc hchi hx hy
    by_cases hr : r = root
    · omega
    · exact hh r c x y hlo (by simpa using hr) hc hchi hx hy
  | succ f ih =>
    intro root d hlo hf hbl hh hg
    rw [siftDown_func]
    simp only
    by_cases hc : hi ≤ 2 * root + 1
    · rw [if_pos hc]
      refine ⟨?_, Within.refl _ _ _⟩
      intro r c x y hlo _ hc hchi hx hy
      by_cases hr : r = root
      · omega
      · exact hh r c x y hlo (by simpa using hr) hc hchi hx hy
    · rw [if_neg hc]
      obtain ⟨hcs1, hcs2, hcs3⟩ := siftDown_child h d hi first root (by omega) _ rfl
      generalize (if (decide (2 * root + 1 + 1 < hi) &&
          Less less d (first + (2 * root + 1)) (first + (2 * root + 1) + 1)) = true
        then 2 * root + 1 + 1 else 2 * root + 1) = cs at hcs1 hcs2 hcs3 ⊢
      obtain ⟨xr, hxr⟩ := exists_getElem? d (show first + root < d.length by omega)
      obtain ⟨xc, hxc⟩ := exists_getElem? d (show first + cs < d.length by omega)
      cases hl : Less less d (first + root) (first + cs) with
      | false =>
        simp only [Bool.not_false, if_true]
        refine ⟨?_, Within.refl _ _ _⟩
        rw [Less_eq less d hxr hxc] at hl
        intro r c x y hlo _ hcc hchi hx hy
        by_cases hr : r = root
        · rw [hr, hxr] at hx
          rw [hr] at hcc
          rw [← Option.some.inj hx]
          exact sw_le_trans h (hcs3 c xc y hcc hchi hxc hy) hl
        · exact hh r c x y hlo (by simpa using hr) hcc hchi hx hy
      | true =>
        simp only [Bool.not_true, Bool.false_eq_true, if_false]
        rw [Less_eq less d hxr hxc] at hl
        have hsw : ∀ k, (Swap d (first + root) (first + cs))[k]? =
            if k = first + cs then d[first + root]? else
              if k = first + root then d[first + cs]? else d[k]? :=
          fun k => getElem?_Swap d (first + root) (first + cs) k (by omega) (by omega)
        have hw1 : Within first (first + hi) d (Swap d (first + root) (first + cs)) :=
          Within_Swap first (first + hi) d (first + root) (first + cs)
            ⟨by omega, by omega⟩ ⟨by omega, by omega⟩
        obtain ⟨r1, r2⟩ := ih cs (Swap d (first + root) (first + cs)) (by omega) (by omega)
          (by rw [length_Swap]; exact hbl)
          (by
            intro r c x y hlor hne hcc hchi hx hy
            have hne2 : r ≠ cs := fun e => hne (by rw [e])
            rw [hsw, if_neg (by omega)] at hx
            rw [hsw] at hy
            by_cases hr : r = root
            · rw [if_pos (by rw [hr]), hxc] at hx
              rw [hr] at hcc
              rw [← Option.some.inj hx]
              by_cases hce : c = cs
              · rw [if_pos (by rw [hce]), hxr] at hy
                rw [← Option.some.inj hy]
                exact sw_asymm h hl
              · rw [if_neg (by omega), if_neg (by omega)] at hy
                exact hcs3 c xc y hcc hchi hxc hy
            · rw [if_neg (by omega)] at hx
              by_cases hcr : c = root
              · rw [if_neg (by omega), if_pos (by rw [hcr]), hxc] at hy
                rw [hcr] at hcc
                rw [← Option.some.inj hy]
                exact hg r cs x xc hlor hcc hcs1 hcs2 hx hxc
              · rw [if_neg (by omega), if_neg (by omega)] at hy
                exact hh r c x y hlor (by simpa using hr) hcc hchi hx hy)
          (by
            intro r c x y hlor hrc hcc hchi hx hy
            have hr : r = root := by omega
            rw [hsw, if_neg (by omega), if_pos (by rw [hr]), hxc] at hx
            rw [← Option.some.inj hx]
            rw [hsw, if_neg (by omega), if_neg (by omega)] at hy
            exact hh cs c xc y (by omega) (by simp; omega) hcc hchi hxc hy)
        exact ⟨r1, hw1.trans r2⟩

/-- The build phase of the heap sort leaves the range in heap order. -/
theorem heapBuild_spec {less : α → α → Bool} (h : StrictWeak less) (hi first : Nat) :
    ∀ (i : Nat) (d : List α), first + hi ≤ d.length →
      HeapOn less d first (i + 1) hi none →
      HeapOn less (heapBuild less hi first i d) first 0 hi none ∧
        Within first (first + hi) d (heapBuild less hi first i d) := by
  intro i
  induction i with
  | zero =>
    intro d hbl hh
    rw [heapBuild]
    exact siftDown_spec h hi first 0 hi 0 d (le_refl _) (by omega) hbl
      (fun r c x y _ hne hc hchi hx hy =>
        hh r c x y (by
          have : r ≠ 0 := fun e => hne (by rw [e])
          omega) (by simp) hc hchi hx hy)
      (fun r c x y _ hr _ _ _ _ => by omega)
  | succ i ih =>
    intro d hbl hh
    rw [heapBuild]
    obtain ⟨r1, r2⟩ := siftDown_spec h hi first (i + 1) hi (i + 1) d (le_refl _) (by omega) hbl
      (fun r c x y hlo hne hc hchi hx hy =>
        hh r c x y (by
          have : r ≠ i + 1 := fun e => hne (by rw [e])
          omega) (by simp) hc hchi hx hy)
      (fun r c x y hlo hr _ _ _ _ => by omega)
    obtain ⟨r3, r4⟩ := ih _ (by rw [r2.length_eq]; exact hbl) r1
    exact ⟨r3, r2.trans r4⟩

/-- In heap order no element of the heap is greater than the root. -/
theorem heap_root_max {less : α → α → Bool} (h : StrictWeak less) (d : List α)
    (first n : Nat) (hbl : first + n ≤ d.length) (hh : HeapOn less d first 0 n none) :
    ∀ k x y, k < n → d[first]? = some x → d[first + k]? = some y → less x y = false := by
  intro k
  induction k using Nat.strong_induction_on with
  | _ k ih =>
    intro x y hk hx hy
    by_cases h0 : k = 0
    · subst h0
      have hy2 : d[first]? = some y := hy
      rw [hx] at hy2
      cases hy2
      exact h.1 _
    · obtain ⟨z, hz⟩ := exists_getElem? d (show first + (k - 1) / 2 < d.length by omega)
      have h1 := ih ((k - 1) / 2) (by omega) x z (by omega) hx hz
      have h2 := hh ((k - 1) / 2) k z y (Nat.zero_le _) (by simp) (by omega) hk hz hy
      exact sw_le_trans h h2 h1

/-- The pop phase of the heap sort: from a heap on the first `n` positions of
the range, followed by a part in order whose elements are not less than those
of the heap, it leaves the range in order. -/
theorem heapPop_spec {less : α → α → Bool} (h : StrictWeak less) (first N : Nat) :
    ∀ (n : Nat) (d : List α), n ≤ N → first + N ≤ d.length →
      HeapOn less d first 0 n none → SortedOn less d (first + n) (first + N) →
      (∀ k j x y, k < n → n ≤ j → j < N → d[first + k]? = some x → d[first + j]? = some y →
        less y x = false) →
      SortedOn less (heapPop less first n d) first (first + N) ∧
        Within first (first + N) d (heapPop less first n d) := by
  intro n
  induction n with
  | zero =>
    intro d _ _ _ hs _
    exact ⟨hs, Within.refl _ _ _⟩
  | succ i ih =>
    intro d hn hbl hh hs hx
    rw [heapPop]
    have hsw : ∀ k, (Swap d first (first + i))[k]? =
        if k = first + i then d[first]? else if k = first then d[first + i]? else d[k]? :=
      fun k => getElem?_Swap d first (first + i) k (by omega) (by omega)
    have hw1 : Within first (first + N) d (Swap d first (first + i)) :=
      Within_Swap first (first + N) d first (first + i) ⟨le_refl _, by omega⟩
        ⟨by omega, by omega⟩
    obtain ⟨r1, r2⟩ := siftDown_spec h i first 0 i 0 (Swap d first (first + i)) (le_refl _)
      (by omega) (by rw [length_Swap]; omega)
      (by
        intro r c x y _ hne hc hchi hxr hyc
        have hr0 : r ≠ 0 := fun e => hne (by rw [e])
        rw [hsw, if_neg (by omega), if_neg (by omega)] at hxr
        rw [hsw, if_neg (by omega), if_neg (by omega)] at hyc
        exact hh r c x y (Nat.zero_le _) (by simp) hc (by omega) hxr hyc)
      (fun r c x y _ hr _ _ _ _ => by omega)
    generalize siftDown_func less i first i 0 (Swap d first (first + i)) = d2 at r1 r2 ⊢
    obtain ⟨x0, hx0⟩ := exists_getElem? d (show first < d.length by omega)
    have hd2 : ∀ k, first + i ≤ k → d2[k]? =
        if k = first + i then d[first]? else d[k]? := by
      intro k hk
      rw [r2.2 k (Or.inr hk), hsw]
      by_cases e : k = first + i
      · rw [if_pos e, if_pos e]
      · rw [if_neg e, if_neg (by omega), if_neg e]
    obtain ⟨r3, r4⟩ := ih d2 (by omega) (by rw [r2.length_eq, length_Swap]; exact hbl) r1
      (by
        intro u v x y hu huv hv hxu hyv
        rw [hd2 v (by omega), if_neg (by omega)] at hyv
        rw [hd2 u hu] at hxu
        by_cases e : u = first + i
        · rw [if_pos e, hx0] at hxu
          rw [← Option.some.inj hxu]
          have hyv2 : d[first + (v - first)]? = some y := by
            rw [show first + (v - first) = v by omega]; exact hyv
          exact hx 0 (v - first) x0 y (by omega) (by omega) (by omega) hx0 hyv2
        · rw [if_neg e] at hxu
          exact hs u v x y (by omega) huv hv hxu hyv)
      (by
        intro k j x y hk hj hjN hxk hyj
        obtain ⟨k2, hk2, hxk2⟩ := r2.range (by omega) (show first ≤ first + k ∧
          first + k < first + i from ⟨by omega, by omega⟩) hxk
        rw [hsw, if_neg (by omega)] at hxk2
        have hx3 : ∃ k3, k3 < i + 1 ∧ d[first + k3]? = some x := by
          by_cases e : k2 = first
          · rw [if_pos e] at hxk2
            exact ⟨i, by omega, hxk2⟩
          · rw [if_neg e] at hxk2
            refine ⟨k2 - first, by omega, ?_⟩
            rw [show first + (k2 - first) = k2 by omega]
            exact hxk2
        obtain ⟨k3, hk3, hxk3⟩ := hx3
        rw [hd2 (first + j) (by omega)] at hyj
        by_cases e : j = i
        · rw [if_pos (by omega), hx0] at hyj
          rw [← Option.some.inj hyj]
          exact heap_root_max h d first (i + 1) (by omega) hh k3 x0 x hk3 hx0 hxk3
        · rw [if_neg (by omega)] at hyj
          exact hx k3 j x y hk3 (by omega) hjN hxk3 hyj)
    exact ⟨r3, hw1.trans ((r2.mono (le_refl _) (by omega)).trans r4)⟩

/-- The function `heapSort_func` sorts the positions `a .. b - 1`. -/
theorem heapSort_spec {less : α → α → Bool} (h : StrictWeak less) (d : List α)
    (a b : Nat) (hab : a ≤ b) (hbl : b ≤ d.length) :
    SortedOn less (heapSort_func less d a b) a b ∧
      Within a b d (heapSort_func less d a b) := by
  unfold heapSort_func
  simp only
  have e : a + (b - a) = b := by omega
  obtain ⟨r1, r2⟩ := heapBuild_spec h (b - a) a ((b - a - 1) / 2) d (by omega)
    (fun r c x y hlo _ hc hchi _ _ => by omega)
  obtain ⟨r3, r4⟩ := heapPop_spec h a (b - a) (b - a) _ (le_refl _)
    (by rw [r2.length_eq]; omega) r1
    (fun u v x y hu huv hv _ _ => by omega)
    (fun k j x y hk hj hjN _ _ => by omega)
  rw [e] at r2 r3 r4
  exact ⟨r3, r2.trans r4⟩

/-! #### The pattern-defeating quicksort -/

/-- A rearrangement before the pivot keeps the pivot in place. -/
theorem PivotAt.left {less : α → α → Bool} {d d1 : List α} {a b mid : Nat} {p : α}
    (hp : PivotAt less d a b mid p) (hw : Within a mid d d1) (ham : a ≤ mid) :
    PivotAt less d1 a b mid p := by
  refine ⟨?_, ?_, ?_⟩
  · rw [hw.2 mid (Or.inr (le_refl _))]
    exact hp.1
  · intro k x hak hkm hx
    obtain ⟨k2, hk2, hx2⟩ := hw.range ham ⟨hak, hkm⟩ hx
    exact hp.2.1 k2 x hk2.1 hk2.2 hx2
  · intro k x hmk hkb hx
    rw [hw.2 k (Or.inr (by omega))] at hx
    exact hp.2.2 k x hmk hkb hx

/-- A rearrangement after the pivot keeps the pivot in place. -/
theorem PivotAt.right {less : α → α → Bool} {d d1 : List α} {a b mid : Nat} {p : α}
    (hp : PivotAt less d a b mid p) (hw : Within (mid + 1) b d d1) (hmb : mid < b) :
    PivotAt less d1 a b mid p := by
  refine ⟨?_, ?_, ?_⟩
  · rw [hw.2 mid (Or.inl (by omega))]
    exact hp.1
  · intro k x hak hkm hx
    rw [hw.2 k (Or.inl (by omega))] at hx
    exact hp.2.1 k x hak hkm hx
  · intro k x hmk hkb hx
    obtain ⟨k2, hk2, hx2⟩ := hw.range (by omega) ⟨by omega, hkb⟩ hx
    exact hp.2.2 k2 x (by omega) hk2.2 hx2

/-- The pivot is a lower bound of the part of the range after it. -/
theorem PivotAt.lowerBound {less : α → α → Bool} {d : List α} {a b mid : Nat} {p : α}
    (hp : PivotAt less d a b mid p) : LowerBound less d (mid + 1) b := by
  intro q k x _ hq hk hkb hx
  have hq2 : d[mid]? = some q := hq
  rw [hp.1] at hq2
  rw [← Option.some.inj hq2]
  exact hp.2.2 k x (by omega) hkb hx

/-- Around a pivot in place, a range whose two parts are in order is in order. -/
theorem PivotAt.sorted {less : α → α → Bool} (h : StrictWeak less) {d : List α}
    {a b mid : Nat} {p : α} (hp : PivotAt less d a b mid p)
    (h1 : SortedOn less d a mid) (h2 : SortedOn less d (mid + 1) b) :
    SortedOn less d a b := by
  intro i j x y hai hij hjb hx hy
  by_cases hjm : j < mid
  · exact h1 i j x y hai hij hjm hx hy
  · by_cases him : mid < i
    · exact h2 i j x y (by omega) hij hjb hx hy
    · have hxp : less p x = false := by
        by_cases e : i = mid
        · rw [e, hp.1] at hx
          rw [← Option.some.inj hx]
          exact h.1 _
        · exact hp.2.1 i x hai (by omega) hx
      have hpy : less y p = false := by
        by_cases e : j = mid
        · rw [e, hp.1] at hy
          rw [← Option.some.inj hy]
          exact h.1 _
        · exact hp.2.2 j y (by omega) hjb hy
      exact sw_le_trans h hxp hpy

/-- Two parts in order, with no element of the second less than one of the
first, make a range in order. -/
theorem SortedOn.append {less : α → α → Bool} {d : List α} {a b mid : Nat}
    (h1 : SortedOn less d a mid) (h2 : SortedOn less d mid b)
    (hc : ∀ i j x y, a ≤ i → i < mid → mid ≤ j → j < b → d[i]? = some x → d[j]? = some y →
      less y x = false) : SortedOn less d a b := by
  intro i j x y hai hij hjb hx hy
  by_cases hjm : j < mid
  · exact h1 i j x y hai hij hjm hx hy
  · by_cases him : i < mid
    · exact hc i j x y hai him (by omega) hjb hx hy
    · exact h2 i j x y (by omega) hij hjb hx hy

/-- The function `pdqsort_func` sorts the positions `a .. b - 1` and leaves the
other positions as they were, whatever the limit and the two flags are. -/
theorem pdqsort_spec {less : α → α → Bool} (h : StrictWeak less) :
    ∀ (f : Nat) (d : List α) (a b limit : Nat) (wb wp : Bool), a ≤ b → b ≤ d.length →
      b - a < f → LowerBound less d a b →
      SortedOn less (pdqsort_func less f d a b limit wb wp) a b ∧
        Within a b d (pdqsort_func less f d a b limit wb wp) := by
  intro f
  induction f with
  | zero => intro d a b limit wb wp _ _ hf _; omega
  | succ f ih =>
    intro d a b limit wb wp hab hbl hf hlb
    rw [pdqsort_func]
    simp only
    by_cases hlen : b - a ≤ 12
    · rw [if_pos hlen]
      exact insertionSort_spec h d a b hbl
    rw [if_neg hlen]
    by_cases hlim : limit = 0
    · rw [if_pos hlim]
      exact heapSort_spec h d a b hab hbl
    rw [if_neg hlim]
    have hw1 : Within a b d (if (!wb) = true then breakPatterns_func d a b else d) := by
      split
      · exact breakPatterns_within d a b
      · exact Within.refl _ _ _
    generalize (if (!wb) = true then breakPatterns_func d a b else d) = d1 at hw1 ⊢
    generalize (if (!wb) = true then limit - 1 else limit) = limit1
    obtain ⟨hp1, hp2⟩ := choosePivot_bounds less d1 a b (by omega)
    generalize choosePivot_func less d1 a b = ph at hp1 hp2 ⊢
    have hw2 : Within a b d1
        (if ph.2 = sortedHint.decreasingHint then reverseRange_func d1 a b else d1) := by
      split
      · exact reverseRange_within d1 a b (by omega)
      · exact Within.refl _ _ _
    generalize (if ph.2 = sortedHint.decreasingHint then reverseRange_func d1 a b else d1) = d2
      at hw2 ⊢
    have hpv : a ≤ (if ph.2 = sortedHint.decreasingHint then b - 1 - (ph.1 - a) else ph.1) ∧
        (if ph.2 = sortedHint.decreasingHint then b - 1 - (ph.1 - a) else ph.1) < b := by
      split <;> constructor <;> omega
    generalize (if ph.2 = sortedHint.decreasingHint then b - 1 - (ph.1 - a) else ph.1) = pivot
      at hpv ⊢
    generalize (wb && wp && decide ((if ph.2 = sortedHint.decreasingHint then
      sortedHint.increasingHint else ph.2) = sortedHint.increasingHint)) = c
    have hwd2 : Within a b d d2 := hw1.trans hw2
    have hl2 : d2.length = d.length := hwd2.length_eq
    have hw3 : Within a b d2
        (if c = true then partialInsertionSort_func less d2 a b else (d2, false)).1 ∧
        ((if c = true then partialInsertionSort_func less d2 a b else (d2, false)).2 = true →
          SortedOn less
            (if c = true then partialInsertionSort_func less d2 a b else (d2, false)).1 a b) := by
      split
      · exact partialInsertionSort_spec h d2 a b (by omega) (by omega) (hlb.within hwd2 hab)
      · exact ⟨Within.refl _ _ _, fun e => by simp at e⟩
    generalize (if c = true then partialInsertionSort_func less d2 a b else (d2, false)) = pi
      at hw3 ⊢
    obtain ⟨d3, ok⟩ := pi
    simp only at hw3 ⊢
    have hwd3 : Within a b d d3 := hwd2.trans hw3.1
    by_cases hok : ok = true
    · rw [if_pos hok]
      exact ⟨hw3.2 hok, hwd3⟩
    rw [if_neg hok]
    have hl3 : d3.length = d.length := hwd3.length_eq
    have hlb3 : LowerBound less d3 a b := hlb.within hwd3 hab
    obtain ⟨p, hp⟩ := exists_getElem? d3 (show pivot < d3.length by omega)
    by_cases hcond : (decide (0 < a) && !Less less d3 (a - 1) pivot) = true
    · rw [if_pos hcond]
      simp only [Bool.and_eq_true, decide_eq_true_eq, Bool.not_eq_true'] at hcond
      obtain ⟨ha0, hl⟩ := hcond
      obtain ⟨q, hq⟩ := exists_getElem? d3 (show a - 1 < d3.length by omega)
      rw [Less_eq less d3 hq hp] at hl
      obtain ⟨e1, e2, e3, e4, e5⟩ := partitionEqual_spec h d3 a b pivot p hpv.1 hpv.2
        (by omega) hp
      generalize partitionEqual_func less d3 a b pivot = r at e1 e2 e3 e4 e5 ⊢
      obtain ⟨d4, mid⟩ := r
      simp only at e1 e2 e3 e4 e5 ⊢
      have hge : ∀ k x, a ≤ k → k < b → d4[k]? = some x → less x p = false := by
        intro k x hk1 hk2 hx
        obtain ⟨k2, hk3, hx2⟩ := e1.range hab ⟨hk1, hk2⟩ hx
        exact sw_le_trans h hl (hlb3 q k2 x ha0 hq hk3.1 hk3.2 hx2)
      have hl4 : d4.length = d.length := by rw [e1.length_eq, hl3]
      obtain ⟨r1, r2⟩ := ih d4 mid b limit1 wb wp e3 (by omega) (by omega)
        (by
          intro q2 k x _ hq2 hk1 hk2 hx
          have t1 := e4 (mid - 1) q2 (by omega) (by omega) hq2
          have t2 := e5 k x hk1 hk2 hx
          exact sw_asymm h (sw_lt_of_le_of_lt h t1 t2))
      generalize pdqsort_func less f d4 mid b limit1 wb wp = d5 at r1 r2 ⊢
      refine ⟨?_, hwd3.trans (e1.trans (r2.mono (by omega) (le_refl _)))⟩
      have s1 : SortedOn less d5 a mid := by
        intro i j x y hai hij hjm hx hy
        rw [r2.2 i (Or.inl (by omega))] at hx
        rw [r2.2 j (Or.inl (by omega))] at hy
        exact sw_le_trans h (e4 i x hai (by omega) hx) (hge j y (by omega) (by omega) hy)
      refine s1.append r1 ?_
      intro i j x y hai him hmj hjb hx hy
      rw [r2.2 i (Or.inl (by omega))] at hx
      obtain ⟨j2, hj2, hy2⟩ := r2.range e3 ⟨hmj, hjb⟩ hy
      have t1 := e4 i x hai him hx
      have t2 := e5 j2 y hj2.1 hj2.2 hy2
      exact sw_asymm h (sw_lt_of_le_of_lt h t1 t2)
    · rw [if_neg hcond]
      obtain ⟨e1, e2, e3, e4, e5, e6⟩ := partition_spec less d3 a b pivot p hpv.1 hpv.2
        (by omega) hp
      generalize partition_func less d3 a b pivot = r at e1 e2 e3 e4 e5 e6 ⊢
      obtain ⟨d4, mid, ap⟩ := r
      simp only at e1 e2 e3 e4 e5 e6 ⊢
      have hl4 : d4.length = d.length := by rw [e1.length_eq, hl3]
      have hwd4 : Within a b d d4 := hwd3.trans e1
      have hpa : PivotAt less d4 a b mid p :=
        ⟨e4, fun k x hk1 hk2 hx => sw_asymm h (e5 k x hk1 hk2 hx), e6⟩
      by_cases hside : mid - a < b - mid
      · rw [if_pos hside]
        obtain ⟨r1, r2⟩ := ih d4 a mid limit1 true true e2 (by omega) (by omega)
          ((hlb.within hwd4 hab).upto (by omega))
        generalize pdqsort_func less f d4 a mid limit1 true true = d5 at r1 r2 ⊢
        have hpa5 := hpa.left r2 e2
        obtain ⟨r3, r4⟩ := ih d5 (mid + 1) b limit1 (decide ((b - a) / 8 ≤ mid - a)) ap
          (by omega) (by rw [r2.length_eq]; omega) (by omega) hpa5.lowerBound
        generalize pdqsort_func less f d5 (mid + 1) b limit1 (decide ((b - a) / 8 ≤ mid - a)) ap
          = d6 at r3 r4 ⊢
        have hpa6 := hpa5.right r4 e3
        exact ⟨hpa6.sorted h (r1.frame (fun k _ hk => r4.2 k (Or.inl (by omega)))) r3,
          hwd4.trans ((r2.mono (le_refl _) (by omega)).trans (r4.mono (by omega) (le_refl _)))⟩
      · rw [if_neg hside]
        obtain ⟨r1, r2⟩ := ih d4 (mid + 1) b limit1 true true (by omega) (by omega) (by omega)
          hpa.lowerBound
        generalize pdqsort_func less f d4 (mid + 1) b limit1 true true = d5 at r1 r2 ⊢
        have hpa5 := hpa.right r2 e3
        have hwd5 : Within a b d d5 := hwd4.trans (r2.mono (by omega) (le_refl _))
        obtain ⟨r3, r4⟩ := ih d5 a mid limit1 (decide ((b - a) / 8 ≤ b - mid)) ap
          e2 (by rw [r2.length_eq]; omega) (by omega)
          ((hlb.within hwd5 hab).upto (by omega))
        generalize pdqsort_func less f d5 a mid limit1 (decide ((b - a) / 8 ≤ b - mid)) ap
          = d6 at r3 r4 ⊢
        have hpa6 := hpa5.left r4 e2
        exact ⟨hpa6.sorted h r3 (r1.frame (fun k hk _ => r4.2 k (Or.inr (by omega)))),
          hwd5.trans (r4.mono (le_refl _) (by omega))⟩

/-- The function `Slice` returns its argument rearranged, with the positions in order. -/
theorem Slice_spec {less : α → α → Bool} (h : StrictWeak less) (x : List α) :
    SortedOn less (Slice less x) 0 x.length ∧ (Slice less x).Perm x := by
  unfold Slice
  obtain ⟨r1, r2⟩ := pdqsort_spec h (x.length + 1) x 0 x.length
    (bitsLen x.length x.length) true true (Nat.zero_le _) (le_refl _) (by omega)
    (fun p k y h0 _ _ _ _ => by omega)
  exact ⟨r1, r2.1⟩

end GoSort

/-- A range in order from the first position to the last has no descent
between any two positions. -/
theorem pairwise_of_sortedOn {α : Type} (less : α → α → Bool) (l : List α)
    (hs : GoSort.SortedOn less l 0 l.length) :
    l.Pairwise (fun a b => less b a = false) := by
  rw [List.pairwise_iff_getElem]
  intro i j hi hj hij
  exact hs i j l[i] l[j] (Nat.zero_le _) hij hj (List.getElem?_eq_getElem hi)
    (List.getElem?_eq_getElem hj)

/-- The implementation of `sort.Slice` in the standard library keeps the
documented contract: for every `less` meeting the requirement it returns the
slice rearranged and sorted. -/
theorem goSlice_contract : SliceContract GoSort.Slice := by
  constructor
  · intro less xs h
    exact (GoSort.Slice_spec h xs).2
  · intro less xs h
    have hs := (GoSort.Slice_spec h xs).1
    rw [← (GoSort.Slice_spec h xs).2.length_eq] at hs
    exact (pairwise_of_sortedOn less _ hs).chain'

/-- C3. Sort order: for every input list and every valid or unset side filter,
with `sort.Slice` as the standard library implements it (and whatever
`strings.ToLower` does), the sequence of records handed to the render branch
is the result of that sort on the records that pass the filter, holds those
records, each as often as there, and is non-decreasing by lower-cased name:
for every adjacent pair `(a, b)` of it (and hence for every pair in sequence
order) `ToLower(b.Name) < ToLower(a.Name)` is false. -/
theorem sort_order (L : GoLib) (hS : L.Slice = GoSort.Slice) (v : Viper) (mods : List Mod)
    (hv : sideAccepted v) :
    ∃ out, listedMods L v mods = .ok out ∧
      Run L (loaded mods) v = printMods L v out ∧
      out = GoSort.Slice (nameLess L) (keptBySide v mods) ∧
      out.Perm (keptBySide v mods) ∧
      out.Chain' (fun a b => strLt (L.ToLower b.Name) (L.ToLower a.Name) = false) ∧
      out.Pairwise (fun a b => strLt (L.ToLower b.Name) (L.ToLower a.Name) = false) := by
  have hl := listedMods_accepted L v mods hv
  have hc := goSlice_contract
  rw [← hS] at hc
  refine ⟨_, hl, ?_, ?_, ?_, ?_, ?_⟩
  · rw [Run_of_loaded L (loaded mods) v () () mods rfl rfl rfl, hl]
  · rw [hS]
  · exact hc.perm (nameLess L) _ (nameLess_strictWeak L)
  · exact hc.sorted (nameLess L) _ (nameLess_strictWeak L)
  · exact pairwise_of_chain (nameLess L) (nameLess_strictWeak L) _
      (hc.sorted (nameLess L) _ (nameLess_strictWeak L))

/-- C3 at a concrete input: three records under the filter `client`, sorted
by the standard library's `sort.Slice`. -/
theorem sort_order_witness :
    ∃ out, listedMods goLib ⟨some "client", false, false⟩
        [modNamed "Zeta" "client", modNamed "beta" "server", modNamed "alpha" ""] = .ok out ∧
      Run goLib
          (loaded [modNamed "Zeta" "client", modNamed "beta" "server", modNamed "alpha" ""])
          ⟨some "client", false, false⟩
        = printMods goLib ⟨some "client", false, false⟩ out ∧
      out = GoSort.Slice (nameLess goLib) (keptBySide ⟨some "client", false, false⟩
        [modNamed "Zeta" "client", modNamed "beta" "server", modNamed "alpha" ""]) ∧
      out.Perm (keptBySide ⟨some "client", false, false⟩
        [modNamed "Zeta" "client", modNamed "beta" "server", modNamed "alpha" ""]) ∧
      out.Chain' (fun a b =>
        strLt (goLib.ToLower b.Name) (goLib.ToLower a.Name) = false) ∧
      out.Pairwise (fun a b =>
        strLt (goLib.ToLower b.Name) (goLib.ToLower a.Name) = false) :=
  sort_order goLib rfl ⟨some "client", false, false⟩ _ (Or.inr (Or.inl rfl))

/-- C4, refuted as stated: on the thirteen records `B`, `b`, `a` (eleven
times) with no side filter, `sort.Slice` as implemented in the Go standard
library hands the render branch the eleven `a` records, then `b`, then `B`:
the records `B` and `b`, whose lower-cased names are equal, have changed
places. -/
theorem tie_order_counterexample :
    listedMods goLib ⟨none, false, false⟩ tieInput
        = .ok (List.replicate 11 (modNamed "a" "") ++ [modNamed "b" "", modNamed "B" ""]) ∧
      ¬ KeepsTieOrder goLib (keptBySide ⟨none, false, false⟩ tieInput)
          (List.replicate 11 (modNamed "a" "") ++ [modNamed "b" "", modNamed "B" ""]) := by
  constructor
  · rfl
  · intro h
    have hb := h "b"
    revert hb
    decide

/-- C4, amended: for every input list and every valid or unset side filter,
with a `sort.Slice` that keeps its documented contract, the records with any
given lower-cased name in the sequence handed to the render branch are the
records with that lower-cased name among those that pass the filter, each as
often as there; nothing is said about their relative order. -/
theorem tie_records_kept (L : GoLib) (hL : SliceContract L.Slice) (v : Viper)
    (mods : List Mod) (hv : sideAccepted v) :
    ∃ out, listedMods L v mods = .ok out ∧
      ∀ key : String,
        (out.filter (fun m => L.ToLower m.Name == key)).Perm
          ((keptBySide v mods).filter (fun m => L.ToLower m.Name == key)) := by
  refine ⟨_, listedMods_accepted L v mods hv, fun key => ?_⟩
  exact (hL.perm (nameLess L) _ (nameLess_strictWeak L)).filter _

/-- C4 (amended) at a concrete input: two records with equal lower-cased names. -/
theorem tie_records_kept_witness :
    ∃ out, listedMods insertionLib ⟨none, false, false⟩
        [modNamed "B" "", modNamed "b" "", modNamed "a" ""] = .ok out ∧
      ∀ key : String,
        (out.filter (fun m => insertionLib.ToLower m.Name == key)).Perm
          ((keptBySide ⟨none, false, false⟩
            [modNamed "B" "", modNamed "b" "", modNamed "a" ""]).filter
              (fun m => insertionLib.ToLower m.Name == key)) :=
  tie_records_kept insertionLib insertionLib_contract ⟨none, false, false⟩ _ (Or.inl rfl)

/-! ### The render branches -/

/-- Printing line after line is the concatenation of the lines. -/
theorem foldl_lines (f : Mod → String) (ms : List Mod) :
    ms.foldl (fun out mod => out ++ f mod) "" = String.join (ms.map f) := by
  rw [String.join, List.foldl_map]

/-- C6. Plain end-to-end output: for every input list and every valid or unset
side filter, with neither `json` nor `version` set, the text written is
exactly the concatenation, over the filtered and then sorted records in order,
of the name followed by a newline.  With a `sort.Slice` that keeps its
contract, the input `Zeta` (client), `alpha` (no side) under the filter
`server` writes exactly `alpha` and a newline. -/
theorem plain_output (L : GoLib) (hL : SliceContract L.Slice) :
    (∀ (v : Viper) (mods : List Mod), sideAccepted v → v.json = false → v.version = false →
      (Run L (loaded mods) v).stdout
        = String.join ((L.Slice (nameLess L) (keptBySide v mods)).map
            fun m => m.Name ++ "\n")) ∧
      (Run L (loaded [modNamed "Zeta" "client", modNamed "alpha" ""])
        ⟨some "server", false, false⟩).stdout = "alpha\n" := by
  have hgen : ∀ (v : Viper) (mods : List Mod), sideAccepted v → v.json = false →
      v.version = false →
      (Run L (loaded mods) v).stdout
        = String.join ((L.Slice (nameLess L) (keptBySide v mods)).map
            fun m => m.Name ++ "\n") := by
    intro v mods hv hj hver
    rw [Run_of_loaded L (loaded mods) v () () mods rfl rfl rfl, listedMods_accepted L v mods hv]
    simp only [printMods, hj, hver, Bool.false_eq_true, if_false]
    exact foldl_lines (fun m => Println m.Name) _
  refine ⟨hgen, ?_⟩
  rw [hgen _ _ (Or.inr (Or.inr (Or.inl rfl))) rfl rfl]
  have hk : keptBySide ⟨some "server", false, false⟩
      [modNamed "Zeta" "client", modNamed "alpha" ""] = [modNamed "alpha" ""] := by decide
  have hp := hL.perm (nameLess L) [modNamed "alpha" ""] (nameLess_strictWeak L)
  rw [hk, List.perm_singleton.mp hp]
  rfl

/-- C6 at a concrete library: sorting by insertion. -/
theorem plain_output_witness :
    (∀ (v : Viper) (mods : List Mod), sideAccepted v → v.json = false → v.version = false →
      (Run insertionLib (loaded mods) v).stdout
        = String.join ((insertionLib.Slice (nameLess insertionLib) (keptBySide v mods)).map
            fun m => m.Name ++ "\n")) ∧
      (Run insertionLib (loaded [modNamed "Zeta" "client", modNamed "alpha" ""])
        ⟨some "server", false, false⟩).stdout = "alpha\n" :=
  plain_output insertionLib insertionLib_contract

/-- C7. Versioned output format: for every sequence of records handed to the
render branch, with `json` unset and `version` set, the text written is
exactly the concatenation, in order, of name, ` (`, file name, `)` and a
newline for each record; there is one such entry per record. -/
theorem versioned_output (L : GoLib) (v : Viper) (ms : List Mod)
    (hj : v.json = false) (hver : v.version = true) :
    (printMods L v ms).stdout
        = String.join (ms.map fun m => m.Name ++ " (" ++ m.FileName ++ ")" ++ "\n") ∧
      (ms.map fun m => m.Name ++ " (" ++ m.FileName ++ ")" ++ "\n").length = ms.length := by
  refine ⟨?_, List.length_map _ _⟩
  simp only [printMods, hj, hver, Bool.false_eq_true, if_false, if_true]
  rw [foldl_lines (fun m => m.Name ++ " (" ++ m.FileName ++ ")\n")]
  congr 1
  apply List.map_congr_left
  intro m _
  rw [String.append_assoc _ ")" "\n"]
  rfl

/-- C7 at a concrete input: two records. -/
theorem versioned_output_witness :
    (printMods goLib ⟨none, false, true⟩
          [⟨"alpha", "alpha-1.0.jar", "", [], ⟨""⟩, ""⟩, ⟨"Zeta", "zeta.jar", "", [], ⟨""⟩, ""⟩]).stdout
        = String.join
            (([⟨"alpha", "alpha-1.0.jar", "", [], ⟨""⟩, ""⟩, ⟨"Zeta", "zeta.jar", "", [], ⟨""⟩, ""⟩]
                : List Mod).map
              fun m => m.Name ++ " (" ++ m.FileName ++ ")" ++ "\n") ∧
      (([⟨"alpha", "alpha-1.0.jar", "", [], ⟨""⟩, ""⟩, ⟨"Zeta", "zeta.jar", "", [], ⟨""⟩, ""⟩]
          : List Mod).map
        fun m => m.Name ++ " (" ++ m.FileName ++ ")" ++ "\n").length = 2 :=
  versioned_output goLib ⟨none, false, true⟩ _ rfl rfl

/-! ### The slug -/

/-- The function `strings.HasPrefix` decides whether `p` is an initial part of `s`. -/
theorem hasPrefixChars_iff : ∀ s p : List Char, hasPrefixChars s p = true ↔ p <+: s
  | _, [] => by simp [hasPrefixChars]
  | [], _ :: _ => by simp [hasPrefixChars]
  | a :: s, b :: p => by
    simp only [hasPrefixChars, Bool.and_eq_true, beq_iff_eq, List.cons_prefix_cons,
      hasPrefixChars_iff s p]
    constructor
    · rintro ⟨h, h2⟩; exact ⟨h.symm, h2⟩
    · rintro ⟨h, h2⟩; exact ⟨h.symm, h2⟩

/-- The result of `LastIndexByte` is a position or `-1`. -/
theorem LastIndexByte_ge (c : Char) : ∀ s : List Char, -1 ≤ LastIndexByte s c
  | [] => by simp [LastIndexByte]
  | x :: xs => by
    have := LastIndexByte_ge c xs
    simp only [LastIndexByte]
    split
    · omega
    · split <;> omega

/-- The result of `LastIndexByte` is a position exactly when the character occurs. -/
theorem LastIndexByte_nonneg_iff (c : Char) : ∀ s : List Char, 0 ≤ LastIndexByte s c ↔ c ∈ s
  | [] => by simp [LastIndexByte]
  | x :: xs => by
    have ih := LastIndexByte_nonneg_iff c xs
    simp only [LastIndexByte, List.mem_cons]
    split
    · rename_i h
      constructor
      · intro _; exact Or.inr (ih.mp h)
      · intro _; omega
    · rename_i h
      have hn : c ∉ xs := fun hc => h (ih.mpr hc)
      split
      · rename_i hx
        simp only [beq_iff_eq] at hx
        simp [hx]
      · rename_i hx
        simp only [beq_iff_eq] at hx
        constructor
        · intro h0; omega
        · rintro (h1 | h1)
          · exact absurd h1.symm hx
          · exact absurd h1 hn

/-- The file part of `path.Split` is the part after the last `/`. -/
theorem drop_LastIndexByte : ∀ s : List Char,
    s.drop (LastIndexByte s (Char.ofNat 47) + 1).toNat = afterLastSlash s
  | [] => by simp [LastIndexByte, afterLastSlash]
  | x :: xs => by
    have ih := drop_LastIndexByte xs
    have hge := LastIndexByte_ge (Char.ofNat 47) xs
    have hiff := LastIndexByte_nonneg_iff (Char.ofNat 47) xs
    simp only [LastIndexByte, afterLastSlash]
    by_cases h : 0 ≤ LastIndexByte xs (Char.ofNat 47)
    · rw [if_pos h, if_pos (hiff.mp h)]
      have : (LastIndexByte xs (Char.ofNat 47) + 1 + 1).toNat
          = (LastIndexByte xs (Char.ofNat 47) + 1).toNat + 1 := by omega
      rw [this, List.drop_succ_cons, ih]
    · rw [if_neg h, if_neg (fun hc => h (hiff.mpr hc))]
      by_cases hx : x = Char.ofNat 47
      · simp [hx]
      · simp [hx]

/-- The part after the last `/` contains no `/`. -/
theorem not_mem_afterLastSlash : ∀ s : List Char, Char.ofNat 47 ∉ afterLastSlash s
  | [] => by simp [afterLastSlash]
  | c :: cs => by
    simp only [afterLastSlash]
    split
    · exact not_mem_afterLastSlash cs
    · rename_i h
      split
      · exact h
      · rename_i hc
        simp only [List.mem_cons, not_or]
        exact ⟨fun e => hc e.symm, h⟩

/-- The scan does not depend on its bound once the bound covers the text. -/
theorem removeScan_fuel (old : List Char) (hold : old ≠ []) :
    ∀ (F G : Nat) (s : List Char), s.length ≤ F → s.length ≤ G →
      removeScan old F s = removeScan old G s := by
  intro F
  induction F with
  | zero =>
    intro G s hF _
    have : s = [] := List.length_eq_zero.mp (by omega)
    subst this
    cases G <;> simp [removeScan]
  | succ F ih =>
    intro G s hF hG
    cases s with
    | nil => cases G <;> simp [removeScan]
    | cons c cs =>
      cases G with
      | zero => simp at hG
      | succ G =>
        simp only [List.length_cons, Nat.add_le_add_iff_right] at hF hG
        simp only [removeScan]
        have hlen : 0 < old.length := List.length_pos.mpr hold
        split
        · apply ih
          · simp only [List.length_drop, List.length_cons]; omega
          · simp only [List.length_drop, List.length_cons]; omega
        · rw [ih G cs hF hG]

/-- The scan only keeps characters of the text. -/
theorem removeScan_subset (old : List Char) :
    ∀ (F : Nat) (s : List Char) (x : Char), x ∈ removeScan old F s → x ∈ s := by
  intro F
  induction F with
  | zero => intro s x h; simpa [removeScan] using h
  | succ F ih =>
    intro s x h
    cases s with
    | nil => simp [removeScan] at h
    | cons c cs =>
      simp only [removeScan] at h
      split at h
      · exact List.mem_of_mem_drop (ih _ _ h)
      · rcases List.mem_cons.mp h with h | h
        · exact h ▸ List.mem_cons_self _ _
        · exact List.mem_cons_of_mem _ (ih _ _ h)

/-- The result of `Index` is a position or `-1`. -/
theorem Index_ge (old : List Char) : ∀ s : List Char, -1 ≤ Index s old
  | [] => by simp only [Index]; split <;> omega
  | c :: cs => by
    have := Index_ge old cs
    simp only [Index]
    split
    · omega
    · split <;> omega

/-- No occurrence: the scan keeps everything. -/
theorem removeScan_of_Index_neg (old : List Char) :
    ∀ (F : Nat) (s : List Char), Index s old = -1 → removeScan old F s = s := by
  intro F
  induction F with
  | zero => intro s _; rfl
  | succ F ih =>
    intro s h
    cases s with
    | nil => rfl
    | cons c cs =>
      simp only [Index] at h
      split at h
      · omega
      · rename_i hp
        split at h
        · omega
        · rename_i hr
          have hge := Index_ge old cs
          have hcs : Index cs old = -1 := by omega
          simp only [removeScan]
          rw [if_neg (fun hpre => hp ((hasPrefixChars_iff _ _).mpr hpre)), ih cs hcs]

/-- First occurrence at `i`: the scan keeps the `i` characters before it and goes on after it. -/
theorem removeScan_of_Index (old : List Char) (hold : old ≠ []) :
    ∀ (s : List Char) (i F : Nat), Index s old = (i : Int) → s.length ≤ F →
      removeScan old F s
        = s.take i ++ removeScan old (s.drop (i + old.length)).length (s.drop (i + old.length)) := by
  intro s
  induction s with
  | nil =>
    intro i F h _
    simp only [Index] at h
    split at h
    · rename_i h0
      simp only [beq_iff_eq, List.length_eq_zero] at h0
      exact absurd h0 hold
    · omega
  | cons c cs ih =>
    intro i F h hF
    cases F with
    | zero => simp at hF
    | succ F =>
      simp only [List.length_cons, Nat.add_le_add_iff_right] at hF
      have hlen : 0 < old.length := List.length_pos.mpr hold
      simp only [Index] at h
      split at h
      · rename_i hp
        have hi : i = 0 := by omega
        subst hi
        simp only [removeScan]
        rw [if_pos ((hasPrefixChars_iff _ _).mp hp)]
        simp only [Nat.zero_add, List.take_zero, List.nil_append]
        apply removeScan_fuel old hold
        · simp only [List.length_drop, List.length_cons]; omega
        · exact le_refl _
      · rename_i hp
        split at h
        · rename_i hr
          obtain ⟨j, hj⟩ : ∃ j : Nat, Index cs old = (j : Int) := ⟨(Index cs old).toNat, by omega⟩
          have hi : i = j + 1 := by omega
          subst hi
          simp only [removeScan]
          rw [if_neg (fun hpre => hp ((hasPrefixChars_iff _ _).mpr hpre)), ih j F hj hF]
          simp only [List.take_succ_cons, List.cons_append]
          have : j + 1 + old.length = (j + old.length) + 1 := by omega
          rw [this, List.drop_succ_cons]
        · omega

/-- An initial part is not longer than the text. -/
theorem hasPrefixChars_length : ∀ s p : List Char, hasPrefixChars s p = true → p.length ≤ s.length
  | _, [] => by simp
  | [], _ :: _ => by simp [hasPrefixChars]
  | a :: s, b :: p => by
    simp only [hasPrefixChars, Bool.and_eq_true, List.length_cons, Nat.add_le_add_iff_right]
    exact fun h => hasPrefixChars_length s p h.2

/-- An occurrence found by `Index` lies inside the text. -/
theorem Index_bound (old : List Char) :
    ∀ (s : List Char) (i : Nat), Index s old = (i : Int) → i + old.length ≤ s.length
  | [], i => by
    simp only [Index]
    split
    · rename_i h0
      simp only [beq_iff_eq] at h0
      intro h; simp only [List.length_nil]; omega
    · intro h; omega
  | c :: cs, i => by
    simp only [Index]
    split
    · rename_i hp
      intro h
      have := hasPrefixChars_length _ _ hp
      omega
    · split
      · rename_i hr
        intro h
        have := Index_bound old cs (Index cs old).toNat (by omega)
        simp only [List.length_cons]
        omega
      · intro h; omega

/-- The counter of the `Count` loop is an accumulator. -/
theorem countLoop_add (old : List Char) :
    ∀ (f : Nat) (s : List Char) (n : Nat), countLoop old f s n = n + countLoop old f s 0 := by
  intro f
  induction f with
  | zero => intro s n; simp [countLoop]
  | succ f ih =>
    intro s n
    simp only [countLoop]
    split
    · simp
    · rw [ih _ (n + 1), ih _ (0 + 1)]; omega

/-- The loop of `Replace`, run as often as `Count` says, removes the occurrences from `start` on. -/
theorem replaceLoop_count (old : List Char) (hold : old ≠ []) (s : List Char) :
    ∀ (f : Nat) (t : List Char) (start i : Nat) (b : List Char),
      t.length < f → s.drop start = t →
      replaceLoop s old [] (countLoop old f t 0) i start b = b ++ removeScan old t.length t := by
  intro f
  induction f with
  | zero => intro t start i b h; omega
  | succ f ih =>
    intro t start i b hf ht
    have hlen : 0 < old.length := List.length_pos.mpr hold
    have hge := Index_ge old t
    simp only [countLoop]
    split
    · rename_i hidx
      simp only [beq_iff_eq] at hidx
      simp only [replaceLoop, ht]
      rw [removeScan_of_Index_neg old _ t hidx]
    · rename_i hidx
      simp only [beq_iff_eq] at hidx
      obtain ⟨j, hj⟩ : ∃ j : Nat, Index t old = (j : Int) := ⟨(Index t old).toNat, by omega⟩
      rw [countLoop_add, Nat.add_comm]
      simp only [replaceLoop]
      have hne : (old.length == 0) = false := by simp [hold]
      simp only [hne, Bool.false_eq_true, if_false, ht, hj, Int.toNat_ofNat,
        Nat.add_sub_cancel_left, List.append_nil]
      have hdrop : s.drop (start + j + old.length) = t.drop (j + old.length) := by
        rw [← ht, List.drop_drop]; congr 1; omega
      rw [ih (t.drop (j + old.length)) (start + j + old.length) (i + 1) (b ++ t.take j)
        (by have := Index_bound old t j hj; simp only [List.length_drop]; omega) hdrop]
      rw [removeScan_of_Index old hold t j t.length hj (le_refl _)]
      simp

/-- Replacing every instance of `old` by nothing is the left-to-right removal of its occurrences. -/
theorem Replace_eq_removeOccurrences (old s : List Char) (hold : 2 ≤ old.length) :
    Replace s old [] (-1) = removeOccurrences old s := by
  have hne : old ≠ [] := by intro h; subst h; simp at hold
  have hcount : Count s old = countLoop old (s.length + 1) s 0 := by
    match old, hold with
    | _ :: _ :: _, _ => rfl
  unfold Replace removeOccurrences
  rw [if_neg (by simp [hne])]
  simp only [hcount]
  split
  · rename_i h0
    -- no occurrence
    have hge := Index_ge old s
    simp only [countLoop] at h0
    split at h0
    · rename_i hidx
      simp only [beq_iff_eq] at hidx
      rw [removeScan_of_Index_neg old _ s hidx]
    · rw [countLoop_add] at h0; omega
  · have := replaceLoop_count old hne s (s.length + 1) s 0 0 [] (by omega) (by simp)
    simpa using this

/-- The slug of a record, as characters. -/
theorem slugOf_data (mod : Mod) :
    (slugOf mod).data = removeOccurrences ".pw.toml".data (afterLastSlash mod.FilePath.data) := by
  show Replace (mod.FilePath.data.drop
    (LastIndexByte mod.FilePath.data (Char.ofNat 47) + 1).toNat) ".pw.toml".data [] (-1) = _
  rw [drop_LastIndexByte, Replace_eq_removeOccurrences _ _ (by decide)]

/-- C8. Slug derivation: for every metadata path, the slug is the part of the
path after its last `/` (all of it when it has no `/`) with every
non-overlapping occurrence of `.pw.toml`, scanned left to right, removed;
hence it never contains `/`.  The path `mods/example.pw.toml` yields the slug
`example`. -/
theorem slug_derivation (mod : Mod) :
    (slugOf mod).data
        = removeOccurrences ".pw.toml".data (afterLastSlash mod.FilePath.data) ∧
      Char.ofNat 47 ∉ (slugOf mod).data ∧
      slugOf { mod with FilePath := "mods/example.pw.toml" } = "example" := by
  refine ⟨slugOf_data mod, ?_, rfl⟩
  rw [slugOf_data]
  exact fun h => not_mem_afterLastSlash _ (removeScan_subset _ _ _ _ h)

/-- C9, refuted as stated: the path `mods/example.pw.toml.pw.toml` does not
yield the slug `example.` (with a trailing dot). -/
theorem slug_pathological_counterexample :
    slugOf (modAt "mods/example.pw.toml.pw.toml") ≠ "example." := by
  decide

/-- C9, amended: a record whose metadata path is
`mods/example.pw.toml.pw.toml` yields the slug `example`: both occurrences of
the suffix are removed and no dot is left. -/
theorem slug_pathological (mod : Mod) :
    slugOf { mod with FilePath := "mods/example.pw.toml.pw.toml" } = "example" := by
  rfl

/-! ### The JSON renderer -/

open JSON


/-- The code of the character made from a number below the surrogate range is that number. -/
theorem toNat_ofNat_small (n : Nat) (h : n < 55296) : (Char.ofNat n).toNat = n := by
  have hv : n.isValidChar := Or.inl h
  simp only [Char.ofNat, hv, Char.toNat, Char.ofNatAux, dite_true]
  show (BitVec.ofNatLt n _).toNat = n
  simp

/-- A character is the character made from its code. -/
theorem ofNat_eq_of_toNat (c : Char) (n : Nat) (h : c.toNat = n) : Char.ofNat n = c := by
  rw [← h, Char.ofNat_toNat]

/-- The four digits written for a character below 128 read back as its code. -/
theorem hex4_low : ∀ n, n < 128 →
    hex4 (Char.ofNat 48) (Char.ofNat 48) (hexDigit (n / 16)) (hexDigit (n % 16)) = some n := by
  decide

/-- The four digits written for U+2028 and U+2029 read back as their code. -/
theorem hex4_sep : ∀ r, r < 16 →
    hex4 (Char.ofNat 50) (Char.ofNat 48) (Char.ofNat 50) (hexDigit r) = some (8224 + r) := by
  decide

/-- A unit below the surrogate range is the character with that code. -/
theorem unescapeUnit_small (n : Nat) (h : n < 55296) (rest : List Char) :
    unescapeUnit n rest = (Char.ofNat n, rest) := by
  unfold unescapeUnit
  rw [if_neg (by omega), if_neg (by omega)]

/-- Reading a character that stands for itself. -/
theorem readStringBody_plain (c : Char) (rest : List Char) (f : Nat)
    (h34 : c.toNat ≠ 34) (h92 : c.toNat ≠ 92) (h32 : 32 ≤ c.toNat) :
    readStringBody (f + 1) (c :: rest)
      = match readStringBody f rest with
        | none => none
        | some (xs, r) => some (c :: xs, r) := by
  simp only [readStringBody, beq_iff_eq, h34, h92, if_false, show ¬ c.toNat < 32 by omega]

/-- Reading an escape. -/
theorem readStringBody_escape (c : Char) (esc rest : List Char) (f : Nat)
    (h : unescape (esc ++ rest) = some (c, rest)) :
    readStringBody (f + 1) (Char.ofNat 92 :: (esc ++ rest))
      = match readStringBody f rest with
        | none => none
        | some (xs, r) => some (c :: xs, r) := by
  simp only [readStringBody, toNat_ofNat_small 92 (by decide), h]
  simp only [beq_self_eq_true, if_true, if_false, show ((92 : Nat) == 34) = false by decide,
    Bool.false_eq_true]

/-- The two-character escapes read back as the character they were written for. -/
theorem unescape_short (c : Char) (e : Nat) (rest : List Char)
    (h : (e = 34 ∧ c.toNat = 34) ∨ (e = 92 ∧ c.toNat = 92) ∨ (e = 98 ∧ c.toNat = 8)
      ∨ (e = 102 ∧ c.toNat = 12) ∨ (e = 110 ∧ c.toNat = 10) ∨ (e = 114 ∧ c.toNat = 13)
      ∨ (e = 116 ∧ c.toNat = 9)) :
    unescape ([Char.ofNat e] ++ rest) = some (c, rest) := by
  rcases h with ⟨he, hc⟩ | ⟨he, hc⟩ | ⟨he, hc⟩ | ⟨he, hc⟩ | ⟨he, hc⟩ | ⟨he, hc⟩ | ⟨he, hc⟩ <;>
    subst he <;>
    have hcc := ofNat_eq_of_toNat c _ hc <;>
    simp [unescape, toNat_ofNat_small 34 (by decide), toNat_ofNat_small 92 (by decide),
      toNat_ofNat_small 98 (by decide), toNat_ofNat_small 102 (by decide),
      toNat_ofNat_small 110 (by decide), toNat_ofNat_small 114 (by decide),
      toNat_ofNat_small 116 (by decide)] <;>
    exact hcc

/-- An escape made of the letter u and four digits reads back as the character with that code. -/
theorem unescape_u (c : Char) (a b d e : Char) (rest : List Char) (n : Nat)
    (hn : n < 55296) (hc : c.toNat = n) (hx : hex4 a b d e = some n) :
    unescape ([Char.ofNat 117, a, b, d, e] ++ rest) = some (c, rest) := by
  simp only [List.cons_append, List.nil_append, unescape,
    toNat_ofNat_small 117 (by decide), hx, unescapeUnit_small n hn, ofNat_eq_of_toNat c n hc]
  simp

/-- Reading what the encoder writes for one character yields that character. -/
theorem readStringBody_escapeChar (c : Char) (rest : List Char) (f : Nat) :
    readStringBody (f + 1) (escapeChar c ++ rest)
      = match readStringBody f rest with
        | none => none
        | some (xs, r) => some (c :: xs, r) := by
  unfold escapeChar
  by_cases h128 : c.toNat < 128
  · rw [if_pos h128]
    by_cases hsafe : htmlSafe c = true
    · rw [if_pos hsafe]
      simp only [htmlSafe, Bool.and_eq_true, decide_eq_true_eq, bne_iff_ne, ne_eq] at hsafe
      obtain ⟨⟨⟨⟨⟨h32, h34⟩, h92⟩, _⟩, _⟩, _⟩ := hsafe
      exact readStringBody_plain c rest f h34 h92 h32
    · rw [if_neg hsafe]
      simp only [Bool.or_eq_true, beq_iff_eq]
      split_ifs with h1 h2 h3 h4 h5 h6
      · have hc := ofNat_eq_of_toNat c c.toNat rfl
        have := readStringBody_escape c [c] rest f (by
          rw [← hc]; apply unescape_short
          rw [hc]
          rcases h1 with h | h
          · exact Or.inr (Or.inl ⟨h, h⟩)
          · exact Or.inl ⟨h, h⟩)
        exact this
      · exact readStringBody_escape c [Char.ofNat 98] rest f (unescape_short c 98 rest (by simp [h2]))
      · exact readStringBody_escape c [Char.ofNat 102] rest f (unescape_short c 102 rest (by simp [h3]))
      · exact readStringBody_escape c [Char.ofNat 110] rest f (unescape_short c 110 rest (by simp [h4]))
      · exact readStringBody_escape c [Char.ofNat 114] rest f (unescape_short c 114 rest (by simp [h5]))
      · exact readStringBody_escape c [Char.ofNat 116] rest f (unescape_short c 116 rest (by simp [h6]))
      · exact readStringBody_escape c
          [Char.ofNat 117, Char.ofNat 48, Char.ofNat 48, hexDigit (c.toNat / 16),
            hexDigit (c.toNat % 16)] rest f
          (unescape_u c _ _ _ _ rest c.toNat (by omega) rfl (hex4_low _ h128))
  · rw [if_neg h128]
    simp only [Bool.or_eq_true, beq_iff_eq]
    split_ifs with h1
    · have hx : hex4 (Char.ofNat 50) (Char.ofNat 48) (Char.ofNat 50) (hexDigit (c.toNat % 16))
          = some c.toNat := by
        rw [hex4_sep _ (Nat.mod_lt _ (by decide))]
        congr 1
        rcases h1 with h | h <;> rw [h]
      exact readStringBody_escape c
          [Char.ofNat 117, Char.ofNat 50, Char.ofNat 48, Char.ofNat 50,
            hexDigit (c.toNat % 16)] rest f
          (unescape_u c _ _ _ _ rest c.toNat (by rcases h1 with h | h <;> omega) rfl hx)
    · exact readStringBody_plain c rest f (by omega) (by omega) (by omega)

/-- Reading the escaped characters of a string up to the closing quote yields the string. -/
theorem readStringBody_encode : ∀ (cs rest : List Char) (f : Nat), cs.length < f →
    readStringBody f (cs.flatMap escapeChar ++ Char.ofNat 34 :: rest) = some (cs, rest)
  | [], rest, f, h => by
    obtain ⟨f, rfl⟩ : ∃ g, f = g + 1 := ⟨f - 1, by simp at h; omega⟩
    simp [readStringBody, toNat_ofNat_small 34 (by decide)]
  | c :: cs, rest, f, h => by
    obtain ⟨f, rfl⟩ : ∃ g, f = g + 1 := ⟨f - 1, by simp at h; omega⟩
    rw [List.flatMap_cons, List.append_assoc, readStringBody_escapeChar,
      readStringBody_encode cs rest f (by simp at h; omega)]

/-- The encoder writes at least one character for each character. -/
theorem escapeChar_length (c : Char) : 1 ≤ (escapeChar c).length := by
  unfold escapeChar
  split_ifs <;> simp

/-- The escaped text is at least as long as the string. -/
theorem flatMap_escapeChar_length : ∀ cs : List Char, cs.length ≤ (cs.flatMap escapeChar).length
  | [] => by simp
  | c :: cs => by
    have := escapeChar_length c
    have := flatMap_escapeChar_length cs
    simp only [List.flatMap_cons, List.length_append, List.length_cons]
    omega

/-- Reading a string as the encoder writes it yields the string. -/
theorem readString_encode (s : String) (rest : List Char) :
    readString (encodeString s ++ rest) = some (s, rest) := by
  have hlen := flatMap_escapeChar_length s.data
  simp only [encodeString, List.cons_append, List.append_assoc, List.singleton_append,
    readString, toNat_ofNat_small 34 (by decide), beq_self_eq_true, if_true, List.nil_append]
  rw [readStringBody_encode s.data rest _ (by simp only [List.length_append, List.length_cons]; omega)]

/-- White space in front of a text is skipped. -/
theorem skipWs_append (ws rest : List Char) (h : ∀ c ∈ ws, isWs c = true) :
    skipWs (ws ++ rest) = skipWs rest := by
  induction ws with
  | nil => rfl
  | cons c cs ih =>
    rw [List.cons_append, skipWs, if_pos (h c (List.mem_cons_self _ _))]
    exact ih (fun x hx => h x (List.mem_cons_of_mem _ hx))

/-- A text that starts with a character other than white space is left as it is. -/
theorem skipWs_cons (c : Char) (cs : List Char) (h : isWs c = false) :
    skipWs (c :: cs) = c :: cs := by
  rw [skipWs, if_neg (by simp [h])]

/-- The line breaks written with an empty line start and an indent of four spaces are white space. -/
theorem newlineAt_ws (depth : Nat) :
    ∀ c ∈ newlineAt [] (Repeat " " 4).data depth, isWs c = true := by
  intro c hc
  simp only [newlineAt, List.nil_append, List.mem_cons, List.mem_flatten, List.mem_replicate] at hc
  rcases hc with h | ⟨l, ⟨_, hl⟩, hcl⟩
  · subst h; decide
  · subst hl
    have : ∀ x ∈ (Repeat " " 4).data, isWs x = true := by decide
    exact this c hcl

/-- The text of a string starts with a double quote. -/
theorem encodeString_head (s : String) (rest : List Char) :
    ∃ t, encodeString s ++ rest = Char.ofNat 34 :: t := ⟨_, rfl⟩

/-- Reading a value that is a string. -/
theorem readValue_string (f : Nat) (s : String) (rest : List Char) :
    readValue (f + 1) (encodeString s ++ rest) = some (.string s, rest) := by
  obtain ⟨t, ht⟩ := encodeString_head s rest
  rw [ht, readValue, if_pos (by rw [toNat_ofNat_small 34 (by decide)]; rfl), ← ht,
    readString_encode]

/-- Reading the last member of an object. -/
theorem readMembers_last (f : Nat) (k v : String) (ws rest : List Char)
    (hws : ∀ c ∈ ws, isWs c = true) :
    readMembers (f + 2) (encodeMember k v ++ (ws ++ Char.ofNat 125 :: rest))
      = some ([(k, .string v)], rest) := by
  rw [readMembers, encodeMember, List.append_assoc, List.append_assoc, readString_encode]
  simp only [List.cons_append, List.nil_append]
  rw [skipWs_cons _ _ (by decide)]
  simp only [toNat_ofNat_small 58 (by decide), beq_self_eq_true, if_true]
  rw [skipWs, if_pos (by decide)]
  obtain ⟨t, ht⟩ := encodeString_head v (ws ++ Char.ofNat 125 :: rest)
  rw [ht, skipWs_cons _ _ (by decide), ← ht, readValue_string]
  simp only [skipWs_append ws _ hws]
  rw [skipWs_cons _ _ (by decide)]
  simp [toNat_ofNat_small 125 (by decide)]

/-- Reading a member that is followed by another one. -/
theorem readMembers_more (f : Nat) (k v : String) (ws more : List Char)
    (hws : ∀ c ∈ ws, isWs c = true) (hmore : skipWs more = more) :
    readMembers (f + 2) (encodeMember k v ++ (Char.ofNat 44 :: (ws ++ more)))
      = match readMembers (f + 1) more with
        | none => none
        | some (kvs, r) => some ((k, .string v) :: kvs, r) := by
  rw [readMembers, encodeMember, List.append_assoc, List.append_assoc, readString_encode]
  simp only [List.cons_append, List.nil_append]
  rw [skipWs_cons _ _ (by decide)]
  simp only [toNat_ofNat_small 58 (by decide), beq_self_eq_true, if_true]
  rw [skipWs, if_pos (by decide)]
  obtain ⟨t, ht⟩ := encodeString_head v (Char.ofNat 44 :: (ws ++ more))
  rw [ht, skipWs_cons _ _ (by decide), ← ht, readValue_string]
  simp only []
  rw [skipWs_cons _ _ (by decide)]
  simp only [toNat_ofNat_small 44 (by decide), skipWs_append ws _ hws, hmore]
  simp only [show ((44 : Nat) == 125) = false by decide, Bool.false_eq_true, if_false,
    beq_self_eq_true, if_true]

/-- The text of a member starts with a double quote, which is not white space. -/
theorem skipWs_encodeMember (k v : String) (rest : List Char) :
    skipWs (encodeMember k v ++ rest) = encodeMember k v ++ rest := by
  simp only [encodeMember, encodeString, List.cons_append]
  exact skipWs_cons _ _ (by decide)

/-- Reading the object written for a `modInfo`. -/
theorem readValue_encodeInfo (f : Nat) (m : modInfo) (rest : List Char) :
    readValue (f + 7) (encodeInfo [] (Repeat " " 4).data m ++ rest)
      = some (infoJSON m, rest) := by
  have h1 := newlineAt_ws 1
  have h2 := newlineAt_ws 2
  simp only [encodeInfo, List.append_assoc, List.singleton_append]
  rw [List.cons_append, readValue, if_neg (by rw [toNat_ofNat_small 123 (by decide)]; decide),
    if_neg (by rw [toNat_ofNat_small 123 (by decide)]; decide),
    if_pos (by rw [toNat_ofNat_small 123 (by decide)]; rfl)]
  rw [skipWs_append _ _ h2, skipWs_encodeMember]
  obtain ⟨t, ht⟩ : ∃ t, encodeMember "name" m.Name ++
      (Char.ofNat 44 :: (newlineAt [] (Repeat " " 4).data 2 ++
        (encodeMember "fileName" m.FileName ++
          (Char.ofNat 44 :: (newlineAt [] (Repeat " " 4).data 2 ++
            (encodeMember "source" m.Source ++
              (Char.ofNat 44 :: (newlineAt [] (Repeat " " 4).data 2 ++
                (encodeMember "slug" m.Slug ++
                  (Char.ofNat 44 :: (newlineAt [] (Repeat " " 4).data 2 ++
                    (encodeMember "downloadUrl" m.DownloadUrl ++
                      (newlineAt [] (Repeat " " 4).data 1 ++
                        Char.ofNat 125 :: rest))))))))))))) = Char.ofNat 34 :: t := ⟨_, rfl⟩
  simp only [List.cons_append, List.nil_append] at ht ⊢
  rw [ht]
  simp only [toNat_ofNat_small 34 (by decide), show ((34 : Nat) == 125) = false by decide,
    Bool.false_eq_true, if_false]
  rw [← ht]
  rw [readMembers_more (f + 4) _ _ _ _ h2 (skipWs_encodeMember _ _ _),
    readMembers_more (f + 3) _ _ _ _ h2 (skipWs_encodeMember _ _ _),
    readMembers_more (f + 2) _ _ _ _ h2 (skipWs_encodeMember _ _ _),
    readMembers_more (f + 1) _ _ _ _ h2 (skipWs_encodeMember _ _ _),
    readMembers_last f _ _ _ _ h1]
  rfl

/-- The text of an object starts with an opening brace. -/
theorem encodeInfos_head (m : modInfo) (ms : List modInfo) (rest : List Char) :
    ∃ t, encodeInfos [] (Repeat " " 4).data (m :: ms) ++ rest = Char.ofNat 123 :: t := by
  cases ms with
  | nil =>
    simp only [encodeInfos, encodeInfo, List.append_assoc, List.singleton_append,
      List.cons_append]
    exact ⟨_, rfl⟩
  | cons m2 ms =>
    rw [encodeInfos]
    simp only [encodeInfo, List.append_assoc, List.singleton_append, List.cons_append]
    exact ⟨_, rfl⟩

/-- Reading the elements of the array written for a non-empty list. -/
theorem readElems_encodeInfos : ∀ (ms : List modInfo) (m : modInfo) (f : Nat)
    (ws rest : List Char), (∀ c ∈ ws, isWs c = true) → ms.length + 8 ≤ f →
    readElems f (encodeInfos [] (Repeat " " 4).data (m :: ms)
        ++ (ws ++ Char.ofNat 93 :: rest))
      = some ((m :: ms).map infoJSON, rest)
  | [], m, f, ws, rest, hws, hf => by
    obtain ⟨g, rfl⟩ : ∃ g, f = g + 8 := ⟨f - 8, by simp at hf; omega⟩
    show readElems ((g + 7) + 1) _ = _
    rw [readElems.eq_2, encodeInfos, readValue_encodeInfo]
    simp only [skipWs_append ws _ hws]
    rw [skipWs_cons _ _ (by decide)]
    simp [toNat_ofNat_small 93 (by decide)]
  | m2 :: ms, m, f, ws, rest, hws, hf => by
    obtain ⟨g, rfl⟩ : ∃ g, f = g + 8 := ⟨f - 8, by simp at hf; omega⟩
    show readElems ((g + 7) + 1) _ = _
    rw [readElems.eq_2, encodeInfos, List.append_assoc, List.append_assoc, List.append_assoc,
      readValue_encodeInfo]
    simp only [List.singleton_append]
    rw [skipWs_cons _ _ (by decide)]
    simp only [toNat_ofNat_small 44 (by decide), show ((44 : Nat) == 93) = false by decide,
      Bool.false_eq_true, if_false, beq_self_eq_true, if_true]
    rw [skipWs_append _ _ (newlineAt_ws 1)]
    obtain ⟨t, ht⟩ := encodeInfos_head m2 ms (ws ++ Char.ofNat 93 :: rest)
    rw [ht, skipWs_cons _ _ (by decide), ← ht,
      readElems_encodeInfos ms m2 (g + 7) ws rest hws (by simp at hf; omega)]
    rfl

/-- Every object takes up at least nine characters. -/
theorem encodeInfos_length : ∀ ms : List modInfo,
    ms.length * 9 ≤ (encodeInfos [] (Repeat " " 4).data ms).length
  | [] => by simp
  | [m] => by
    simp only [encodeInfos, encodeInfo, encodeMember, encodeString, newlineAt,
      List.length_append, List.length_cons, List.length_nil, List.length_singleton]
    omega
  | m :: m2 :: ms => by
    have ih := encodeInfos_length (m2 :: ms)
    rw [encodeInfos]
    simp only [encodeInfo, encodeMember, encodeString, newlineAt,
      List.length_append, List.length_cons, List.length_nil, List.length_singleton] at ih ⊢
    omega

/-- What the JSON renderer writes for a list of `modInfo` reads back as the
array of their objects. -/
theorem parse_MarshalIndent (infos : List modInfo) :
    ∃ output, MarshalIndent infos "" (Repeat " " 4) = .ok output ∧
      parse (Println output) = some (.array (infos.map infoJSON)) := by
  cases infos with
  | nil => exact ⟨"[]", rfl, rfl⟩
  | cons m ms =>
    refine ⟨_, rfl, ?_⟩
    have hlen := encodeInfos_length (m :: ms)
    simp only [parse, Println, String.length, String.data_append, List.append_assoc,
      List.singleton_append, List.cons_append, List.nil_append]
    rw [skipWs_cons _ _ (by decide), readValue,
      if_neg (by rw [toNat_ofNat_small 91 (by decide)]; decide),
      if_pos (by rw [toNat_ofNat_small 91 (by decide)]; rfl)]
    rw [skipWs_append _ _ (newlineAt_ws 1)]
    obtain ⟨t, ht⟩ := encodeInfos_head m ms
      (newlineAt [] (Repeat " " 4).data 0 ++ [Char.ofNat 93, Char.ofNat 10])
    rw [ht, skipWs_cons _ _ (by decide)]
    simp only [toNat_ofNat_small 123 (by decide), show ((123 : Nat) == 93) = false by decide,
      Bool.false_eq_true, if_false]
    rw [← ht, readElems_encodeInfos ms m _ _ _ (newlineAt_ws 0)
      (by simp only [List.length_cons, List.length_append] at hlen ⊢; omega)]
    simp only []
    rw [if_pos (by decide)]

/-- The list `modInfos` has one entry per record, in order. -/
theorem buildInfos_length (L : GoLib) : ∀ (ms : List Mod) (n : Nat),
    (buildInfos L n ms).length = ms.length
  | [], _ => rfl
  | _ :: ms, n => by simp [buildInfos, buildInfos_length L ms (n + 1)]

/-- The `i`-th entry of `modInfos` is built from the `i`-th record. -/
theorem buildInfos_getElem? (L : GoLib) : ∀ (ms : List Mod) (n i : Nat),
    (buildInfos L n ms)[i]? = ms[i]?.map (modInfoOf L (n + i))
  | [], _, _ => by simp [buildInfos]
  | m :: ms, n, 0 => by simp [buildInfos]
  | m :: ms, n, i + 1 => by
    simp only [buildInfos, List.getElem?_cons_succ, buildInfos_getElem? L ms (n + 1) i]
    rw [show n + 1 + i = n + (i + 1) by omega]

/-- C10. JSON derived records and round trip: for every sequence `ms` of
records handed to the render branch with `json` set, the text written parses
as a JSON document to an array whose length is the length of `ms` and whose
`i`-th element is an object with `name = ms[i].Name`,
`fileName = ms[i].FileName`, `downloadUrl = ms[i].Download.URL` (the empty
string when there is none) and `slug` the slug derived from `ms[i]`, in the
order of `ms`. -/
theorem json_round_trip (L : GoLib) (v : Viper) (ms : List Mod) (hj : v.json = true) :
    ∃ objs, parse (printMods L v ms).stdout = some (.array objs) ∧
      objs.length = ms.length ∧
      ∀ (i : Nat) (h : i < ms.length), ∃ o, objs[i]? = some o ∧
        o.field? "name" = some ms[i].Name ∧
        o.field? "fileName" = some ms[i].FileName ∧
        o.field? "downloadUrl" = some ms[i].Download.URL ∧
        o.field? "slug" = some (slugOf ms[i]) := by
  obtain ⟨output, hout, hparse⟩ := parse_MarshalIndent (buildInfos L 0 ms)
  refine ⟨(buildInfos L 0 ms).map infoJSON, ?_, ?_, ?_⟩
  · simp only [printMods, hj, if_true, hout]
    exact hparse
  · rw [List.length_map, buildInfos_length]
  · intro i h
    refine ⟨infoJSON (modInfoOf L (0 + i) ms[i]), ?_, rfl, rfl, rfl, rfl⟩
    rw [List.getElem?_map, buildInfos_getElem?, List.getElem?_eq_getElem h]
    rfl

/-- C10 at a concrete input: two records, the second with characters the
encoder escapes. -/
theorem json_round_trip_witness :
    ∃ objs, parse (printMods goLib ⟨none, true, false⟩ sampleMods).stdout
        = some (.array objs) ∧
      objs.length = sampleMods.length ∧
      ∀ (i : Nat) (h : i < sampleMods.length), ∃ o, objs[i]? = some o ∧
        o.field? "name" = some sampleMods[i].Name ∧
        o.field? "fileName" = some sampleMods[i].FileName ∧
        o.field? "downloadUrl" = some sampleMods[i].Download.URL ∧
        o.field? "slug" = some (slugOf sampleMods[i]) :=
  json_round_trip goLib ⟨none, true, false⟩ sampleMods rfl

/-! ### The source field -/

/-- Joining no string gives the empty string, joining one gives that string. -/
theorem Join_short (keys : List String) (sep : String) (h : keys.length ≤ 1) :
    Join keys sep = match keys with
      | [] => ""
      | k :: _ => k := by
  match keys, h with
  | [], _ => rfl
  | [_], _ => rfl

/-- A rearrangement of at most one key is the same list. -/
theorem perm_short {order keys : List String} (hp : order.Perm keys) (h : keys.length ≤ 1) :
    order = keys := by
  match keys, h with
  | [], _ => exact List.Perm.eq_nil hp
  | [k], _ => exact List.perm_singleton.mp hp

/-! ### The universal filter and the exit status -/

/-- With the side `both` every record satisfies the loop condition. -/
theorem sideKeeps_universal (mod : Mod) : sideKeeps UniversalSide mod = true := by
  simp [sideKeeps]

/-- The render branches do not read the side filter. -/
theorem printMods_side (L : GoLib) (side side2 : Option String) (json version : Bool)
    (ms : List Mod) :
    printMods L ⟨side, json, version⟩ ms = printMods L ⟨side2, json, version⟩ ms := rfl

/-- C12. Universal filter is a no-op: for every input list, filtering with
side `both` keeps every record in its original order, so the run with side
`both` has the same outcome (the same text written) as the run with the side
filter unset. -/
theorem universal_filter_noop {Pack Index : Type} (L : GoLib) (ld : Loaders Pack Index)
    (json version : Bool) (mods : List Mod) :
    filterBySide L ⟨some "both", json, version⟩ mods = .ok mods ∧
      listedMods L ⟨some "both", json, version⟩ mods = listedMods L ⟨none, json, version⟩ mods ∧
      Run L ld ⟨some "both", json, version⟩ = Run L ld ⟨none, json, version⟩ := by
  have hf : ∀ ms : List Mod, filterBySide L ⟨some "both", json, version⟩ ms = .ok ms := by
    intro ms
    rw [filterBySide_some L _ "both" ms rfl (Or.inr (Or.inr rfl))]
    congr 1
    exact List.filter_eq_self.mpr (fun m _ => sideKeeps_universal m)
  have hl : ∀ ms : List Mod, listedMods L ⟨some "both", json, version⟩ ms
      = listedMods L ⟨none, json, version⟩ ms := by
    intro ms
    simp only [listedMods, hf ms]
    rfl
  refine ⟨hf mods, hl mods, ?_⟩
  unfold Run
  cases ld.LoadPack with
  | error e => rfl
  | ok pack =>
    simp only []
    cases ld.LoadIndex pack with
    | error e => rfl
    | ok index =>
      simp only []
      cases ld.LoadAllMods index with
      | error e => rfl
      | ok ms =>
        simp only [hl ms]
        cases listedMods L ⟨none, json, version⟩ ms with
        | error e => rfl
        | ok out => exact printMods_side L _ _ json version out

/-- The run is the run with `json.MarshalIndent` as the serializer. -/
theorem Run_eq_RunWith {Pack Index : Type} (L : GoLib) (ld : Loaders Pack Index) (v : Viper) :
    Run L ld v = RunWith MarshalIndent L ld v := rfl

/-- A render branch returns normally, whatever the serializer does. -/
theorem printModsWith_status
    (marshal : List modInfo → String → String → Except String String)
    (L : GoLib) (v : Viper) (ms : List Mod) :
    (printModsWith marshal L v ms).status = 0 := by
  unfold printModsWith
  split
  · simp only []
    split <;> rfl
  · split <;> rfl

/-- When the three loaders succeed the run is the filter, the sort and the
render branch, whatever the serializer. -/
theorem RunWith_of_loaded {Pack Index : Type}
    (marshal : List modInfo → String → String → Except String String)
    (L : GoLib) (ld : Loaders Pack Index) (v : Viper)
    (pack : Pack) (index : Index) (mods : List Mod)
    (h1 : ld.LoadPack = .ok pack) (h2 : ld.LoadIndex pack = .ok index)
    (h3 : ld.LoadAllMods index = .ok mods) :
    RunWith marshal L ld v =
      match listedMods L v mods with
      | .error out => ⟨out, 1, []⟩
      | .ok ms => printModsWith marshal L v ms := by
  simp [RunWith, h1, h2, h3]

/-- The filter and sort step exits exactly when the side is set to a value
that is not recognised. -/
theorem listedMods_cases (L : GoLib) (v : Viper) (mods : List Mod) :
    (sideAccepted v ∧ ∃ out, listedMods L v mods = .ok out) ∨
      (∃ s, v.side = some s ∧ ¬ (s = "client" ∨ s = "server" ∨ s = "both") ∧
        listedMods L v mods = .error (invalidSideMessage L s)) := by
  cases hside : v.side with
  | none => exact Or.inl ⟨Or.inl hside, _, listedMods_accepted L v mods (Or.inl hside)⟩
  | some s =>
    by_cases hs : s = "client" ∨ s = "server" ∨ s = "both"
    · have hacc : sideAccepted v := by
        rcases hs with h | h | h <;> subst h
        · exact Or.inr (Or.inl hside)
        · exact Or.inr (Or.inr (Or.inl hside))
        · exact Or.inr (Or.inr (Or.inr hside))
      exact Or.inl ⟨hacc, _, listedMods_accepted L v mods hacc⟩
    · refine Or.inr ⟨s, rfl, hs, ?_⟩
      simp only [listedMods, filterBySide_invalid L v s mods hside hs]

/-- An accepted side filter is not set to an unrecognised value. -/
theorem sideAccepted_valid (v : Viper) (hv : sideAccepted v) (s : String)
    (hs : v.side = some s) : s = "client" ∨ s = "server" ∨ s = "both" := by
  rcases hv with h | h | h | h <;> rw [h] at hs
  · exact absurd hs (by simp)
  · exact Or.inl (Option.some.inj hs).symm
  · exact Or.inr (Or.inl (Option.some.inj hs).symm)
  · exact Or.inr (Or.inr (Option.some.inj hs).symm)

/-- C13. Exit status: whatever the serializer does, the run ends with a
non-zero status (which is then 1) if and only if the pack load fails, or the
index load fails, or the mod load fails, or the side is set to a value other
than `client`, `server`, `both`; in every other case, a failure of the
serializer included, it returns normally with status 0.  On a loader failure
the error is printed and no render branch is entered. -/
theorem exit_status {Pack Index : Type}
    (marshal : List modInfo → String → String → Except String String)
    (L : GoLib) (ld : Loaders Pack Index) (v : Viper) :
    ((RunWith marshal L ld v).status ≠ 0 ↔
        ((∃ e, ld.LoadPack = .error e) ∨
          (∃ pack e, ld.LoadPack = .ok pack ∧ ld.LoadIndex pack = .error e) ∨
          (∃ pack index e, ld.LoadPack = .ok pack ∧ ld.LoadIndex pack = .ok index ∧
            ld.LoadAllMods index = .error e) ∨
          (∃ pack index mods s, ld.LoadPack = .ok pack ∧ ld.LoadIndex pack = .ok index ∧
            ld.LoadAllMods index = .ok mods ∧ v.side = some s ∧
            ¬ (s = "client" ∨ s = "server" ∨ s = "both")))) ∧
      ((RunWith marshal L ld v).status = 0 ∨ (RunWith marshal L ld v).status = 1) ∧
      (((∃ e, ld.LoadPack = .error e) ∨
          (∃ pack e, ld.LoadPack = .ok pack ∧ ld.LoadIndex pack = .error e) ∨
          (∃ pack index e, ld.LoadPack = .ok pack ∧ ld.LoadIndex pack = .ok index ∧
            ld.LoadAllMods index = .error e)) →
        ∃ e, RunWith marshal L ld v = ⟨Println e, 1, []⟩) ∧
      (∀ pack index mods out e, ld.LoadPack = .ok pack → ld.LoadIndex pack = .ok index →
        ld.LoadAllMods index = .ok mods → listedMods L v mods = .ok out → v.json = true →
        marshal (buildInfos L 0 out) "" (Repeat " " 4) = .error e →
        RunWith marshal L ld v = ⟨Println "Error outputting json", 0, [.json]⟩) ∧
      Run L ld v = RunWith MarshalIndent L ld v := by
  refine ⟨?_, ?_, ?_, ?_, rfl⟩
  · cases h1 : ld.LoadPack with
    | error e =>
      have hrun : RunWith marshal L ld v = ⟨Println e, 1, []⟩ := by simp [RunWith, h1]
      rw [hrun]
      exact ⟨fun _ => Or.inl ⟨e, rfl⟩, fun _ => by simp⟩
    | ok pack =>
      cases h2 : ld.LoadIndex pack with
      | error e =>
        have hrun : RunWith marshal L ld v = ⟨Println e, 1, []⟩ := by simp [RunWith, h1, h2]
        rw [hrun]
        exact ⟨fun _ => Or.inr (Or.inl ⟨pack, e, rfl, h2⟩), fun _ => by simp⟩
      | ok index =>
        cases h3 : ld.LoadAllMods index with
        | error e =>
          have hrun : RunWith marshal L ld v = ⟨Println e, 1, []⟩ := by
            simp [RunWith, h1, h2, h3]
          rw [hrun]
          exact ⟨fun _ => Or.inr (Or.inr (Or.inl ⟨pack, index, e, rfl, h2, h3⟩)),
            fun _ => by simp⟩
        | ok mods =>
          rw [RunWith_of_loaded marshal L ld v pack index mods h1 h2 h3]
          rcases listedMods_cases L v mods with ⟨hacc, out, hout⟩ | ⟨s, hs, hinv, hout⟩
          · rw [hout]
            simp only [printModsWith_status, ne_eq, not_true_eq_false, false_iff]
            rintro (⟨e, he⟩ | ⟨p, e, hp, he⟩ | ⟨p, i, e, hp, hi, he⟩ | ⟨p, i, m, s, hp, hi, hm, hs, hinv⟩)
            · cases he
            · cases hp; rw [h2] at he; cases he
            · cases hp; rw [h2] at hi; cases hi; rw [h3] at he; cases he
            · exact hinv (sideAccepted_valid v hacc s hs)
          · rw [hout]
            exact ⟨fun _ => Or.inr (Or.inr (Or.inr ⟨pack, index, mods, s, rfl, h2, h3, hs, hinv⟩)),
              fun _ => by simp⟩
  · cases h1 : ld.LoadPack with
    | error e => right; simp [RunWith, h1]
    | ok pack =>
      cases h2 : ld.LoadIndex pack with
      | error e => right; simp [RunWith, h1, h2]
      | ok index =>
        cases h3 : ld.LoadAllMods index with
        | error e => right; simp [RunWith, h1, h2, h3]
        | ok mods =>
          rw [RunWith_of_loaded marshal L ld v pack index mods h1 h2 h3]
          cases listedMods L v mods with
          | error out => right; rfl
          | ok out => left; exact printModsWith_status marshal L v out
  · rintro (⟨e, he⟩ | ⟨p, e, hp, he⟩ | ⟨p, i, e, hp, hi, he⟩)
    · exact ⟨e, by simp [RunWith, he]⟩
    · exact ⟨e, by simp [RunWith, hp, he]⟩
    · exact ⟨e, by simp [RunWith, hp, hi, he]⟩
  · intro pack index mods out e h1 h2 h3 hout hj hm
    rw [RunWith_of_loaded marshal L ld v pack index mods h1 h2 h3, hout]
    simp only [printModsWith, hj, if_true, hm]

/-- C13 at a concrete input: a serializer that always fails, the two sample
records, the side value `Client`. -/
theorem exit_status_witness :
    ((RunWith failingMarshal goLib (loaded sampleMods) ⟨some "Client", true, false⟩).status ≠ 0 ↔
        ((∃ e, (loaded sampleMods).LoadPack = .error e) ∨
          (∃ pack e, (loaded sampleMods).LoadPack = .ok pack ∧
            (loaded sampleMods).LoadIndex pack = .error e) ∨
          (∃ pack index e, (loaded sampleMods).LoadPack = .ok pack ∧
            (loaded sampleMods).LoadIndex pack = .ok index ∧
            (loaded sampleMods).LoadAllMods index = .error e) ∨
          (∃ pack index mods s, (loaded sampleMods).LoadPack = .ok pack ∧
            (loaded sampleMods).LoadIndex pack = .ok index ∧
            (loaded sampleMods).LoadAllMods index = .ok mods ∧
            (⟨some "Client", true, false⟩ : Viper).side = some s ∧
            ¬ (s = "client" ∨ s = "server" ∨ s = "both")))) ∧
      ((RunWith failingMarshal goLib (loaded sampleMods) ⟨some "Client", true, false⟩).status = 0 ∨
        (RunWith failingMarshal goLib (loaded sampleMods) ⟨some "Client", true, false⟩).status
          = 1) ∧
      (((∃ e, (loaded sampleMods).LoadPack = .error e) ∨
          (∃ pack e, (loaded sampleMods).LoadPack = .ok pack ∧
            (loaded sampleMods).LoadIndex pack = .error e) ∨
          (∃ pack index e, (loaded sampleMods).LoadPack = .ok pack ∧
            (loaded sampleMods).LoadIndex pack = .ok index ∧
            (loaded sampleMods).LoadAllMods index = .error e)) →
        ∃ e, RunWith failingMarshal goLib (loaded sampleMods) ⟨some "Client", true, false⟩
          = ⟨Println e, 1, []⟩) ∧
      (∀ pack index mods out e, (loaded sampleMods).LoadPack = .ok pack →
        (loaded sampleMods).LoadIndex pack = .ok index →
        (loaded sampleMods).LoadAllMods index = .ok mods →
        listedMods goLib ⟨some "Client", true, false⟩ mods = .ok out →
        (⟨some "Client", true, false⟩ : Viper).json = true →
        failingMarshal (buildInfos goLib 0 out) "" (Repeat " " 4) = .error e →
        RunWith failingMarshal goLib (loaded sampleMods) ⟨some "Client", true, false⟩
          = ⟨Println "Error outputting json", 0, [.json]⟩) ∧
      Run goLib (loaded sampleMods) ⟨some "Client", true, false⟩
        = RunWith MarshalIndent goLib (loaded sampleMods) ⟨some "Client", true, false⟩ :=
  exit_status failingMarshal goLib (loaded sampleMods) ⟨some "Client", true, false⟩

/-! ### Records are read and re-ordered -/

/-- The records that pass the filter are a sub-sequence of the input. -/
theorem keptBySide_sublist (v : Viper) (mods : List Mod) :
    (keptBySide v mods).Sublist mods := by
  unfold keptBySide
  split
  · exact List.Sublist.refl _
  · exact List.filter_sublist _

/-- C14. Records are only read and re-ordered: for every input list and every
valid or unset side filter, with a `sort.Slice` that keeps its contract, the
sequence handed to the render branch is a permutation of the sub-sequence of
input records that pass the filter: every record in it is a record of the
input, and each passing record occurs in it as often as among the passing
records, none dropped and none duplicated. -/
theorem records_reordered (L : GoLib) (hL : SliceContract L.Slice) (v : Viper)
    (mods : List Mod) (hv : sideAccepted v) :
    ∃ out, listedMods L v mods = .ok out ∧
      Run L (loaded mods) v = printMods L v out ∧
      out.Perm (keptBySide v mods) ∧
      (keptBySide v mods).Sublist mods ∧
      (∀ r, r ∈ out → r ∈ mods) ∧
      (∀ r, out.count r = (keptBySide v mods).count r) ∧
      out.length = (keptBySide v mods).length := by
  have hl := listedMods_accepted L v mods hv
  have hp := hL.perm (nameLess L) (keptBySide v mods) (nameLess_strictWeak L)
  refine ⟨_, hl, ?_, hp, keptBySide_sublist v mods, ?_, fun r => hp.count_eq r, hp.length_eq⟩
  · rw [Run_of_loaded L (loaded mods) v () () mods rfl rfl rfl, hl]
  · intro r hr
    exact (keptBySide_sublist v mods).subset (hp.subset hr)

/-- C14 at a concrete input: three records under the filter `client`, sorted
by insertion. -/
theorem records_reordered_witness :
    ∃ out, listedMods insertionLib ⟨some "client", false, false⟩
        [modNamed "Zeta" "client", modNamed "beta" "server", modNamed "alpha" ""] = .ok out ∧
      Run insertionLib
          (loaded [modNamed "Zeta" "client", modNamed "beta" "server", modNamed "alpha" ""])
          ⟨some "client", false, false⟩
        = printMods insertionLib ⟨some "client", false, false⟩ out ∧
      out.Perm (keptBySide ⟨some "client", false, false⟩
        [modNamed "Zeta" "client", modNamed "beta" "server", modNamed "alpha" ""]) ∧
      (keptBySide ⟨some "client", false, false⟩
        [modNamed "Zeta" "client", modNamed "beta" "server", modNamed "alpha" ""]).Sublist
        [modNamed "Zeta" "client", modNamed "beta" "server", modNamed "alpha" ""] ∧
      (∀ r, r ∈ out →
        r ∈ [modNamed "Zeta" "client", modNamed "beta" "server", modNamed "alpha" ""]) ∧
      (∀ r, out.count r = (keptBySide ⟨some "client", false, false⟩
        [modNamed "Zeta" "client", modNamed "beta" "server", modNamed "alpha" ""]).count r) ∧
      out.length = (keptBySide ⟨some "client", false, false⟩
        [modNamed "Zeta" "client", modNamed "beta" "server", modNamed "alpha" ""]).length :=
  records_reordered insertionLib insertionLib_contract ⟨some "client", false, false⟩ _
    (Or.inr (Or.inl rfl))

/-! ### Serialization -/

/-- C16. Unreachable serialization error: for every sequence of records and
with `json` set, serializing the derived `modInfo` list succeeds, so the
branch that prints `Error outputting json` is not taken: the text written is
the serialized document followed by a newline, it is not the error line, and
it reads back as a JSON document. -/
theorem serialization_succeeds (L : GoLib) (v : Viper) (ms : List Mod) (hj : v.json = true) :
    ∃ output, MarshalIndent (buildInfos L 0 ms) "" (Repeat " " 4) = .ok output ∧
      printMods L v ms = ⟨Println output, 0, [.json]⟩ ∧
      (printMods L v ms).stdout ≠ Println "Error outputting json" ∧
      (parse (printMods L v ms).stdout).isSome = true := by
  obtain ⟨output, hout, hparse⟩ := parse_MarshalIndent (buildInfos L 0 ms)
  have hrun : printMods L v ms = ⟨Println output, 0, [.json]⟩ := by
    simp only [printMods, hj, if_true, hout]
  refine ⟨output, hout, hrun, ?_, ?_⟩
  · rw [hrun]
    intro h
    have hnone : parse (Println "Error outputting json") = none := rfl
    simp only [] at h
    rw [h, hnone] at hparse
    exact absurd hparse (by simp)
  · rw [hrun]
    simp only []
    rw [hparse]
    rfl

/-- C16 at a concrete input: the two sample records. -/
theorem serialization_succeeds_witness :
    ∃ output, MarshalIndent (buildInfos goLib 0 sampleMods) "" (Repeat " " 4) = .ok output ∧
      printMods goLib ⟨none, true, false⟩ sampleMods = ⟨Println output, 0, [.json]⟩ ∧
      (printMods goLib ⟨none, true, false⟩ sampleMods).stdout
        ≠ Println "Error outputting json" ∧
      (parse (printMods goLib ⟨none, true, false⟩ sampleMods).stdout).isSome = true :=
  serialization_succeeds goLib ⟨none, true, false⟩ sampleMods rfl

/-- C18. Empty JSON result: when the loaders succeed, the side filter is
valid or unset, `json` is set and no record passes the filter (an empty input
included), with a `sort.Slice` that keeps its contract the run writes exactly
`[]` followed by a newline: an empty array, not `null` and not the empty
text. -/
theorem empty_json {Pack Index : Type} (L : GoLib) (hL : SliceContract L.Slice)
    (ld : Loaders Pack Index) (v : Viper) (pack : Pack) (index : Index) (mods : List Mod)
    (h1 : ld.LoadPack = .ok pack) (h2 : ld.LoadIndex pack = .ok index)
    (h3 : ld.LoadAllMods index = .ok mods) (hv : sideAccepted v) (hj : v.json = true)
    (hk : keptBySide v mods = []) :
    Run L ld v = ⟨"[]\n", 0, [.json]⟩ ∧
      (Run L ld v).stdout ≠ "null\n" ∧
      (Run L ld v).stdout ≠ "" ∧
      parse (Run L ld v).stdout = some (.array []) := by
  have hrun : Run L ld v = ⟨"[]\n", 0, [.json]⟩ := by
    rw [Run_of_loaded L ld v pack index mods h1 h2 h3, listedMods_accepted L v mods hv, hk]
    have hnil : L.Slice (nameLess L) [] = [] :=
      List.Perm.eq_nil (hL.perm (nameLess L) [] (nameLess_strictWeak L))
    simp only [hnil, printMods, hj, if_true, buildInfos, MarshalIndent]
    rfl
  rw [hrun]
  exact ⟨rfl, by decide, by decide, rfl⟩

/-- C18 at a concrete input: one client record under the filter `server`. -/
theorem empty_json_witness :
    Run insertionLib (loaded [modNamed "Zeta" "client"]) ⟨some "server", true, false⟩
        = ⟨"[]\n", 0, [.json]⟩ ∧
      (Run insertionLib (loaded [modNamed "Zeta" "client"]) ⟨some "server", true, false⟩).stdout
        ≠ "null\n" ∧
      (Run insertionLib (loaded [modNamed "Zeta" "client"]) ⟨some "server", true, false⟩).stdout
        ≠ "" ∧
      parse (Run insertionLib (loaded [modNamed "Zeta" "client"])
        ⟨some "server", true, false⟩).stdout = some (.array []) :=
  empty_json insertionLib insertionLib_contract (loaded [modNamed "Zeta" "client"])
    ⟨some "server", true, false⟩ () () [modNamed "Zeta" "client"] rfl rfl rfl
    (Or.inr (Or.inr (Or.inl rfl))) rfl (by decide)

/-! ### Occurrences of the suffix in the slug -/

/-- The function `strings.Index` finds no instance exactly when the text has none. -/
theorem Index_neg_iff (old : List Char) (hold : old ≠ []) :
    ∀ s : List Char, Index s old = -1 ↔ ¬ old <:+: s
  | [] => by
    have h0 : (old.length == 0) = false := by simp [hold]
    simp [Index, h0, hold]
  | c :: cs => by
    have ih := Index_neg_iff old hold cs
    have hge := Index_ge old cs
    rw [List.infix_cons_iff, not_or, ← hasPrefixChars_iff, ← ih]
    simp only [Index]
    split
    · rename_i hp
      simp [hp]
    · rename_i hp
      split
      · rename_i hr
        constructor
        · intro h; omega
        · rintro ⟨_, h⟩; omega
      · rename_i hr
        exact ⟨fun _ => ⟨hp, by omega⟩, fun _ => rfl⟩

/-- The scan never makes the text longer. -/
theorem removeScan_length (old : List Char) :
    ∀ (F : Nat) (s : List Char), (removeScan old F s).length ≤ s.length := by
  intro F
  induction F with
  | zero => intro s; exact le_refl _
  | succ F ih =>
    intro s
    cases s with
    | nil => exact le_refl _
    | cons c cs =>
      simp only [removeScan]
      split
      · have := ih ((c :: cs).drop old.length)
        simp only [List.length_drop] at this
        omega
      · have := ih cs
        simp only [List.length_cons]
        omega

/-- Removing the occurrences leaves a text unchanged exactly when it has none. -/
theorem removeOccurrences_eq_self_iff (old : List Char) (hold : old ≠ []) (s : List Char) :
    removeOccurrences old s = s ↔ ¬ old <:+: s := by
  rw [← Index_neg_iff old hold s]
  constructor
  · intro h
    by_contra hne
    have hge := Index_ge old s
    obtain ⟨j, hj⟩ : ∃ j : Nat, Index s old = (j : Int) := ⟨(Index s old).toNat, by omega⟩
    have hb := Index_bound old s j hj
    have hlen : 0 < old.length := List.length_pos.mpr hold
    have hsplit := removeScan_of_Index old hold s j s.length hj (le_refl _)
    have hl := removeScan_length old (s.drop (j + old.length)).length (s.drop (j + old.length))
    have hlen2 : (removeOccurrences old s).length < s.length := by
      unfold removeOccurrences
      rw [hsplit]
      simp only [List.length_append, List.length_take, List.length_drop] at hl ⊢
      omega
    rw [h] at hlen2
    exact absurd hlen2 (lt_irrefl _)
  · intro h
    exact removeScan_of_Index_neg old _ s h

/-- A stem without the first character of `old`, followed by `old`, is
reduced to the stem. -/
theorem removeScan_stem (d : Char) (old2 : List Char) :
    ∀ (stem : List Char) (F : Nat), d ∉ stem → (stem ++ d :: old2).length ≤ F →
      removeScan (d :: old2) F (stem ++ d :: old2) = stem
  | [], F, _, hF => by
    obtain ⟨G, rfl⟩ : ∃ G, F = G + 1 := ⟨F - 1, by simp at hF; omega⟩
    simp only [List.nil_append, removeScan, List.prefix_refl, if_true, List.length_cons,
      List.drop_succ_cons, List.drop_length]
    cases G <;> rfl
  | c :: stem, F, hd, hF => by
    obtain ⟨G, rfl⟩ : ∃ G, F = G + 1 := ⟨F - 1, by simp at hF; omega⟩
    have hc : c ≠ d := fun h => hd (h ▸ List.mem_cons_self _ _)
    have hpre : ¬ (d :: old2) <+: c :: (stem ++ d :: old2) := by
      intro h
      rw [List.cons_prefix_cons] at h
      exact hc h.1.symm
    show removeScan (d :: old2) (G + 1) (c :: (stem ++ d :: old2)) = c :: stem
    rw [removeScan, if_neg hpre,
      removeScan_stem d old2 stem G (fun h => hd (List.mem_cons_of_mem _ h))
        (by simp only [List.cons_append, List.length_cons] at hF; omega)]

/-- Replacing in a string is replacing in its characters. -/
theorem ReplaceAll_eq_self_iff (t : String) :
    ReplaceAll t ".pw.toml" "" = t ↔ removeOccurrences ".pw.toml".data t.data = t.data := by
  have h := Replace_eq_removeOccurrences ".pw.toml".data t.data (by decide)
  constructor
  · intro he
    rw [← h]
    exact congrArg String.data he
  · intro he
    apply String.ext
    show Replace t.data ".pw.toml".data [] (-1) = t.data
    rw [h, he]

/-- C15, refuted as stated: the path `mods/.pw.t.pw.tomloml` yields the slug
`.pw.toml`, which contains the suffix; removing the suffix from this slug
once more changes it (to the empty string). -/
theorem slug_suffix_counterexample :
    slugOf (modAt "mods/.pw.t.pw.tomloml") = ".pw.toml" ∧
      ".pw.toml".data <:+: (slugOf (modAt "mods/.pw.t.pw.tomloml")).data ∧
      ReplaceAll (slugOf (modAt "mods/.pw.t.pw.tomloml")) ".pw.toml" ""
        ≠ slugOf (modAt "mods/.pw.t.pw.tomloml") := by
  decide

/-! ### The in-place compaction -/

/-- The invariant of the filter loop on its iterations: while the write index
is not above the read position and the part of the array from the read
position on is still that of the input, every iteration has its write index
at or below the position read, and reads the record the input has there. -/
theorem filterLoopTrace_spec (side : String) :
    ∀ (n k i : Nat) (arr orig : List Mod), i ≤ k → arr.drop k = orig.drop k →
      ∀ t ∈ filterLoopTrace side n k i arr, t.2.1 ≤ t.1 ∧ orig[t.1]? = some t.2.2 := by
  intro n
  induction n with
  | zero => intro k i arr orig _ _ t ht; simp [filterLoopTrace] at ht
  | succ n ih =>
    intro k i arr orig hik hdrop t ht
    have hk : arr[k]? = orig[k]? := by
      have h1 : (arr.drop k)[0]? = arr[k]? := by rw [List.getElem?_drop]; rfl
      have h2 : (orig.drop k)[0]? = orig[k]? := by rw [List.getElem?_drop]; rfl
      rw [← h1, ← h2, hdrop]
    have hdrop1 : arr.drop (k + 1) = orig.drop (k + 1) := by
      rw [← List.drop_drop 1 k arr, ← List.drop_drop 1 k orig, hdrop]
    rw [filterLoopTrace] at ht
    cases hget : arr[k]? with
    | none => simp [hget] at ht
    | some mod =>
      rw [hget] at ht
      simp only at ht
      have hhead : i ≤ k ∧ orig[k]? = some mod := ⟨hik, by rw [← hk, hget]⟩
      split at ht
      · rcases List.mem_cons.mp ht with h | h
        · subst h; exact hhead
        · refine ih (k + 1) (i + 1) (arr.set i mod) orig (by omega) ?_ t h
          rw [List.drop_set_of_lt _ _ (by omega), hdrop1]
      · rcases List.mem_cons.mp ht with h | h
        · subst h; exact hhead
        · exact ih (k + 1) i arr orig (by omega) hdrop1 t h

/-- The records read by the filter loop, in order, are the records of the
input from the starting position on. -/
theorem filterLoopTrace_reads (side : String) :
    ∀ (n k i : Nat) (arr orig : List Mod), i ≤ k → arr.drop k = orig.drop k →
      k + n = arr.length →
      (filterLoopTrace side n k i arr).map (fun t => (t.1, t.2.2))
        = (List.range' k n).zip (orig.drop k) := by
  intro n
  induction n with
  | zero => intro k i arr orig _ _ _; simp [filterLoopTrace]
  | succ n ih =>
    intro k i arr orig hik hdrop hlen
    have hlt : k < arr.length := by omega
    have hget : arr[k]? = some arr[k] := List.getElem?_eq_getElem hlt
    have hcons : arr.drop k = arr[k] :: arr.drop (k + 1) := List.drop_eq_getElem_cons hlt
    have hdrop1 : arr.drop (k + 1) = orig.drop (k + 1) := by
      rw [← List.drop_drop 1 k arr, ← List.drop_drop 1 k orig, hdrop]
    have horig : orig.drop k = arr[k] :: orig.drop (k + 1) := by
      rw [← hdrop, hcons, hdrop1]
    rw [filterLoopTrace, hget]
    simp only
    rw [horig, List.range'_succ, List.zip_cons_cons]
    split
    · rw [List.map_cons, ih (k + 1) (i + 1) (arr.set i arr[k]) orig (by omega)
        (by rw [List.drop_set_of_lt _ _ (by omega), hdrop1]) (by simp; omega)]
    · rw [List.map_cons, ih (k + 1) i arr orig (by omega) hdrop1 (by omega)]

/-- C17. In-place compaction equals a functional filter: for every input slice
and every recognised side `s`, the loop that writes the kept records back into
the slice it ranges over and then truncates to the write index yields exactly
the filter of the original input by the side condition, in the original
relative order.  At every iteration the write index is at or below the
position read, and the record read is the one the input has at that position:
the loop reads the positions `0, 1, ...` of the input in order, and no record
is overwritten before it is read. -/
theorem compaction_is_filter (L : GoLib) (v : Viper) (s : String) (mods : List Mod)
    (hv : v.side = some s)
    (hs : s = ClientSide ∨ s = ServerSide ∨ s = UniversalSide) :
    filterBySide L v mods = .ok (mods.filter (sideKeeps s)) ∧
      (filterLoop s mods.length 0 0 mods).1.take (filterLoop s mods.length 0 0 mods).2
        = mods.filter (sideKeeps s) ∧
      (∀ t ∈ filterLoopTrace s mods.length 0 0 mods,
        t.2.1 ≤ t.1 ∧ mods[t.1]? = some t.2.2) ∧
      (filterLoopTrace s mods.length 0 0 mods).map (fun t => (t.1, t.2.2))
        = (List.range mods.length).zip mods := by
  refine ⟨filterBySide_some L v s mods hv hs, ?_, ?_, ?_⟩
  · have h := filterLoop_take s mods.length 0 0 mods (le_refl 0) (by simp)
    simpa using h
  · exact filterLoopTrace_spec s mods.length 0 0 mods mods (le_refl 0) rfl
  · have h := filterLoopTrace_reads s mods.length 0 0 mods mods (le_refl 0) rfl (by simp)
    rw [h, List.drop_zero, List.range_eq_range']

/-- C17 at a concrete input: four records under the filter `server`. -/
theorem compaction_is_filter_witness :
    filterBySide goLib ⟨some "server", false, false⟩
        [modNamed "c" "client", modNamed "e" "", modNamed "u" "both", modNamed "s" "server"]
        = .ok (([modNamed "c" "client", modNamed "e" "", modNamed "u" "both",
            modNamed "s" "server"] : List Mod).filter (sideKeeps "server")) ∧
      (filterLoop "server" ([modNamed "c" "client", modNamed "e" "", modNamed "u" "both",
            modNamed "s" "server"] : List Mod).length 0 0
          [modNamed "c" "client", modNamed "e" "", modNamed "u" "both",
            modNamed "s" "server"]).1.take
        (filterLoop "server" ([modNamed "c" "client", modNamed "e" "", modNamed "u" "both",
            modNamed "s" "server"] : List Mod).length 0 0
          [modNamed "c" "client", modNamed "e" "", modNamed "u" "both",
            modNamed "s" "server"]).2
        = ([modNamed "c" "client", modNamed "e" "", modNamed "u" "both",
            modNamed "s" "server"] : List Mod).filter (sideKeeps "server") ∧
      (∀ t ∈ filterLoopTrace "server" ([modNamed "c" "client", modNamed "e" "",
            modNamed "u" "both", modNamed "s" "server"] : List Mod).length 0 0
          [modNamed "c" "client", modNamed "e" "", modNamed "u" "both", modNamed "s" "server"],
        t.2.1 ≤ t.1 ∧
          ([modNamed "c" "client", modNamed "e" "", modNamed "u" "both",
            modNamed "s" "server"] : List Mod)[t.1]? = some t.2.2) ∧
      (filterLoopTrace "server" ([modNamed "c" "client", modNamed "e" "",
            modNamed "u" "both", modNamed "s" "server"] : List Mod).length 0 0
          [modNamed "c" "client", modNamed "e" "", modNamed "u" "both",
            modNamed "s" "server"]).map (fun t => (t.1, t.2.2))
        = (List.range ([modNamed "c" "client", modNamed "e" "", modNamed "u" "both",
            modNamed "s" "server"] : List Mod).length).zip
          [modNamed "c" "client", modNamed "e" "", modNamed "u" "both", modNamed "s" "server"] :=
  compaction_is_filter goLib ⟨some "server", false, false⟩ "server" _ rfl (by decide)

/-! ### What each render branch writes -/

/-- C5. Renderer precedence and exclusivity: for every combination of the
`json` and `version` flags exactly one render branch runs and the text written
is that branch's text alone.  With `json` set, whatever `version` is, it is
the JSON document followed by a newline (a text that reads back as the array
of the records' objects); with only `version` set it is one line
`Name (FileName)` per record; with neither set it is one line `Name` per
record.  On the two sample records these three texts are pairwise different. -/
theorem renderer_precedence (L : GoLib) (side : Option String) (ms : List Mod) :
    (∀ version, ∃ output, MarshalIndent (buildInfos L 0 ms) "" (Repeat " " 4) = .ok output ∧
        printMods L ⟨side, true, version⟩ ms = ⟨output ++ "\n", 0, [Renderer.json]⟩ ∧
        parse (output ++ "\n") = some (.array ((buildInfos L 0 ms).map infoJSON))) ∧
      printMods L ⟨side, false, true⟩ ms
        = ⟨String.join (ms.map fun m => m.Name ++ " (" ++ m.FileName ++ ")\n"),
            0, [Renderer.versioned]⟩ ∧
      printMods L ⟨side, false, false⟩ ms
        = ⟨String.join (ms.map fun m => m.Name ++ "\n"), 0, [Renderer.plain]⟩ ∧
      (∀ v : Viper, (printMods L v ms).ran.length = 1) ∧
      (printMods goLib ⟨none, true, true⟩ sampleMods).stdout
        ≠ (printMods goLib ⟨none, false, true⟩ sampleMods).stdout ∧
      (printMods goLib ⟨none, true, true⟩ sampleMods).stdout
        ≠ (printMods goLib ⟨none, false, false⟩ sampleMods).stdout ∧
      (printMods goLib ⟨none, false, true⟩ sampleMods).stdout
        ≠ (printMods goLib ⟨none, false, false⟩ sampleMods).stdout := by
  refine ⟨fun version => ?_, ?_, ?_, fun v => by rw [printMods_ran]; rfl,
    by decide, by decide, by decide⟩
  · obtain ⟨output, hout, hparse⟩ := parse_MarshalIndent (buildInfos L 0 ms)
    refine ⟨output, hout, ?_, hparse⟩
    simp only [printMods, if_true, hout]
    rfl
  · simp only [printMods, Bool.false_eq_true, if_false, if_true]
    rw [foldl_lines (fun m => m.Name ++ " (" ++ m.FileName ++ ")\n")]
  · simp only [printMods, Bool.false_eq_true, if_false]
    rw [foldl_lines (fun m => Println m.Name)]
    rfl

/-! ### The text of the source field -/

/-- The accumulator of `String.intercalate` can be split off. -/
theorem intercalate_go_append (sep : String) :
    ∀ (l : List String) (acc a : String),
      String.intercalate.go (acc ++ a) sep l = acc ++ String.intercalate.go a sep l
  | [], _, _ => rfl
  | b :: l, acc, a => by
    simp only [String.intercalate.go]
    rw [String.append_assoc acc a sep, String.append_assoc acc (a ++ sep) b,
      intercalate_go_append sep l acc (a ++ sep ++ b)]

/-- The function `strings.Join` puts the separator between consecutive elements. -/
theorem Join_eq_intercalate (sep : String) : ∀ l : List String, Join l sep = sep.intercalate l
  | [] => rfl
  | [_] => rfl
  | a :: b :: rest => by
    have ih := Join_eq_intercalate sep (b :: rest)
    simp only [String.intercalate] at ih ⊢
    rw [Join, ih, String.intercalate.go, intercalate_go_append]

/-- A rearrangement of two keys is one of the two orders. -/
theorem perm_two {order : List String} {k1 k2 : String} (hp : order.Perm [k1, k2]) :
    order = [k1, k2] ∨ order = [k2, k1] := by
  match order, hp.length_eq with
  | [a, b], _ =>
    have ha : a ∈ [k1, k2] := hp.subset (List.mem_cons_self _ _)
    simp only [List.mem_cons, List.mem_singleton, List.not_mem_nil, or_false] at ha
    rcases ha with ha | ha
    · subst ha
      left
      rw [List.perm_singleton.mp ((List.perm_cons a).mp hp)]
    · subst ha
      right
      have h2 : (a :: [b]).Perm (a :: [k1]) := hp.trans (List.Perm.swap a k1 [])
      rw [List.perm_singleton.mp ((List.perm_cons a).mp h2)]

/-- C11. Source field: with `json` set and a map iteration that yields every
key once, the `source` member of the `i`-th object of the text written is the
keys of the `i`-th record's `Update`, in some order that lists the same keys
(each key once when the keys are distinct), with a comma and a space between
consecutive keys.  It is the empty string when `Update` has no key, the key
itself when it has one, and for two keys `k1`, `k2` one of `k1, k2` and
`k2, k1`; with at most one key it is fixed by `Update` alone. -/
theorem source_field (L : GoLib) (hR : RangeContract L.rangeKeys) (v : Viper) (ms : List Mod)
    (hj : v.json = true) :
    ∃ objs, parse (printMods L v ms).stdout = some (.array objs) ∧
      ∀ (i : Nat) (h : i < ms.length), ∃ o order, objs[i]? = some o ∧
        order.Perm ms[i].Update ∧
        (ms[i].Update.Nodup → ∀ k ∈ ms[i].Update, order.count k = 1) ∧
        o.field? "source" = some (", ".intercalate order) ∧
        (ms[i].Update = [] → o.field? "source" = some "") ∧
        (∀ k, ms[i].Update = [k] → o.field? "source" = some k) ∧
        (∀ k1 k2, ms[i].Update = [k1, k2] →
          o.field? "source" = some (k1 ++ ", " ++ k2) ∨
          o.field? "source" = some (k2 ++ ", " ++ k1)) ∧
        (ms[i].Update.length ≤ 1 →
          o.field? "source" = some (", ".intercalate ms[i].Update)) := by
  obtain ⟨output, hout, hparse⟩ := parse_MarshalIndent (buildInfos L 0 ms)
  refine ⟨(buildInfos L 0 ms).map infoJSON, ?_, ?_⟩
  · simp only [printMods, hj, if_true, hout]
    exact hparse
  · intro i h
    have hp := hR (0 + i) ms[i].Update
    have hf : (infoJSON (modInfoOf L (0 + i) ms[i])).field? "source"
        = some (", ".intercalate (L.rangeKeys (0 + i) ms[i].Update)) := by
      rw [← Join_eq_intercalate]
      rfl
    refine ⟨infoJSON (modInfoOf L (0 + i) ms[i]), L.rangeKeys (0 + i) ms[i].Update,
      ?_, hp, ?_, hf, ?_, ?_, ?_, ?_⟩
    · rw [List.getElem?_map, buildInfos_getElem?, List.getElem?_eq_getElem h]
      rfl
    · intro hnd k hk
      rw [hp.count_eq]
      exact List.count_eq_one_of_mem hnd hk
    · intro he
      rw [hf, perm_short hp (by rw [he]; decide), he]
      rfl
    · intro k he
      rw [hf, perm_short hp (by rw [he]; exact le_refl 1), he]
      rfl
    · intro k1 k2 he
      have hp2 : (L.rangeKeys (0 + i) [k1, k2]).Perm [k1, k2] := he ▸ hp
      rw [hf, he]
      rcases perm_two hp2 with h2 | h2
      · left; rw [h2]; rfl
      · right; rw [h2]; rfl
    · intro hle
      rw [hf, perm_short hp hle]

/-- C11 at a concrete input: a record with the two keys `modrinth` and
`curseforge` and a record without key, with a map iteration in reverse
listing order. -/
theorem source_field_witness :
    ∃ objs, parse (printMods reverseLib ⟨none, true, false⟩ sampleKeyed).stdout
        = some (.array objs) ∧
      ∀ (i : Nat) (h : i < sampleKeyed.length), ∃ o order, objs[i]? = some o ∧
        order.Perm sampleKeyed[i].Update ∧
        (sampleKeyed[i].Update.Nodup → ∀ k ∈ sampleKeyed[i].Update, order.count k = 1) ∧
        o.field? "source" = some (", ".intercalate order) ∧
        (sampleKeyed[i].Update = [] → o.field? "source" = some "") ∧
        (∀ k, sampleKeyed[i].Update = [k] → o.field? "source" = some k) ∧
        (∀ k1 k2, sampleKeyed[i].Update = [k1, k2] →
          o.field? "source" = some (k1 ++ ", " ++ k2) ∨
          o.field? "source" = some (k2 ++ ", " ++ k1)) ∧
        (sampleKeyed[i].Update.length ≤ 1 →
          o.field? "source" = some (", ".intercalate sampleKeyed[i].Update)) :=
  source_field reverseLib (fun _ keys => List.reverse_perm keys) ⟨none, true, false⟩
    sampleKeyed rfl

/-! ### Where the suffix can remain in the slug -/

/-- At the position `strings.Index` returns, an instance starts. -/
theorem Index_prefix (old : List Char) :
    ∀ (s : List Char) (j : Nat), Index s old = (j : Int) → old <+: s.drop j
  | [], j => by
    simp only [Index]
    split
    · rename_i h0
      simp only [beq_iff_eq, List.length_eq_zero] at h0
      intro _
      rw [h0]
      exact List.nil_prefix
    · intro h; omega
  | c :: cs, j => by
    simp only [Index]
    split
    · rename_i hp
      intro h
      have hj : j = 0 := by omega
      subst hj
      exact (hasPrefixChars_iff _ _).mp hp
    · split
      · rename_i hr
        intro h
        obtain ⟨r, hr2⟩ : ∃ r : Nat, Index cs old = (r : Int) := ⟨(Index cs old).toNat, by omega⟩
        have hj : j = r + 1 := by omega
        subst hj
        exact Index_prefix old cs r hr2
      · intro h; omega

/-- Before the position `strings.Index` returns there is no instance. -/
theorem Index_take_free (old : List Char) (hold : old ≠ []) :
    ∀ (s : List Char) (j : Nat), Index s old = (j : Int) → ¬ old <:+: s.take j
  | [], j => by
    intro _ h
    simp only [List.take_nil] at h
    exact hold (List.infix_nil.mp h)
  | c :: cs, j => by
    simp only [Index]
    split
    · rename_i hp
      intro h hin
      have hj : j = 0 := by omega
      subst hj
      exact hold (List.infix_nil.mp hin)
    · rename_i hp
      split
      · rename_i hr
        intro h hin
        obtain ⟨r, hr2⟩ : ∃ r : Nat, Index cs old = (r : Int) := ⟨(Index cs old).toNat, by omega⟩
        have hj : j = r + 1 := by omega
        subst hj
        rw [List.take_succ_cons, List.infix_cons_iff] at hin
        rcases hin with hin | hin
        · apply hp
          rw [hasPrefixChars_iff]
          exact hin.trans ((List.prefix_cons_inj c).mpr (List.take_prefix r cs))
        · exact Index_take_free old hold cs r hr2 hin
      · intro h; omega

/-- Joining a piece and further pieces puts the separator after the piece. -/
theorem intercalate_cons_cons (sep t u : List Char) (rest : List (List Char)) :
    List.intercalate sep (t :: u :: rest) = t ++ sep ++ List.intercalate sep (u :: rest) := by
  simp [List.intercalate, List.intersperse]

/-- The scan for pieces always yields at least one piece. -/
theorem splitScan_ne_nil (old : List Char) : ∀ (F : Nat) (s : List Char), splitScan old F s ≠ []
  | 0, _ => by simp [splitScan]
  | F + 1, s => by
    rw [splitScan]
    split <;> simp

/-- The pieces, one after the other, are the text with the occurrences removed;
joined by `old` they are the text; and no piece contains `old`. -/
theorem splitScan_spec (old : List Char) (hold : old ≠ []) :
    ∀ (F : Nat) (s : List Char), s.length ≤ F →
      (splitScan old F s).flatten = removeOccurrences old s ∧
      List.intercalate old (splitScan old F s) = s ∧
      ∀ t ∈ splitScan old F s, ¬ old <:+: t := by
  intro F
  induction F with
  | zero =>
    intro s hs
    have : s = [] := List.length_eq_zero.mp (by omega)
    subst this
    refine ⟨rfl, rfl, ?_⟩
    intro t ht
    simp only [splitScan, List.mem_singleton] at ht
    subst ht
    exact fun h => hold (List.infix_nil.mp h)
  | succ F ih =>
    intro s hs
    have hge := Index_ge old s
    have hlen : 0 < old.length := List.length_pos.mpr hold
    rw [splitScan]
    split
    · rename_i hidx
      refine ⟨?_, by simp [List.intercalate, List.intersperse], ?_⟩
      · simp only [List.flatten_cons, List.flatten_nil, List.append_nil]
        exact (removeScan_of_Index_neg old _ s hidx).symm
      · intro t ht
        simp only [List.mem_singleton] at ht
        subst ht
        exact (Index_neg_iff old hold t).mp hidx
    · rename_i hidx
      obtain ⟨j, hj⟩ : ∃ j : Nat, Index s old = (j : Int) := ⟨(Index s old).toNat, by omega⟩
      have hb := Index_bound old s j hj
      simp only [hj, Int.toNat_ofNat]
      obtain ⟨h1, h2, h3⟩ := ih (s.drop (j + old.length))
        (by simp only [List.length_drop]; omega)
      refine ⟨?_, ?_, ?_⟩
      · rw [List.flatten_cons, h1]
        unfold removeOccurrences
        rw [removeScan_of_Index old hold s j s.length hj (le_refl _)]
      · obtain ⟨u, rest, hu⟩ : ∃ u rest, splitScan old F (s.drop (j + old.length)) = u :: rest := by
          cases hsp : splitScan old F (s.drop (j + old.length)) with
          | nil => exact absurd hsp (splitScan_ne_nil old F _)
          | cons u rest => exact ⟨u, rest, rfl⟩
        rw [hu, intercalate_cons_cons, ← hu, h2]
        obtain ⟨w, hw⟩ := Index_prefix old s j hj
        have hdrop : s.drop (j + old.length) = w := by
          rw [← List.drop_drop, ← hw, List.drop_left]
        rw [hdrop, List.append_assoc, hw, List.take_append_drop]
      · intro t ht
        rcases List.mem_cons.mp ht with ht | ht
        · subst ht
          exact Index_take_free old hold s j hj
        · exact h3 t ht

/-- Removing the occurrences from copies of `old` leaves nothing. -/
theorem removeScan_copies (d : Char) (old2 : List Char) :
    ∀ (n F : Nat), ((List.replicate n (d :: old2)).flatten).length ≤ F →
      removeScan (d :: old2) F (List.replicate n (d :: old2)).flatten = []
  | 0, F, _ => by cases F <;> rfl
  | n + 1, F, hF => by
    obtain ⟨G, rfl⟩ : ∃ G, F = G + 1 := ⟨F - 1, by
      simp only [List.replicate_succ, List.flatten_cons, List.length_append,
        List.length_cons] at hF
      omega⟩
    have hpre : (d :: old2) <+: d :: (old2 ++ (List.replicate n (d :: old2)).flatten) :=
      ⟨(List.replicate n (d :: old2)).flatten, rfl⟩
    show removeScan (d :: old2) (G + 1)
      (d :: (old2 ++ (List.replicate n (d :: old2)).flatten)) = []
    rw [removeScan, if_pos hpre]
    have hdrop : (d :: (old2 ++ (List.replicate n (d :: old2)).flatten)).drop
        (d :: old2).length = (List.replicate n (d :: old2)).flatten := by
      simp
    rw [hdrop]
    apply removeScan_copies d old2 n G
    simp only [List.replicate_succ, List.flatten_cons, List.length_append,
      List.length_cons] at hF
    omega

/-- A text without `old`, followed by copies of `old`, does not start with
`old` unless it is empty, provided no end of `old` is a start of `old`. -/
theorem not_prefix_stem (old : List Char)
    (hborder : ∀ m, m < old.length → 0 < m → old.drop m ≠ old.take (old.length - m))
    (c : Char) (stem : List Char) (n : Nat) (hfree : ¬ old <:+: c :: stem) :
    ¬ old <+: (c :: stem) ++ (List.replicate n old).flatten := by
  intro hpre
  have hself : (c :: stem) <+: (c :: stem) ++ (List.replicate n old).flatten :=
    List.prefix_append _ _
  by_cases hle : old.length ≤ (c :: stem).length
  · exact hfree (List.prefix_of_prefix_length_le hpre hself hle).isInfix
  · have hlt : (c :: stem).length < old.length := by omega
    obtain ⟨u, hu⟩ := List.prefix_of_prefix_length_le hself hpre (by omega)
    have hulen : u.length = old.length - (c :: stem).length := by
      have := congrArg List.length hu
      simp only [List.length_append] at this
      omega
    have hudrop : old.drop (c :: stem).length = u := by
      rw [← hu, List.drop_left]
    have hpre2 : (c :: stem) ++ u <+: (c :: stem) ++ (List.replicate n old).flatten := by
      rw [hu]; exact hpre
    have hu2 : u <+: (List.replicate n old).flatten :=
      (List.prefix_append_right_inj _).mp hpre2
    cases n with
    | zero =>
      simp only [List.replicate_zero, List.flatten_nil, List.prefix_nil] at hu2
      rw [hu2] at hulen
      simp only [List.length_nil] at hulen
      omega
    | succ n =>
      rw [List.replicate_succ, List.flatten_cons] at hu2
      have hu3 : u <+: old :=
        List.prefix_of_prefix_length_le hu2 (List.prefix_append _ _) (by omega)
      have hutake : u = old.take (old.length - (c :: stem).length) := by
        rw [← hulen]
        exact (List.prefix_iff_eq_take.mp hu3)
      exact hborder (c :: stem).length hlt (by simp) (hudrop.trans hutake)

/-- A text without `old`, followed by copies of `old`, is reduced to the text. -/
theorem removeScan_stem_copies (d : Char) (old2 : List Char)
    (hborder : ∀ m, m < (d :: old2).length → 0 < m →
      (d :: old2).drop m ≠ (d :: old2).take ((d :: old2).length - m)) (n : Nat) :
    ∀ (stem : List Char) (F : Nat), ¬ (d :: old2) <:+: stem →
      (stem ++ (List.replicate n (d :: old2)).flatten).length ≤ F →
      removeScan (d :: old2) F (stem ++ (List.replicate n (d :: old2)).flatten) = stem
  | [], F, _, hF => by
    rw [List.nil_append] at hF ⊢
    exact removeScan_copies d old2 n F hF
  | c :: stem, F, hfree, hF => by
    obtain ⟨G, rfl⟩ : ∃ G, F = G + 1 := ⟨F - 1, by simp at hF; omega⟩
    have hpre : ¬ (d :: old2) <+: c :: (stem ++ (List.replicate n (d :: old2)).flatten) :=
      not_prefix_stem (d :: old2) hborder c stem n hfree
    show removeScan (d :: old2) (G + 1)
      (c :: (stem ++ (List.replicate n (d :: old2)).flatten)) = c :: stem
    rw [removeScan, if_neg hpre,
      removeScan_stem_copies d old2 hborder n stem G
        (fun h => hfree (List.infix_cons h))
        (by simp only [List.cons_append, List.length_cons] at hF; omega)]

/-- C15, amended: for every metadata path, the file part of the path is a list
of pieces joined by `.pw.toml`, no piece contains `.pw.toml`, and the slug is
these pieces one after the other: every occurrence found by the left-to-right
pass is removed, and an occurrence can remain in the slug only across a place
where one was removed.  Removing the suffix from the slug a second time leaves
it unchanged if and only if the slug contains no occurrence.  Whenever the
file part is a text without `.pw.toml` followed by any number of copies of
`.pw.toml`, the slug is that text, it contains no occurrence, and a second
removal leaves it unchanged. -/
theorem slug_suffix_free (mod : Mod) :
    (∃ pieces : List (List Char),
        afterLastSlash mod.FilePath.data = List.intercalate ".pw.toml".data pieces ∧
        (slugOf mod).data = pieces.flatten ∧
        ∀ t ∈ pieces, ¬ ".pw.toml".data <:+: t) ∧
      (ReplaceAll (slugOf mod) ".pw.toml" "" = slugOf mod
        ↔ ¬ ".pw.toml".data <:+: (slugOf mod).data) ∧
      (∀ (stem : List Char) (n : Nat),
        afterLastSlash mod.FilePath.data
          = stem ++ (List.replicate n ".pw.toml".data).flatten →
        ¬ ".pw.toml".data <:+: stem →
        (slugOf mod).data = stem ∧
          ¬ ".pw.toml".data <:+: (slugOf mod).data ∧
          ReplaceAll (slugOf mod) ".pw.toml" "" = slugOf mod) := by
  have hiff : ReplaceAll (slugOf mod) ".pw.toml" "" = slugOf mod
      ↔ ¬ ".pw.toml".data <:+: (slugOf mod).data := by
    rw [ReplaceAll_eq_self_iff]
    exact removeOccurrences_eq_self_iff _ (by decide) _
  refine ⟨?_, hiff, ?_⟩
  · obtain ⟨h1, h2, h3⟩ := splitScan_spec ".pw.toml".data (by decide)
      (afterLastSlash mod.FilePath.data).length (afterLastSlash mod.FilePath.data) (le_refl _)
    exact ⟨_, h2.symm, by rw [slugOf_data, h1], h3⟩
  · intro stem n hbase hfree
    have hslug : (slugOf mod).data = stem := by
      rw [slugOf_data, hbase]
      exact removeScan_stem_copies (Char.ofNat 46) "pw.toml".data (by decide) n stem _ hfree
        (le_refl _)
    have hfree2 : ¬ ".pw.toml".data <:+: (slugOf mod).data := by
      rw [hslug]; exact hfree
    exact ⟨hslug, hfree2, hiff.mpr hfree2⟩

/-- C15 (amended) at a concrete input: the path `mods/my.mod.pw.toml`, whose
slug `my.mod` has a dot. -/
theorem slug_suffix_free_witness :
    (slugOf (modAt "mods/my.mod.pw.toml")).data = "my.mod".data ∧
      ¬ ".pw.toml".data <:+: (slugOf (modAt "mods/my.mod.pw.toml")).data ∧
      ReplaceAll (slugOf (modAt "mods/my.mod.pw.toml")) ".pw.toml" ""
        = slugOf (modAt "mods/my.mod.pw.toml") :=
  (slug_suffix_free (modAt "mods/my.mod.pw.toml")).2.2 "my.mod".data 1 (by decide) (by decide)

end Packwiz
